import Mathlib

/-!
# videobrowser: path confinement, parent navigation, listing order, classification

A shallow embedding of `videobrowser.go` (package `main`).  Go strings are
modelled by Lean `String`s (sequences of Unicode scalar values); the functions
of `path/filepath` and `strings` that the program calls are modelled for the
Unix build (separator `/`, no volume names).  The file system, the working
directory and the Unicode lower-casing table are parameters of the model.
-/

namespace VideoBrowser

/-! ## `path/filepath` and `strings` (Unix) -/

/-- Whether the path begins with a separator. -/
def isRooted (p : List Char) : Bool := p.head? = some '/'

/-- The backtracking of the `..` case of `filepath.Clean`, on the buffer `out`
with its last byte first: `out.w--`, and again while `out.w > dotdot` and the
byte at `out.w` is not a separator. -/
def backtrack (dotdot : Nat) : List Char → List Char
  | [] => []
  | c :: out => if out.length > dotdot ∧ c ≠ '/' then backtrack dotdot out else out

/-- The loop `for r < n` of `filepath.Clean`: `path` is what is left to read from
index `r` on, `out` the buffer written so far with its last byte first (`out.w`
is its length), and `dotdot` the index where `..` must stop.  Every round reads
at least one byte, so `fuel` rounds suffice for a path of `fuel` bytes.  The
cases are those of the library: a separator (an empty element), the element
`.`, the element `..` (backtrack if possible, else append it to a path that is
not rooted), and a real element, copied after a separator if one is needed. -/
def cleanLoop (rooted : Bool) : Nat → List Char → List Char → Nat → List Char
  | 0, _, out, _ => out
  | fuel + 1, path, out, dotdot =>
    match path with
    | [] => out
    | c :: rest =>
      if c = '/' then cleanLoop rooted fuel rest out dotdot
      else if c = '.' ∧ (rest = [] ∨ rest.head? = some '/') then
        cleanLoop rooted fuel rest out dotdot
      else if c = '.' ∧ rest.head? = some '.' ∧
          (rest.tail = [] ∨ rest.tail.head? = some '/') then
        if out.length > dotdot then
          cleanLoop rooted fuel rest.tail (backtrack dotdot out) dotdot
        else if !rooted then
          cleanLoop rooted fuel rest.tail
            ('.' :: '.' :: (if out.length > 0 then '/' :: out else out))
            (('.' :: '.' :: (if out.length > 0 then '/' :: out else out)).length)
        else cleanLoop rooted fuel rest.tail out dotdot
      else
        cleanLoop rooted fuel ((c :: rest).dropWhile (fun x => x ≠ '/'))
          (((c :: rest).takeWhile (fun x => x ≠ '/')).reverse ++
            (if (rooted ∧ out.length ≠ 1) ∨ (!rooted ∧ out.length ≠ 0) then '/' :: out else out))
          dotdot

/-- `filepath.Clean` on the bytes of the path: the empty path gives `.`; a
rooted path starts with the separator written, `r = 1` and `dotdot = 1`; an
empty buffer at the end is turned into `.`. -/
def cleanBytes (path : List Char) : List Char :=
  if path = [] then ['.']
  else
    let out :=
      if isRooted path then cleanLoop true path.length path.tail ['/'] 1
      else cleanLoop false path.length path [] 0
    if out.length = 0 then ['.'] else out.reverse

/-- `filepath.Clean`: the shortest path equivalent to `path` by lexical processing. -/
def Clean (path : String) : String := ⟨cleanBytes path.data⟩

/-- `strings.Join(elem, "/")`. -/
def joinSep : List String → String
  | [] => ""
  | [e] => e
  | e :: t :: rest => e ++ "/" ++ joinSep (t :: rest)

/-- `filepath.Join`: the elements from the first non-empty one on are joined
with separators and cleaned; the result is empty when every element is. -/
def Join (elem : List String) : String :=
  match elem.dropWhile (fun e => e = "") with
  | [] => ""
  | e :: rest => Clean (joinSep (e :: rest))

/-- `filepath.IsAbs`. -/
def IsAbs (path : String) : Bool := isRooted path.data

/-- `filepath.Abs`, with `wd` the outcome of `os.Getwd` (`none` when it fails). -/
def Abs (wd : Option String) (path : String) : Option String :=
  if IsAbs path then some (Clean path)
  else match wd with
    | none => none
    | some d => some (Join [d, path])

/-- `strings.HasPrefix`. -/
def HasPrefix (s pre : String) : Bool := pre.data.isPrefixOf s.data

/-- The path without the characters after its last separator, as `filepath.Dir`
cuts it. -/
def dropTrailing (p : List Char) : List Char :=
  (p.reverse.dropWhile (fun c => c ≠ '/')).reverse

/-- `filepath.Dir`: all but the last element of the path, cleaned. -/
def Dir (path : String) : String :=
  Clean ⟨dropTrailing path.data⟩

/-- The backward scan of `filepath.Ext` over the reversed path; `acc` is the
part of the path already passed. -/
def extScan : List Char → List Char → List Char
  | [], _ => []
  | c :: cs, acc =>
    if c = '/' then []
    else if c = '.' then c :: acc
    else extScan cs (c :: acc)

/-- `filepath.Ext`: the suffix from the last dot of the last element on. -/
def Ext (path : String) : String := ⟨extScan path.data.reverse []⟩

/-- `filepath.Base`: the last element of the path. -/
def Base (path : String) : String :=
  if path = "" then "."
  else
    let stripped := path.data.reverse.dropWhile (fun c => c = '/')
    let last := (stripped.takeWhile (fun c => c ≠ '/')).reverse
    if last = [] then "/" else ⟨last⟩

/-- `strings.ToLower`: every rune mapped by `unicode.ToLower`, here `lower`. -/
def ToLower (lower : Char → Char) (s : String) : String := ⟨s.data.map lower⟩

/-- The comparison `<` of Go strings on lists of characters: lexicographic by
code point, which is the byte-wise order of the UTF-8 encodings. -/
def ltChars : List Char → List Char → Bool
  | _, [] => false
  | [], _ :: _ => true
  | a :: as, b :: bs =>
    if a.toNat < b.toNat then true
    else if b.toNat < a.toNat then false
    else ltChars as bs

/-- The comparison `a < b` of Go strings. -/
def strLess (a b : String) : Bool := ltChars a.data b.data

deriving instance DecidableEq for Except

/-! ## `sort.Slice` -/

/-- `data.Less(i, j)` on the slice `l` with the comparison `less` of its elements. -/
def lessAt {α : Type} (less : α → α → Bool) (l : List α) (i j : Nat) : Bool :=
  match l[i]?, l[j]? with
  | some x, some y => less x y
  | _, _ => false

/-- `data.Swap(i, j)` on the slice `l`. -/
def swapAt {α : Type} (l : List α) (i j : Nat) : List α :=
  match l[i]?, l[j]? with
  | some x, some y => (l.set i y).set j x
  | _, _ => l

/-- The inner loop of `insertionSort_func`:
`for j := i; j > a && data.Less(j, j-1); j-- { data.Swap(j, j-1) }`. -/
def insertionInner {α : Type} (less : α → α → Bool) (a : Nat) : Nat → List α → List α
  | 0, l => l
  | j + 1, l =>
    if j + 1 > a ∧ lessAt less l (j + 1) j then insertionInner less a j (swapAt l (j + 1) j)
    else l

/-- `insertionSort_func(data, a, b)`: `for i := a + 1; i < b; i++` over the inner loop. -/
def insertionSortFunc {α : Type} (less : α → α → Bool) (l : List α) (a b : Nat) : List α :=
  (List.range' (a + 1) (b - (a + 1))).foldl (fun l i => insertionInner less a i l) l

/-- The loop of `siftDown_func(data, lo, hi, first)`, from `root` on; the root
goes down one level in every round, so `fuel = hi` rounds suffice. -/
def siftDownLoop {α : Type} (less : α → α → Bool) (hi first : Nat) :
    Nat → List α → Nat → List α
  | 0, l, _ => l
  | fuel + 1, l, root =>
    if 2 * root + 1 ≥ hi then l
    else
      let child :=
        if 2 * root + 1 + 1 < hi ∧ lessAt less l (first + (2 * root + 1)) (first + (2 * root + 1) + 1)
        then 2 * root + 1 + 1 else 2 * root + 1
      if !lessAt less l (first + root) (first + child) then l
      else siftDownLoop less hi first fuel (swapAt l (first + root) (first + child)) child

/-- `siftDown_func(data, lo, hi, first)`. -/
def siftDownFunc {α : Type} (less : α → α → Bool) (l : List α) (lo hi first : Nat) : List α :=
  siftDownLoop less hi first hi l lo

/-- `heapSort_func(data, a, b)`: the heap is built with `i` from `(hi - 1) / 2`
down to 0, then the elements are popped with `i` from `hi - 1` down to 0. -/
def heapSortFunc {α : Type} (less : α → α → Bool) (l : List α) (a b : Nat) : List α :=
  let built := (List.range ((b - a - 1) / 2 + 1)).reverse.foldl
    (fun l i => siftDownFunc less l i (b - a) a) l
  (List.range (b - a)).reverse.foldl
    (fun l i => siftDownFunc less (swapAt l a (a + i)) 0 i a) built

/-- A loop `for cond(i) { i++ }`, run for at most `fuel` rounds. -/
def whileUp (cond : Nat → Bool) : Nat → Nat → Nat
  | 0, i => i
  | fuel + 1, i => if cond i then whileUp cond fuel (i + 1) else i

/-- A loop `for cond(j) { j-- }`, run for at most `fuel` rounds. -/
def whileDown (cond : Nat → Bool) : Nat → Nat → Nat
  | 0, j => j
  | fuel + 1, j => if cond j then whileDown cond fuel (j - 1) else j

/-- The `for` loop that ends `partition_func`: both scans, then a swap and
`i++`, `j--` until `i > j`; the result is the slice and the last `j`. -/
def partitionLoop {α : Type} (less : α → α → Bool) (a : Nat) :
    Nat → List α → Nat → Nat → List α × Nat
  | 0, l, _, j => (l, j)
  | fuel + 1, l, i, j =>
    let i1 := whileUp (fun i => decide (i ≤ j) && lessAt less l i a) (j + 1 - i) i
    let j1 := whileDown (fun j => decide (i1 ≤ j) && !lessAt less l j a) (j + 1 - i1) j
    if i1 > j1 then (l, j1)
    else partitionLoop less a fuel (swapAt l i1 j1) (i1 + 1) (j1 - 1)

/-- `partition_func(data, a, b, pivot)`: the slice, the new index of the pivot
and whether the slice was already partitioned. -/
def partitionFunc {α : Type} (less : α → α → Bool) (l : List α) (a b pivot : Nat) :
    List α × Nat × Bool :=
  let l0 := swapAt l a pivot
  let i := whileUp (fun i => decide (i ≤ b - 1) && lessAt less l0 i a) (b - 1 + 1 - (a + 1)) (a + 1)
  let j := whileDown (fun j => decide (i ≤ j) && !lessAt less l0 j a) (b - 1 + 1 - i) (b - 1)
  if i > j then (swapAt l0 j a, j, true)
  else
    let r := partitionLoop less a (b - a) (swapAt l0 i j) (i + 1) (j - 1)
    (swapAt r.1 r.2 a, r.2, false)

/-- The `for` loop of `partitionEqual_func`; the result is the slice and the last `i`. -/
def partitionEqualLoop {α : Type} (less : α → α → Bool) (a : Nat) :
    Nat → List α → Nat → Nat → List α × Nat
  | 0, l, i, _ => (l, i)
  | fuel + 1, l, i, j =>
    let i1 := whileUp (fun i => decide (i ≤ j) && !lessAt less l a i) (j + 1 - i) i
    let j1 := whileDown (fun j => decide (i1 ≤ j) && lessAt less l a j) (j + 1 - i1) j
    if i1 > j1 then (l, i1)
    else partitionEqualLoop less a fuel (swapAt l i1 j1) (i1 + 1) (j1 - 1)

/-- `partitionEqual_func(data, a, b, pivot)`: the slice and the index where the
elements greater than the pivot begin. -/
def partitionEqualFunc {α : Type} (less : α → α → Bool) (l : List α) (a b pivot : Nat) :
    List α × Nat :=
  partitionEqualLoop less a (b - a + 1) (swapAt l a pivot) (a + 1) (b - 1)

/-- The loop `for j := i - 1; j >= 1; j--` of `partialInsertionSort_func`, which
shifts the smaller element to the left; the argument is `j`. -/
def shiftLeft {α : Type} (less : α → α → Bool) : Nat → List α → List α
  | 0, l => l
  | j + 1, l =>
    if !lessAt less l (j + 1) j then l
    else shiftLeft less j (swapAt l (j + 1) j)

/-- The loop `for j := i + 1; j < b; j++` of `partialInsertionSort_func`, which
shifts the greater element to the right. -/
def shiftRight {α : Type} (less : α → α → Bool) (b : Nat) : Nat → List α → Nat → List α
  | 0, l, _ => l
  | fuel + 1, l, j =>
    if j < b then
      if !lessAt less l j (j - 1) then l
      else shiftRight less b fuel (swapAt l j (j - 1)) (j + 1)
    else l

/-- The loop `for j := 0; j < maxSteps; j++` of `partialInsertionSort_func`, with
`steps` rounds left; the result is the slice and whether it is sorted. -/
def partialInsertionLoop {α : Type} (less : α → α → Bool) (a b : Nat) :
    Nat → List α → Nat → List α × Bool
  | 0, l, _ => (l, false)
  | steps + 1, l, i =>
    let i1 := whileUp (fun i => decide (i < b) && !lessAt less l i (i - 1)) (b - i) i
    if i1 = b then (l, true)
    else if b - a < 50 then (l, false)
    else
      let l1 := swapAt l i1 (i1 - 1)
      let l2 := if i1 - a ≥ 2 then shiftLeft less (i1 - 1) l1 else l1
      let l3 := if b - i1 ≥ 2 then shiftRight less b (b - (i1 + 1)) l2 (i1 + 1) else l2
      partialInsertionLoop less a b steps l3 i1

/-- `partialInsertionSort_func(data, a, b)`, with `maxSteps = 5`. -/
def partialInsertionSortFunc {α : Type} (less : α → α → Bool) (l : List α) (a b : Nat) :
    List α × Bool :=
  partialInsertionLoop less a b 5 l (a + 1)

/-- The bits of `n`, counted in at most `fuel` halvings. -/
def bitsLenLoop : Nat → Nat → Nat
  | 0, _ => 0
  | fuel + 1, n => if n = 0 then 0 else bitsLenLoop fuel (n / 2) + 1

/-- `bits.Len`: the number of bits of `n`. -/
def bitsLen (n : Nat) : Nat := bitsLenLoop n n

/-- The index `breakPatterns_func` swaps with, from the value `r` of the
generator: `r & (modulus - 1)`, less `length` when that is not below it. -/
def breakOther (length r : Nat) : Nat :=
  if r % 2 ^ bitsLen length ≥ length then r % 2 ^ bitsLen length - length
  else r % 2 ^ bitsLen length

/-- `breakPatterns_func(data, a, b)`; `random k` is the value the `(k+1)`-th call
of `random.Next()` returns for the generator `xorshift(length)`. -/
def breakPatternsFunc {α : Type} (random : Nat → Nat) (l : List α) (a b : Nat) : List α :=
  if b - a ≥ 8 then
    let idx := a + ((b - a) / 4) * 2 - 1
    let l0 := swapAt l (idx - 1 + 0) (a + breakOther (b - a) (random 0))
    let l1 := swapAt l0 (idx - 1 + 1) (a + breakOther (b - a) (random 1))
    swapAt l1 (idx - 1 + 2) (a + breakOther (b - a) (random 2))
  else l

/-- `order2_func(data, a, b, swaps)`: the two indexes in order, and the count. -/
def order2Func {α : Type} (less : α → α → Bool) (l : List α) (a b swaps : Nat) :
    Nat × Nat × Nat :=
  if lessAt less l b a then (b, a, swaps + 1) else (a, b, swaps)

/-- `median_func(data, a, b, c, swaps)`: the index of the median, and the count. -/
def medianFunc {α : Type} (less : α → α → Bool) (l : List α) (a b c swaps : Nat) : Nat × Nat :=
  let r1 := order2Func less l a b swaps
  let r2 := order2Func less l r1.2.1 c r1.2.2
  let r3 := order2Func less l r1.1 r2.1 r2.2.2
  (r3.2.1, r3.2.2)

/-- `medianAdjacent_func(data, a, swaps)`. -/
def medianAdjacentFunc {α : Type} (less : α → α → Bool) (l : List α) (a swaps : Nat) :
    Nat × Nat :=
  medianFunc less l (a - 1) a (a + 1) swaps

/-- The hints of `choosePivot_func`. -/
inductive SortedHint
  | unknownHint
  | increasingHint
  | decreasingHint
  deriving DecidableEq, Repr

/-- `choosePivot_func(data, a, b)`. -/
def choosePivotFunc {α : Type} (less : α → α → Bool) (l : List α) (a b : Nat) :
    Nat × SortedHint :=
  let i := a + (b - a) / 4 * 1
  let j := a + (b - a) / 4 * 2
  let k := a + (b - a) / 4 * 3
  let r :=
    if b - a ≥ 8 then
      if b - a ≥ 50 then
        let ri := medianAdjacentFunc less l i 0
        let rj := medianAdjacentFunc less l j ri.2
        let rk := medianAdjacentFunc less l k rj.2
        medianFunc less l ri.1 rj.1 rk.1 rk.2
      else medianFunc less l i j k 0
    else (j, 0)
  if r.2 = 0 then (r.1, .increasingHint)
  else if r.2 = 12 then (r.1, .decreasingHint)
  else (r.1, .unknownHint)

/-- The loop of `reverseRange_func`. -/
def reverseLoop {α : Type} : Nat → List α → Nat → Nat → List α
  | 0, l, _, _ => l
  | fuel + 1, l, i, j => if i < j then reverseLoop fuel (swapAt l i j) (i + 1) (j - 1) else l

/-- `reverseRange_func(data, a, b)`. -/
def reverseRangeFunc {α : Type} (l : List α) (a b : Nat) : List α :=
  reverseLoop (b - a) l a (b - 1)

/-- `pdqsort_func(data, a, b, limit)` with its loop: one round of the loop, or one
call, for every unit of `fuel`; every round but the last makes the range
shorter, so `b - a + 1` units suffice.  `random` gives the values of the
generator of `breakPatterns_func` for a length. -/
def pdqsortLoop {α : Type} (less : α → α → Bool) (random : Nat → Nat → Nat) :
    Nat → List α → Nat → Nat → Nat → Bool → Bool → List α
  | 0, l, _, _, _, _, _ => l
  | fuel + 1, l, a, b, limit, wasBalanced, wasPartitioned =>
    if b - a ≤ 12 then insertionSortFunc less l a b
    else if limit = 0 then heapSortFunc less l a b
    else
      let l1 := if !wasBalanced then breakPatternsFunc (random (b - a)) l a b else l
      let limit1 := if !wasBalanced then limit - 1 else limit
      let ph := choosePivotFunc less l1 a b
      let l2 := if ph.2 = .decreasingHint then reverseRangeFunc l1 a b else l1
      let pivot := if ph.2 = .decreasingHint then (b - 1) - (ph.1 - a) else ph.1
      let hint := if ph.2 = .decreasingHint then SortedHint.increasingHint else ph.2
      let ps :=
        if wasBalanced && wasPartitioned && hint = .increasingHint then
          partialInsertionSortFunc less l2 a b
        else (l2, false)
      if ps.2 then ps.1
      else if a > 0 ∧ !lessAt less ps.1 (a - 1) pivot then
        let pe := partitionEqualFunc less ps.1 a b pivot
        pdqsortLoop less random fuel pe.1 pe.2 b limit1 wasBalanced wasPartitioned
      else
        let pt := partitionFunc less ps.1 a b pivot
        let mid := pt.2.1
        if mid - a < b - mid then
          let l5 := pdqsortLoop less random fuel pt.1 a mid limit1 true true
          pdqsortLoop less random fuel l5 (mid + 1) b limit1
            (decide (mid - a ≥ (b - a) / 8)) pt.2.2
        else
          let l5 := pdqsortLoop less random fuel pt.1 (mid + 1) b limit1 true true
          pdqsortLoop less random fuel l5 a mid limit1
            (decide (b - mid ≥ (b - a) / 8)) pt.2.2

/-- `sort.Slice(x, less)`: `pdqsort_func(data, 0, length, bits.Len(length))`. -/
def sortSlice {α : Type} (random : Nat → Nat → Nat) (less : α → α → Bool) (xs : List α) :
    List α :=
  pdqsortLoop less random (xs.length + 1) xs 0 xs.length (bitsLen xs.length) true true

/-! ## The program -/

/-- Base directory. -/
def baseDir : String := "indir"

/-- Max depth from `baseDir`. -/
def maxDepth : Int := 4

/-- The error values the program tells apart or passes on. -/
inductive GoError
  | ErrPermission
  | ErrNotExist
  | other (msg : String)
  deriving DecidableEq, Repr

/-- An entry of a listing; `Typ` is the field `Type` of the program, which is
"file" or "dir". -/
structure Entry where
  Name : String
  Path : String
  Typ : String
  deriving DecidableEq, Repr

structure PageData where
  CurrentPath : String := ""
  Entries : List Entry := []
  FileContent : String := ""
  IsFileView : Bool := false
  ParentPath : String := ""
  IsImage : Bool := false
  IsVideo : Bool := false
  deriving DecidableEq, Repr

/-- What `os.Stat` tells the program about a file. -/
structure FileInfo where
  IsDir : Bool
  IsRegular : Bool
  deriving DecidableEq, Repr

/-- One item of `os.ReadDir`. -/
structure DirEntry where
  Name : String
  IsDir : Bool
  deriving DecidableEq, Repr

/-- The environment of a request: the working directory of the process and the
answers of the file system. -/
structure World where
  Getwd : Option String
  Stat : String → Except GoError FileInfo
  ReadDir : String → Except GoError (List DirEntry)
  ReadFile : String → Except GoError String
  /-- The generator of the sort library: `Random n k` is the value of call
  `k + 1` of `Next` on the generator `xorshift(n)`. -/
  Random : Nat → Nat → Nat

/-- The calls the program makes on the file system, the template and the
response writer, in the order it makes them. -/
inductive Op
  | stat (name : String)
  | readDir (name : String)
  | readFile (name : String)
  | setHeader (key value : String)
  | serveFile (name : String)
  | execute (data : PageData)
  | httpError (msg : String) (code : Nat)
  deriving DecidableEq, Repr

/-- Safe path join. -/
def safeJoin (wd : Option String) (base rel : String) : Except GoError String :=
  let cleaned := Clean (Join [base, rel])
  let absBase := (Abs wd base).getD ""
  let absCleaned := (Abs wd cleaned).getD ""
  if !HasPrefix absCleaned absBase then .error .ErrPermission
  else .ok cleaned

/-- Parent path (never above root). -/
def parentPath (relPath : String) : String :=
  let cleaned := Clean relPath
  if cleaned = "." ∨ cleaned = "" then "."
  else
    let parent := Dir cleaned
    if parent = "." then "." else parent

/-- The entry `listDir` builds for one item of the directory `relPath`. -/
def mkEntry (relPath : String) (it : DirEntry) : Entry :=
  { Name := it.Name
    Path := Join [relPath, it.Name]
    Typ := if it.IsDir then "dir" else "file" }

/-- List directory entries with max depth: the calls made and the result. -/
def listDir (w : World) (relPath : String) (depth : Int) :
    List Op × Except GoError (List Entry) :=
  if depth > maxDepth then ([], .ok [])
  else
    match safeJoin w.Getwd baseDir relPath with
    | .error err => ([], .error err)
    | .ok full =>
      match w.ReadDir full with
      | .error err => ([.readDir full], .error err)
      | .ok items => ([.readDir full], .ok (items.map (mkEntry relPath)))

/-- The comparison the handler sorts the entries with. -/
def entryLess (lower : Char → Char) (a b : Entry) : Bool :=
  if a.Typ = b.Typ then strLess (ToLower lower a.Name) (ToLower lower b.Name)
  else a.Typ = "dir"

/-- The categories of the handler's switch on the extension. -/
inductive Category
  | Image
  | Video
  | Archive
  | PlainText
  deriving DecidableEq, Repr

/-- The switch of the handler's file branch. -/
def classify (ext : String) : Category :=
  if ext = ".png" ∨ ext = ".jpg" ∨ ext = ".jpeg" ∨ ext = ".gif" ∨ ext = ".bmp" then .Image
  else if ext = ".mp4" ∨ ext = ".webm" ∨ ext = ".ogg" then .Video
  else if ext = ".zip" then .Archive
  else .PlainText

/-- The end of the handler: media files are served directly, everything else
goes through the template. -/
def finish (info : FileInfo) (fullPath : String) (data : PageData) : List Op :=
  if info.IsRegular && (data.IsImage || data.IsVideo) then [.serveFile fullPath]
  else [.execute data]

/-- HTTP handler: the calls made for a request whose `path` query is `query`. -/
def handler (w : World) (lower : Char → Char) (query : String) : List Op :=
  let rel := if query = "" then "." else query
  match safeJoin w.Getwd baseDir rel with
  | .error _ => [.httpError "Access denied" 403]
  | .ok fullPath =>
    match w.Stat fullPath with
    | .error _ => [.stat fullPath, .httpError "Not found" 404]
    | .ok info =>
      let data : PageData := { CurrentPath := rel, ParentPath := parentPath rel }
      if info.IsDir then
        match listDir w rel 1 with
        | (ops, .error _) =>
          .stat fullPath :: ops ++ [.httpError "Error reading directory" 500]
        | (ops, .ok entries) =>
          .stat fullPath :: ops ++
            finish info fullPath
              { data with Entries := sortSlice w.Random (entryLess lower) entries, IsFileView := false }
      else
        match classify (ToLower lower (Ext fullPath)) with
        | .Image =>
          .stat fullPath :: finish info fullPath { data with IsFileView := true, IsImage := true }
        | .Video =>
          .stat fullPath :: finish info fullPath { data with IsFileView := true, IsVideo := true }
        | .Archive =>
          [.stat fullPath,
           .setHeader "Content-Type" "application/zip",
           .setHeader "Content-Disposition" ("attachment; filename=" ++ Base fullPath),
           .serveFile fullPath]
        | .PlainText =>
          match w.ReadFile fullPath with
          | .error _ =>
            [.stat fullPath, .readFile fullPath, .httpError "Could not read file" 500]
          | .ok content =>
            .stat fullPath :: .readFile fullPath ::
              finish info fullPath { data with IsFileView := true, FileContent := content }

/-! ## `Clean` by path elements -/

/-- The path element `..`. -/
def dotdot : List Char := ['.', '.']

/-- The path elements of a path: the pieces between separators, so that
`a//b/` has the elements `a`, the empty element, `b` and the empty element. -/
def elems : List Char → List (List Char)
  | [] => [[]]
  | c :: cs =>
    if c = '/' then [] :: elems cs
    else (c :: (elems cs).headD []) :: (elems cs).tail

/-- One round of the loop of `filepath.Clean`, by path elements: `out` holds the
elements written so far, the last one first, and `e` is the element read next.  An empty element
and `.` are skipped; `..` removes the last element written when that is a real
element (`out.w > dotdot`), is appended when the path is not rooted, and is
dropped at the root of a rooted path; every other element is appended. -/
def cleanStep (rooted : Bool) (out : List (List Char)) (e : List Char) : List (List Char) :=
  if e = [] ∨ e = ['.'] then out
  else if e = dotdot then
    match out with
    | t :: rest => if t ≠ dotdot then rest else if rooted then out else e :: out
    | [] => if rooted then out else e :: out
  else e :: out

/-- The elements `out` (last one first) written with separators between them. -/
def joinElems : List (List Char) → List Char
  | [] => []
  | [e] => e
  | e :: t :: rest => joinElems (t :: rest) ++ '/' :: e

/-- The string `filepath.Clean` returns for the written elements: a leading
separator when rooted, and `.` in place of the empty string. -/
def render (rooted : Bool) (out : List (List Char)) : List Char :=
  if rooted then '/' :: joinElems out
  else if out = [] then ['.'] else joinElems out

/-- The function `filepath.Clean` computes, by path elements: the elements of
the path are read in order by `cleanStep` and the written ones are rendered. -/
def cleanChars (p : List Char) : List Char :=
  render (isRooted p) ((elems p).foldl (cleanStep (isRooted p)) [])

/-! ## Examples of environments -/

/-- The segments of a path: its non-empty elements. -/
def segments (p : String) : List (List Char) :=
  (elems p.data).filter (fun e => e ≠ [])

/-- An entry as `listDir` builds it: a directory or a file. -/
def IsKind (e : Entry) : Prop := e.Typ = "dir" ∨ e.Typ = "file"

instance : DecidablePred IsKind := fun e => by
  unfold IsKind
  infer_instance

/-- A file system whose base directory holds the files `b.txt` and `a.txt` and
the directories `A` and `B`, read in this order; the process runs in `/srv`. -/
def demoWorld : World where
  Getwd := some "/srv"
  Stat := fun name =>
    if name = "indir" then .ok ⟨true, false⟩ else .error .ErrNotExist
  ReadDir := fun name =>
    if name = "indir" then
      .ok [⟨"b.txt", false⟩, ⟨"A", true⟩, ⟨"a.txt", false⟩, ⟨"B", true⟩]
    else .error .ErrNotExist
  ReadFile := fun _ => .error .ErrNotExist
  Random := fun _ _ => 0

/-- A file system in which every `os.Stat` fails with a permission error, as
when a parent directory cannot be searched. -/
def deniedWorld : World where
  Getwd := some "/srv"
  Stat := fun _ => .error .ErrPermission
  ReadDir := fun _ => .error .ErrPermission
  ReadFile := fun _ => .error .ErrPermission
  Random := fun _ _ => 0

/-- A process whose working directory cannot be determined (it was removed), on
a system where `../etc/passwd` names a regular file. -/
def lostWorld : World where
  Getwd := none
  Stat := fun name =>
    if name = "../etc/passwd" then .ok ⟨false, true⟩ else .error .ErrNotExist
  ReadDir := fun _ => .error .ErrNotExist
  ReadFile := fun name =>
    if name = "../etc/passwd" then .ok "root:x:0:0:root:/root:/bin/sh" else .error .ErrNotExist
  Random := fun _ _ => 0

/-- A file system in which every name is a regular file holding `text`. -/
def filesWorld : World where
  Getwd := some "/srv"
  Stat := fun _ => .ok ⟨false, true⟩
  ReadDir := fun _ => .error (.other "not a directory")
  ReadFile := fun _ => .ok "text"
  Random := fun _ _ => 0

/-- The names of the files of `longWorld`, in the order of `os.ReadDir`. -/
def longNames : List String :=
  ["A", "B", "C", "D", "E", "F", "G", "H", "I", "J", "K", "L", "M",
   "a", "b", "c", "d", "e", "f", "g", "h", "i", "j", "k", "l", "m"]

/-- A file system whose base directory holds 26 regular files, more than the
twelve elements up to which `sort.Slice` is an insertion sort. -/
def longWorld : World where
  Getwd := some "/srv"
  Stat := fun name =>
    if name = "indir" then .ok ⟨true, false⟩ else .error .ErrNotExist
  ReadDir := fun name =>
    if name = "indir" then .ok (longNames.map (fun n => ⟨n, false⟩)) else .error .ErrNotExist
  ReadFile := fun _ => .error .ErrNotExist
  Random := fun _ _ => 0

/-- The extensions the handler takes for images. -/
def imageExts : List String := [".png", ".jpg", ".jpeg", ".gif", ".bmp"]

/-- The extensions the handler takes for videos. -/
def videoExts : List String := [".mp4", ".webm", ".ogg"]

/-- Whether `p` is `root` or a descendant of it, segment by segment. -/
def isWithin (root p : String) : Bool := (segments root).isPrefixOf (segments p)

/-- Whether the `..` elements of the path lead above the point it starts from:
cleaned as a path that is not rooted, it keeps a `..`. -/
def climbsAbove (p : String) : Bool :=
  decide (dotdot ∈ (elems p.data).foldl (cleanStep false) [])

/-! ## The parent path as the specification words it -/

/-- The segments written one after the other with separators between them. -/
def joinPath : List (List Char) → List Char
  | [] => []
  | [e] => e
  | e :: t :: rest => e ++ '/' :: joinPath (t :: rest)

/-- The path with the given segments: after a leading separator when rooted,
and the root marker `.` when there is nothing to write. -/
def pathOf (rooted : Bool) (segs : List (List Char)) : String :=
  if rooted then ⟨'/' :: joinPath segs⟩
  else if segs = [] then "." else ⟨joinPath segs⟩

/-- The reference definition of the parent: the root marker when the path
normalizes to the root marker, and otherwise the normalized path with its last
segment removed (a leading separator stays), which is the root marker when
nothing is left. -/
def parentPathRef (p : String) : String :=
  let c := Clean p
  if c = "." then "."
  else pathOf (IsAbs c) (segments c).dropLast

/-! ## Clean paths -/

/-- What `Clean` has written before the last element: the earlier elements
followed by a separator, or only the leading separator of a rooted path. -/
def stem (rooted : Bool) (out : List (List Char)) : List Char :=
  match out with
  | [] => if rooted then ['/'] else []
  | _ :: _ => render rooted out ++ ['/']

/-- A real path element: not empty, not `.`, not `..`, and without a separator. -/
def Real (e : List Char) : Prop := e ≠ [] ∧ e ≠ ['.'] ∧ e ≠ dotdot ∧ '/' ∉ e

instance : DecidablePred Real := fun e => by
  unfold Real
  infer_instance

/-- The shape of the elements `filepath.Clean` writes (last one first): real
elements, after a run of `..` that only a path that is not rooted may have. -/
def Norm (rooted : Bool) : List (List Char) → Prop
  | [] => True
  | e :: out =>
    (Real e ∧ Norm rooted out) ∨ (rooted = false ∧ e = dotdot ∧ ∀ x ∈ out, x = dotdot)

/-- The buffer of `Clean` for the written elements, first byte first. -/
def body (rooted : Bool) (out : List (List Char)) : List Char :=
  if rooted then '/' :: joinElems out else joinElems out

/-- The index `dotdot` of the loop for a path that is not rooted: the length of
the leading run of `..` elements in the buffer. -/
def dotsLen : List (List Char) → Nat
  | [] => 0
  | e :: out => if e = dotdot then (joinElems (e :: out)).length else dotsLen out

/-- The index `dotdot` of the loop. -/
def dotdotIdx (rooted : Bool) (out : List (List Char)) : Nat :=
  if rooted then 1 else dotsLen out

/-! ## Slices by index -/

/-- The element of the slice at an index, for the proofs. -/
def val {α : Type} [Inhabited α] (l : List α) (i : Nat) : α := (l[i]?).getD default

/-- A comparison that is a strict weak order, as `sort.Slice` requires. -/
structure StrictWeak {α : Type} (less : α → α → Bool) : Prop where
  asymm : ∀ a b, less a b = true → less b a = false
  ntrans : ∀ a b c, less a b = false → less b c = false → less a c = false

/-- The slice `l'` comes from `l` by moving elements inside the range `[a, b)`. -/
structure Within {α : Type} [Inhabited α] (a b : Nat) (l l' : List α) : Prop where
  len : l'.length = l.length
  perm : l'.Perm l
  outside : ∀ k, (k < a ∨ b ≤ k) → val l' k = val l k
  inside : ∀ k, a ≤ k → k < b → ∃ k', a ≤ k' ∧ k' < b ∧ val l' k = val l k'

/-- The range `[a, b)` of the slice is ordered. -/
def SortedR {α : Type} [Inhabited α] (less : α → α → Bool) (l : List α) (a b : Nat) : Prop :=
  ∀ i j, a ≤ i → i < j → j < b → less (val l j) (val l i) = false

/-- The heap property at the node `p` of the heap of `hi` nodes that begins at
the index `first`: no child of `p` is greater than it. -/
def HeapAt {α : Type} [Inhabited α] (less : α → α → Bool) (l : List α) (first hi p : Nat) :
    Prop :=
  ∀ c, (c = 2 * p + 1 ∨ c = 2 * p + 2) → c < hi →
    less (val l (first + p)) (val l (first + c)) = false

/-- The element before the range `[a, b)`, when there is one, is not greater than
any element of the range. -/
def LowerB {α : Type} [Inhabited α] (less : α → α → Bool) (l : List α) (a b : Nat) : Prop :=
  a = 0 ∨ ∀ k, a ≤ k → k < b → less (val l k) (val l (a - 1)) = false

/-- The part of one round of `pdqsort_func` that comes before the partition: the
slice and the answer of `partialInsertionSort_func`, and the pivot. -/
def pdqPrepare {α : Type} (less : α → α → Bool) (random : Nat → Nat → Nat) (l : List α)
    (a b : Nat) (wasBalanced wasPartitioned : Bool) : (List α × Bool) × Nat :=
  let l1 := if !wasBalanced then breakPatternsFunc (random (b - a)) l a b else l
  let ph := choosePivotFunc less l1 a b
  let l2 := if ph.2 = .decreasingHint then reverseRangeFunc l1 a b else l1
  let pivot := if ph.2 = .decreasingHint then (b - 1) - (ph.1 - a) else ph.1
  let hint := if ph.2 = .decreasingHint then SortedHint.increasingHint else ph.2
  let ps :=
    if wasBalanced && wasPartitioned && hint = .increasingHint then
      partialInsertionSortFunc less l2 a b
    else (l2, false)
  (ps, pivot)

/-- The comparison `less` of the images under `f`. -/
def lessOn {α β : Type} (less : α → α → Bool) (f : β → α) (x y : β) : Bool :=
  less (f x) (f y)

/-! ## Path elements -/

theorem elems_ne_nil (p : List Char) : elems p ≠ [] := by
  cases p with
  | nil => simp [elems]
  | cons c cs => by_cases h : c = '/' <;> simp [elems, h]

theorem elems_cons_sep (cs : List Char) : elems ('/' :: cs) = [] :: elems cs := by
  simp [elems]

theorem elems_cons_of_ne {c : Char} (h : c ≠ '/') (cs : List Char) :
    elems (c :: cs) = (c :: (elems cs).headD []) :: (elems cs).tail := by
  simp [elems, h]

theorem headD_cons_tail {α : Type} (l : List α) (d : α) (h : l ≠ []) :
    l.headD d :: l.tail = l := by
  cases l with
  | nil => exact absurd rfl h
  | cons a t => rfl

/-- The elements of `a/b` are those of `a` followed by those of `b`. -/
theorem elems_append_sep (a b : List Char) :
    elems (a ++ '/' :: b) = elems a ++ elems b := by
  induction a with
  | nil => simp [elems]
  | cons c cs ih =>
    by_cases h : c = '/'
    · subst h
      simp [elems_cons_sep, ih]
    · have hne := elems_ne_nil cs
      rw [List.cons_append, elems_cons_of_ne h, elems_cons_of_ne h, ih]
      cases hcs : elems cs with
      | nil => exact absurd hcs hne
      | cons e es => simp

theorem elems_of_noSep {e : List Char} (h : '/' ∉ e) : elems e = [e] := by
  induction e with
  | nil => rfl
  | cons c cs ih =>
    have hc : c ≠ '/' := fun hc => h (by simp [hc])
    have hcs : '/' ∉ cs := fun hcs => h (List.mem_cons_of_mem _ hcs)
    rw [elems_cons_of_ne hc, ih hcs]
    rfl

theorem noSep_of_mem_elems (p : List Char) : ∀ e ∈ elems p, '/' ∉ e := by
  induction p with
  | nil => simp [elems]
  | cons c cs ih =>
    by_cases h : c = '/'
    · subst h
      intro e he
      rw [elems_cons_sep] at he
      rcases List.mem_cons.1 he with rfl | he
      · simp
      · exact ih e he
    · intro e he
      rw [elems_cons_of_ne h] at he
      have hne := elems_ne_nil cs
      cases hcs : elems cs with
      | nil => exact absurd hcs hne
      | cons x xs =>
        rw [hcs] at he ih
        rcases List.mem_cons.1 he with rfl | he
        · intro hmem
          rcases List.mem_cons.1 hmem with h1 | h1
          · exact h h1.symm
          · exact ih x (List.mem_cons_self _ _) h1
        · exact ih e (List.mem_cons_of_mem _ he)

/-! ## The loop of `Clean` -/

theorem cleanStep_skip (r : Bool) (out : List (List Char)) {e : List Char}
    (h : e = [] ∨ e = ['.']) : cleanStep r out e = out := by
  simp [cleanStep, h]

theorem cleanStep_push (r : Bool) (out : List (List Char)) {e : List Char}
    (h1 : e ≠ []) (h2 : e ≠ ['.']) (h3 : e ≠ dotdot) : cleanStep r out e = e :: out := by
  simp [cleanStep, h1, h2, h3]

theorem cleanStep_real (r : Bool) (out : List (List Char)) {e : List Char} (h : Real e) :
    cleanStep r out e = e :: out :=
  cleanStep_push r out h.1 h.2.1 h.2.2.1

theorem cleanStep_dotdot_nil (r : Bool) :
    cleanStep r [] dotdot = if r then [] else [dotdot] := by
  cases r <;> simp [cleanStep, dotdot]

theorem cleanStep_dotdot_pop (r : Bool) {t : List Char} (rest : List (List Char))
    (h : t ≠ dotdot) : cleanStep r (t :: rest) dotdot = rest := by
  simp [cleanStep, dotdot] at h ⊢
  intro h1
  exact absurd h1 h

theorem cleanStep_dotdot_dotdot (r : Bool) (rest : List (List Char)) :
    cleanStep r (dotdot :: rest) dotdot =
      if r then dotdot :: rest else dotdot :: dotdot :: rest := by
  cases r <;> simp [cleanStep, dotdot]

theorem real_ne_dotdot {e : List Char} (h : Real e) : e ≠ dotdot := h.2.2.1

theorem not_real_dotdot : ¬ Real dotdot := fun h => h.2.2.1 rfl

theorem norm_tail {r : Bool} {t : List Char} {rest : List (List Char)}
    (h : Norm r (t :: rest)) : Norm r rest := by
  rcases h with h | ⟨hr, _, hall⟩
  · exact h.2
  · subst hr
    induction rest with
    | nil => trivial
    | cons x xs ih =>
      exact Or.inr ⟨rfl, hall x (List.mem_cons_self _ _),
        fun y hy => hall y (List.mem_cons_of_mem _ hy)⟩

theorem cleanStep_norm {r : Bool} {out : List (List Char)} {e : List Char}
    (hn : Norm r out) (he : '/' ∉ e) : Norm r (cleanStep r out e) := by
  by_cases h0 : e = [] ∨ e = ['.']
  · rw [cleanStep_skip r out h0]
    exact hn
  · rw [not_or] at h0
    by_cases hd : e = dotdot
    · subst hd
      cases out with
      | nil =>
        rw [cleanStep_dotdot_nil]
        cases r
        · exact Or.inr ⟨rfl, rfl, by simp⟩
        · trivial
      | cons t rest =>
        by_cases ht : t = dotdot
        · subst ht
          rw [cleanStep_dotdot_dotdot]
          cases r
          · rcases hn with h | ⟨_, _, hall⟩
            · exact absurd h.1 not_real_dotdot
            · refine Or.inr ⟨rfl, rfl, ?_⟩
              intro x hx
              rcases List.mem_cons.1 hx with rfl | hx
              · rfl
              · exact hall x hx
          · exact hn
        · rw [cleanStep_dotdot_pop r rest ht]
          exact norm_tail hn
    · rw [cleanStep_push r out h0.1 h0.2 hd]
      exact Or.inl ⟨⟨h0.1, h0.2, hd, he⟩, hn⟩

theorem foldl_cleanStep_norm (r : Bool) (es : List (List Char)) :
    ∀ out, Norm r out → (∀ e ∈ es, '/' ∉ e) → Norm r (es.foldl (cleanStep r) out) := by
  induction es with
  | nil => intro out hn _; exact hn
  | cons e es ih =>
    intro out hn hes
    rw [List.foldl_cons]
    exact ih _ (cleanStep_norm hn (hes e (List.mem_cons_self _ _)))
      (fun x hx => hes x (List.mem_cons_of_mem _ hx))

/-- Reading the written elements again, from any state `st` and in either mode,
is the same as reading what they were written from: the elements of a clean
path that is not rooted replay the path. -/
theorem foldr_cleanStep_step (r : Bool) (st : List (List Char)) {out : List (List Char)}
    (hn : Norm false out) (e : List Char) :
    (cleanStep false out e).foldr (fun x acc => cleanStep r acc x) st =
      cleanStep r (out.foldr (fun x acc => cleanStep r acc x) st) e := by
  by_cases h0 : e = [] ∨ e = ['.']
  · rw [cleanStep_skip false out h0, cleanStep_skip r _ h0]
  · rw [not_or] at h0
    by_cases hd : e = dotdot
    · subst hd
      cases out with
      | nil => simp [cleanStep_dotdot_nil]
      | cons t rest =>
        by_cases ht : t = dotdot
        · subst ht
          simp [cleanStep_dotdot_dotdot]
        · rw [cleanStep_dotdot_pop false rest ht]
          have hreal : Real t := by
            rcases hn with h | ⟨_, h, _⟩
            · exact h.1
            · exact absurd h ht
          rw [List.foldr_cons, cleanStep_real r _ hreal, cleanStep_dotdot_pop r _ ht]
    · rw [cleanStep_push false out h0.1 h0.2 hd, List.foldr_cons]

theorem foldl_cleanStep_replay (r : Bool) (st : List (List Char)) (es : List (List Char))
    (hes : ∀ e ∈ es, '/' ∉ e) :
    (es.foldl (cleanStep false) []).foldr (fun x acc => cleanStep r acc x) st =
      es.foldl (cleanStep r) st := by
  induction es using List.reverseRecOn with
  | nil => rfl
  | append_singleton es e ih =>
    have hes1 : ∀ x ∈ es, '/' ∉ x := fun x hx => hes x (List.mem_append_left _ hx)
    rw [List.foldl_append, List.foldl_append, List.foldl_cons, List.foldl_nil,
      List.foldl_cons, List.foldl_nil,
      foldr_cleanStep_step r st (foldl_cleanStep_norm false es [] trivial hes1), ih hes1]

/-- Written elements read again in their own mode give themselves. -/
theorem foldr_cleanStep_self (r : Bool) (out : List (List Char)) (hn : Norm r out) :
    out.foldr (fun x acc => cleanStep r acc x) [] = out := by
  induction out with
  | nil => rfl
  | cons t rest ih =>
    rw [List.foldr_cons, ih (norm_tail hn)]
    rcases hn with h | ⟨hr, ht, hall⟩
    · exact cleanStep_real r rest h.1
    · subst hr ht
      cases rest with
      | nil => simp [cleanStep_dotdot_nil]
      | cons x xs =>
        have hx : x = dotdot := hall x (List.mem_cons_self _ _)
        subst hx
        simp [cleanStep_dotdot_dotdot]

/-! ## Written paths -/

theorem norm_mem {r : Bool} {out : List (List Char)} (hn : Norm r out) :
    ∀ e ∈ out, Real e ∨ e = dotdot := by
  induction out with
  | nil => simp
  | cons t rest ih =>
    intro e he
    rcases List.mem_cons.1 he with rfl | he
    · rcases hn with h | ⟨_, h, _⟩
      · exact Or.inl h.1
      · exact Or.inr h
    · exact ih (norm_tail hn) e he

theorem norm_noSep {r : Bool} {out : List (List Char)} (hn : Norm r out) :
    ∀ e ∈ out, '/' ∉ e := by
  intro e he
  rcases norm_mem hn e he with h | h
  · exact h.2.2.2
  · subst h
    decide

theorem norm_ne_nil {r : Bool} {out : List (List Char)} (hn : Norm r out) :
    ∀ e ∈ out, e ≠ [] := by
  intro e he
  rcases norm_mem hn e he with h | h
  · exact h.1
  · subst h
    decide

theorem elems_joinElems (out : List (List Char)) (hne : out ≠ [])
    (hs : ∀ e ∈ out, '/' ∉ e) : elems (joinElems out) = out.reverse := by
  induction out with
  | nil => exact absurd rfl hne
  | cons e rest ih =>
    cases rest with
    | nil => simpa [joinElems] using elems_of_noSep (hs e (List.mem_cons_self _ _))
    | cons t rest =>
      have h1 : joinElems (e :: t :: rest) = joinElems (t :: rest) ++ '/' :: e := rfl
      rw [h1, elems_append_sep, ih (by simp) (fun x hx => hs x (List.mem_cons_of_mem _ hx)),
        elems_of_noSep (hs e (List.mem_cons_self _ _))]
      simp

theorem joinElems_head (out : List (List Char)) (hne : out ≠ [])
    (hs : ∀ e ∈ out, '/' ∉ e) (hn : ∀ e ∈ out, e ≠ []) :
    ∃ c cs, joinElems out = c :: cs ∧ c ≠ '/' := by
  induction out with
  | nil => exact absurd rfl hne
  | cons e rest ih =>
    cases rest with
    | nil =>
      cases he : e with
      | nil => exact absurd he (hn e (List.mem_cons_self _ _))
      | cons c cs =>
        refine ⟨c, cs, by simp [joinElems], ?_⟩
        intro hc
        exact hs e (List.mem_cons_self _ _) (by simp [he, hc])
    | cons t rest =>
      obtain ⟨c, cs, h1, h2⟩ := ih (by simp) (fun x hx => hs x (List.mem_cons_of_mem _ hx))
        (fun x hx => hn x (List.mem_cons_of_mem _ hx))
      have h3 : joinElems (e :: t :: rest) = joinElems (t :: rest) ++ '/' :: e := rfl
      exact ⟨c, cs ++ '/' :: e, by rw [h3, h1]; rfl, h2⟩

theorem render_ne_nil (r : Bool) (out : List (List Char))
    (hs : ∀ e ∈ out, '/' ∉ e) (hn : ∀ e ∈ out, e ≠ []) : render r out ≠ [] := by
  cases r
  · by_cases h : out = []
    · simp [render, h]
    · obtain ⟨c, cs, h1, _⟩ := joinElems_head out h hs hn
      simp [render, h, h1]
  · simp [render]

theorem isRooted_render (r : Bool) (out : List (List Char))
    (hs : ∀ e ∈ out, '/' ∉ e) (hn : ∀ e ∈ out, e ≠ []) : isRooted (render r out) = r := by
  cases r
  · by_cases h : out = []
    · simp [render, h, isRooted]
    · obtain ⟨c, cs, h1, h2⟩ := joinElems_head out h hs hn
      simp [render, h, h1, isRooted, h2]
  · simp [render, isRooted]

/-- Reading a written path: its elements act on any state as the written
elements do, in the order they were written. -/
theorem foldl_elems_render (r r' : Bool) (out st : List (List Char))
    (hs : ∀ e ∈ out, '/' ∉ e) :
    (elems (render r out)).foldl (cleanStep r') st =
      out.foldr (fun x acc => cleanStep r' acc x) st := by
  by_cases h : out = []
  · subst h
    cases r <;> simp [render, elems, cleanStep]
  · have h1 := elems_joinElems out h hs
    cases r
    · simp only [render, h, if_false, Bool.false_eq_true]
      rw [h1, List.foldl_reverse]
    · simp only [render, if_true]
      rw [elems_cons_sep, h1, List.foldl_cons, cleanStep_skip r' st (Or.inl rfl),
        List.foldl_reverse]

theorem cleanChars_eq (p : List Char) :
    cleanChars p = render (isRooted p) ((elems p).foldl (cleanStep (isRooted p)) []) := rfl

theorem norm_clean (r : Bool) (p : List Char) :
    Norm r ((elems p).foldl (cleanStep r) []) :=
  foldl_cleanStep_norm r (elems p) [] trivial (noSep_of_mem_elems p)

theorem cleanChars_ne_nil (p : List Char) : cleanChars p ≠ [] :=
  render_ne_nil _ _ (norm_noSep (norm_clean _ p)) (norm_ne_nil (norm_clean _ p))

theorem isRooted_cleanChars (p : List Char) : isRooted (cleanChars p) = isRooted p :=
  isRooted_render _ _ (norm_noSep (norm_clean _ p)) (norm_ne_nil (norm_clean _ p))

/-- `Clean` is idempotent. -/
theorem cleanChars_idem (p : List Char) : cleanChars (cleanChars p) = cleanChars p := by
  have hn := norm_clean (isRooted p) p
  rw [cleanChars_eq (cleanChars p), isRooted_cleanChars, cleanChars_eq p,
    foldl_elems_render _ _ _ _ (norm_noSep hn), foldr_cleanStep_self _ _ hn]

theorem isRooted_append {a : List Char} (h : a ≠ []) (b : List Char) :
    isRooted (a ++ b) = isRooted a := by
  cases a with
  | nil => exact absurd rfl h
  | cons c cs => rfl

theorem cleanChars_append_sep {a : List Char} (h : a ≠ []) (b : List Char) :
    cleanChars (a ++ '/' :: b) =
      render (isRooted a)
        ((elems b).foldl (cleanStep (isRooted a)) ((elems a).foldl (cleanStep (isRooted a)) [])) := by
  rw [cleanChars_eq, isRooted_append h, elems_append_sep, List.foldl_append]

/-- Cleaning the second part of a joined path first changes nothing, when that
part is not rooted. -/
theorem cleanChars_append_clean_right {a : List Char} (h : a ≠ []) (b : List Char)
    (hb : isRooted b = false) :
    cleanChars (a ++ '/' :: cleanChars b) = cleanChars (a ++ '/' :: b) := by
  rw [cleanChars_append_sep h, cleanChars_append_sep h, cleanChars_eq b, hb,
    foldl_elems_render _ _ _ _ (norm_noSep (norm_clean false b)),
    foldl_cleanStep_replay _ _ _ (noSep_of_mem_elems b)]

/-- Cleaning the first part of a joined path first changes nothing. -/
theorem cleanChars_append_clean_left {a : List Char} (h : a ≠ []) (b : List Char) :
    cleanChars (cleanChars a ++ '/' :: b) = cleanChars (a ++ '/' :: b) := by
  have hn := norm_clean (isRooted a) a
  rw [cleanChars_append_sep (cleanChars_ne_nil a), cleanChars_append_sep h,
    isRooted_cleanChars, cleanChars_eq a,
    foldl_elems_render _ _ _ _ (norm_noSep hn), foldr_cleanStep_self _ _ hn]

/-! ## The loop of `Clean` on bytes -/

theorem elems_takeWhile (p : List Char) :
    elems p = p.takeWhile (fun x => x ≠ '/') ::
      (match p.dropWhile (fun x => x ≠ '/') with
        | [] => []
        | _ :: x => elems x) := by
  induction p with
  | nil => rfl
  | cons c cs ih =>
    by_cases h : c = '/'
    · subst h
      simp [elems]
    · rw [elems_cons_of_ne h, ih]
      simp [List.takeWhile, List.dropWhile, h]

theorem dropWhile_head_sep : ∀ (p : List Char) (d : Char) (x : List Char),
    p.dropWhile (fun x => x ≠ '/') = d :: x → d = '/' := by
  intro p
  induction p with
  | nil => intro d x h; simp at h
  | cons c cs ih =>
    intro d x h
    by_cases hc : c = '/'
    · subst hc
      simp [List.dropWhile] at h
      exact h.1.symm
    · rw [List.dropWhile_cons, if_pos (by simpa using hc)] at h
      exact ih d x h

theorem foldl_elems_split (r : Bool) (st : List (List Char)) (p : List Char) :
    (elems p).foldl (cleanStep r) st =
      (elems (p.dropWhile (fun x => x ≠ '/'))).foldl (cleanStep r)
        (cleanStep r st (p.takeWhile (fun x => x ≠ '/'))) := by
  rw [elems_takeWhile p, List.foldl_cons]
  cases h : p.dropWhile (fun x => x ≠ '/') with
  | nil => simp [elems, cleanStep]
  | cons d x =>
    have hd : d = '/' := dropWhile_head_sep p d x h
    subst hd
    simp [elems_cons_sep, cleanStep]

theorem body_cons (r : Bool) (e : List Char) (st : List (List Char)) :
    body r (e :: st) = body r st ++ ((if st = [] then [] else ['/']) ++ e) := by
  cases st with
  | nil => cases r <;> simp [body, joinElems]
  | cons t rest => cases r <;> simp [body, joinElems]

theorem body_reverse_cons (r : Bool) (e : List Char) (st : List (List Char)) :
    (body r (e :: st)).reverse =
      e.reverse ++ ((if st = [] then [] else ['/']) ++ (body r st).reverse) := by
  rw [body_cons]
  cases st with
  | nil => simp
  | cons t rest => simp

theorem joinElems_length_pos (st : List (List Char)) (hne : st ≠ [])
    (hs : ∀ e ∈ st, '/' ∉ e) (hn : ∀ e ∈ st, e ≠ []) : 0 < (joinElems st).length := by
  obtain ⟨c, cs, h, _⟩ := joinElems_head st hne hs hn
  rw [h]
  simp

theorem body_length_nil_iff (r : Bool) (st : List (List Char)) (hn : Norm r st) :
    (body r st).length = (if r then 1 else 0) ↔ st = [] := by
  constructor
  · intro h
    by_contra hne
    have hpos := joinElems_length_pos st hne (norm_noSep hn) (norm_ne_nil hn)
    cases r
    · simp [body] at h
      rw [h] at hpos
      simp at hpos
    · simp [body] at h
      rw [h] at hpos
      simp at hpos
  · intro h
    subst h
    cases r <;> rfl

/-- Whether the loop writes a separator before the next element. -/
theorem sep_needed (r : Bool) (st : List (List Char)) (hn : Norm r st) :
    ((r = true ∧ (body r st).reverse.length ≠ 1) ∨
      ((!r) = true ∧ (body r st).reverse.length ≠ 0)) ↔ st ≠ [] := by
  have h := body_length_nil_iff r st hn
  rw [List.length_reverse]
  cases r
  · simp at h ⊢
    simpa [body] using not_congr h
  · simp at h ⊢
    simpa [body] using not_congr h

theorem dotsLen_le (st : List (List Char)) : dotsLen st ≤ (joinElems st).length := by
  induction st with
  | nil => simp [dotsLen]
  | cons e rest ih =>
    unfold dotsLen
    by_cases h : e = dotdot
    · rw [if_pos h]
    · rw [if_neg h]
      refine le_trans ih ?_
      cases rest with
      | nil => simp [joinElems]
      | cons t rest =>
        have h1 : joinElems (e :: t :: rest) = joinElems (t :: rest) ++ '/' :: e := rfl
        rw [h1, List.length_append]
        exact Nat.le_add_right _ _

theorem dotdotIdx_le (r : Bool) (st : List (List Char)) :
    dotdotIdx r st ≤ (body r st).length := by
  cases r
  · simpa [dotdotIdx, body] using dotsLen_le st
  · simp [dotdotIdx, body]

theorem dotdotIdx_cons (r : Bool) {e : List Char} (h : e ≠ dotdot) (st : List (List Char)) :
    dotdotIdx r (e :: st) = dotdotIdx r st := by
  cases r
  · simp [dotdotIdx, dotsLen, h]
  · rfl

/-- The test `out.w > dotdot` of the loop: the last element written is a real one. -/
theorem can_backtrack_iff (r : Bool) (st : List (List Char)) (hn : Norm r st) :
    (body r st).reverse.length > dotdotIdx r st ↔
      ∃ t rest, st = t :: rest ∧ Real t := by
  rw [List.length_reverse]
  cases st with
  | nil =>
    cases r <;> simp [body, dotdotIdx, dotsLen, joinElems]
  | cons t rest =>
    rcases hn with h | ⟨hr, ht, _⟩
    · have h1 : 0 < t.length := List.length_pos.2 h.1.1
      have h2 := dotdotIdx_le r rest
      rw [dotdotIdx_cons r h.1.2.2.1, body_cons, List.length_append, List.length_append]
      constructor
      · intro _
        exact ⟨t, rest, rfl, h.1⟩
      · intro _
        omega
    · subst hr ht
      constructor
      · intro h
        simp [dotdotIdx, dotsLen, body] at h
      · rintro ⟨t, rest', h1, h2⟩
        injection h1 with h3 _
        subst h3
        exact absurd h2 not_real_dotdot

theorem backtrack_append (dd : Nat) (S : List Char) : ∀ l : List Char, l ≠ [] → '/' ∉ l →
    dd ≤ S.length →
    backtrack dd (l ++ S) = if S.length > dd then backtrack dd S else S := by
  intro l
  induction l with
  | nil => intro h; exact absurd rfl h
  | cons c cs ih =>
    intro _ hs hdd
    have hc : c ≠ '/' := fun hc => hs (by simp [hc])
    have hcs : '/' ∉ cs := fun hcs => hs (List.mem_cons_of_mem _ hcs)
    cases cs with
    | nil =>
      simp only [List.cons_append, List.nil_append, backtrack]
      by_cases h : S.length > dd
      · simp [h, hc]
      · simp [h]
    | cons c2 cs2 =>
      have hlen : ((c2 :: cs2) ++ S).length > dd := by
        simp only [List.length_append, List.length_cons]
        omega
      rw [List.cons_append, backtrack, if_pos ⟨hlen, hc⟩]
      exact ih (by simp) hcs hdd

/-- The backtracking of the loop removes the last element written. -/
theorem backtrack_body (r : Bool) (t : List Char) (st : List (List Char))
    (hn : Norm r st) (ht : Real t) :
    backtrack (dotdotIdx r (t :: st)) (body r (t :: st)).reverse = (body r st).reverse := by
  rw [dotdotIdx_cons r ht.2.2.1, body_reverse_cons]
  have hdd := dotdotIdx_le r st
  have htr : t.reverse ≠ [] := by simpa using ht.1
  have hts : '/' ∉ t.reverse := by simpa using ht.2.2.2
  by_cases hst : st = []
  · subst hst
    simp only [if_true, List.nil_append]
    rw [backtrack_append _ _ _ htr hts (by rw [List.length_reverse]; exact hdd)]
    have h : ¬ (body r []).reverse.length > dotdotIdx r [] := by
      cases r <;> simp [body, dotdotIdx, dotsLen, joinElems]
    rw [if_neg h]
  · simp only [hst, if_false]
    rw [backtrack_append _ _ _ htr hts (by simp; omega)]
    have h : (['/'] ++ (body r st).reverse).length > dotdotIdx r st := by
      simp
      omega
    rw [if_pos h]
    simp [backtrack]

theorem takeWhile_eq_nil_iff (l : List Char) :
    l.takeWhile (fun x => x ≠ '/') = [] ↔ (l = [] ∨ l.head? = some '/') := by
  cases l with
  | nil => simp
  | cons c cs =>
    by_cases h : c = '/'
    · simp [List.takeWhile, h]
    · simp [List.takeWhile, h]

theorem noSep_takeWhile (l : List Char) : '/' ∉ l.takeWhile (fun x => x ≠ '/') := by
  intro h
  have := List.mem_takeWhile_imp h
  simp at this

theorem dropWhile_length_le (l : List Char) :
    (l.dropWhile (fun x => x ≠ '/')).length ≤ l.length := by
  induction l with
  | nil => simp
  | cons c cs ih =>
    rw [List.dropWhile_cons]
    split
    · exact Nat.le_succ_of_le ih
    · exact Nat.le_refl _

/-- The element the loop reads at `c :: rest`, in its three cases. -/
theorem elem_cases (c : Char) (rest : List Char) (hc : c ≠ '/') :
    ((c = '.' ∧ (rest = [] ∨ rest.head? = some '/')) ↔
      (c :: rest).takeWhile (fun x => x ≠ '/') = ['.']) ∧
    ((c = '.' ∧ rest.head? = some '.' ∧ (rest.tail = [] ∨ rest.tail.head? = some '/')) ↔
      (c :: rest).takeWhile (fun x => x ≠ '/') = dotdot) := by
  have h0 : (c :: rest).takeWhile (fun x => x ≠ '/') =
      c :: rest.takeWhile (fun x => x ≠ '/') := by
    simp [List.takeWhile, hc]
  rw [h0]
  constructor
  · rw [← takeWhile_eq_nil_iff]
    simp
  · cases rest with
    | nil => simp [dotdot]
    | cons d ds =>
      by_cases hd : d = '/'
      · subst hd
        simp [dotdot, List.takeWhile]
      · have h1 : (d :: ds).takeWhile (fun x => x ≠ '/') =
            d :: ds.takeWhile (fun x => x ≠ '/') := by
          simp [List.takeWhile, hd]
        rw [h1]
        simp only [List.head?_cons, List.tail_cons, dotdot, List.cons.injEq, Option.some.injEq]
        rw [← takeWhile_eq_nil_iff]

theorem dropWhile_after_elem (c : Char) (rest : List Char) (hc : c ≠ '/') :
    ((c :: rest).takeWhile (fun x => x ≠ '/') = ['.'] →
      (c :: rest).dropWhile (fun x => x ≠ '/') = rest) ∧
    ((c :: rest).takeWhile (fun x => x ≠ '/') = dotdot →
      (c :: rest).dropWhile (fun x => x ≠ '/') = rest.tail) := by
  have h0 : (c :: rest).takeWhile (fun x => x ≠ '/') =
      c :: rest.takeWhile (fun x => x ≠ '/') := by
    simp [List.takeWhile, hc]
  have h1 : (c :: rest).dropWhile (fun x => x ≠ '/') = rest.dropWhile (fun x => x ≠ '/') := by
    simp [List.dropWhile, hc]
  rw [h0, h1]
  constructor
  · intro h
    have h2 : rest.takeWhile (fun x => x ≠ '/') = [] := by
      injection h with _ h
    rcases (takeWhile_eq_nil_iff rest).1 h2 with h3 | h3
    · subst h3; rfl
    · cases rest with
      | nil => rfl
      | cons d ds =>
        simp at h3
        subst h3
        simp [List.dropWhile]
  · intro h
    cases rest with
    | nil => simp [dotdot] at h
    | cons d ds =>
      by_cases hd : d = '/'
      · subst hd
        simp [dotdot, List.takeWhile] at h
      · have h2 : (d :: ds).takeWhile (fun x => x ≠ '/') =
            d :: ds.takeWhile (fun x => x ≠ '/') := by
          simp [List.takeWhile, hd]
        rw [h2] at h
        simp only [dotdot, List.cons.injEq] at h
        have h3 : (d :: ds).dropWhile (fun x => x ≠ '/') = ds.dropWhile (fun x => x ≠ '/') := by
          simp [List.dropWhile, hd]
        rw [h3, List.tail_cons]
        rcases (takeWhile_eq_nil_iff ds).1 h.2.2 with h4 | h4
        · subst h4; rfl
        · cases ds with
          | nil => rfl
          | cons x xs =>
            simp at h4
            subst h4
            simp [List.dropWhile]

/-- The loop of `filepath.Clean` on bytes computes the buffer of the elements
that `cleanStep` writes for the elements of the path. -/
theorem cleanLoop_spec (r : Bool) : ∀ (fuel : Nat) (path : List Char) (st : List (List Char)),
    path.length ≤ fuel → Norm r st →
    cleanLoop r fuel path (body r st).reverse (dotdotIdx r st) =
      (body r ((elems path).foldl (cleanStep r) st)).reverse := by
  intro fuel
  induction fuel with
  | zero =>
    intro path st hlen _
    have hp : path = [] := List.length_eq_zero.1 (Nat.le_zero.1 hlen)
    subst hp
    simp [cleanLoop, elems, cleanStep]
  | succ n ih =>
    intro path st hlen hn
    cases path with
    | nil => simp [cleanLoop, elems, cleanStep]
    | cons c rest =>
      have hrest : rest.length ≤ n := by simpa using hlen
      rw [foldl_elems_split r st (c :: rest)]
      simp only [cleanLoop]
      by_cases hc : c = '/'
      · subst hc
        rw [if_pos rfl, ih rest st hrest hn]
        simp [List.takeWhile, List.dropWhile, cleanStep, elems_cons_sep]
      · rw [if_neg hc]
        obtain ⟨hdot, hdd⟩ := elem_cases c rest hc
        obtain ⟨hdrop1, hdrop2⟩ := dropWhile_after_elem c rest hc
        by_cases h1 : c = '.' ∧ (rest = [] ∨ rest.head? = some '/')
        · rw [if_pos h1, ih rest st hrest hn, hdrop1 (hdot.1 h1), hdot.1 h1,
            cleanStep_skip r st (Or.inr rfl)]
        · rw [if_neg h1]
          by_cases h2 : c = '.' ∧ rest.head? = some '.' ∧
              (rest.tail = [] ∨ rest.tail.head? = some '/')
          · rw [if_pos h2, hdrop2 (hdd.1 h2), hdd.1 h2]
            have htail : rest.tail.length ≤ n := by
              rw [List.length_tail]
              omega
            by_cases hb : (body r st).reverse.length > dotdotIdx r st
            · rw [if_pos hb]
              obtain ⟨t, st', hst, hreal⟩ := (can_backtrack_iff r st hn).1 hb
              subst hst
              rw [backtrack_body r t st' (norm_tail hn) hreal,
                dotdotIdx_cons r hreal.2.2.1,
                cleanStep_dotdot_pop r st' hreal.2.2.1]
              exact ih rest.tail st' htail (norm_tail hn)
            · rw [if_neg hb]
              have hnr : ¬ ∃ t rest', st = t :: rest' ∧ Real t :=
                fun h => hb ((can_backtrack_iff r st hn).2 h)
              cases r with
              | true =>
                have hst : st = [] := by
                  cases st with
                  | nil => rfl
                  | cons t st' =>
                    rcases hn with h | ⟨h, _, _⟩
                    · exact absurd ⟨t, st', rfl, h.1⟩ hnr
                    · simp at h
                subst hst
                simp only [Bool.not_true, Bool.false_eq_true, if_false]
                rw [cleanStep_dotdot_nil]
                exact ih rest.tail [] htail hn
              | false =>
                have hstep : cleanStep false st dotdot = dotdot :: st := by
                  cases st with
                  | nil => simp [cleanStep_dotdot_nil]
                  | cons t st' =>
                    rcases hn with h | ⟨_, h, _⟩
                    · exact absurd ⟨t, st', rfl, h.1⟩ hnr
                    · subst h
                      simp [cleanStep_dotdot_dotdot]
                have hn2 : Norm false (dotdot :: st) := by
                  rw [← hstep]
                  exact cleanStep_norm hn (by decide)
                have hbuf : ('.' :: '.' :: (if (body false st).reverse.length > 0
                    then '/' :: (body false st).reverse else (body false st).reverse)) =
                    (body false (dotdot :: st)).reverse := by
                  rw [body_reverse_cons]
                  have hlen := body_length_nil_iff false st hn
                  by_cases hst : st = []
                  · subst hst
                    simp [body, joinElems, dotdot]
                  · have : (body false st).reverse.length > 0 := by
                      rw [List.length_reverse]
                      have h3 : (body false st).length ≠ 0 := fun h => hst (hlen.1 (by simpa using h))
                      omega
                    have hne : body false st ≠ [] := by
                      intro h
                      rw [h] at this
                      simp at this
                    simp [hst, hne, dotdot]
                simp only [Bool.not_false, if_true]
                rw [hbuf, hstep]
                have hidx : (body false (dotdot :: st)).reverse.length =
                    dotdotIdx false (dotdot :: st) := by
                  simp [dotdotIdx, dotsLen, body]
                rw [hidx]
                exact ih rest.tail (dotdot :: st) htail hn2
          · rw [if_neg h2]
            have hreal : Real ((c :: rest).takeWhile (fun x => x ≠ '/')) := by
              refine ⟨?_, fun h => h1 (hdot.2 h), fun h => h2 (hdd.2 h), noSep_takeWhile _⟩
              simp [List.takeWhile, hc]
            have hn2 : Norm r ((c :: rest).takeWhile (fun x => x ≠ '/') :: st) :=
              Or.inl ⟨hreal, hn⟩
            have hlen2 : ((c :: rest).dropWhile (fun x => x ≠ '/')).length ≤ n := by
              have h3 : (c :: rest).dropWhile (fun x => x ≠ '/') =
                  rest.dropWhile (fun x => x ≠ '/') := by
                simp [List.dropWhile, hc]
              rw [h3]
              exact le_trans (dropWhile_length_le rest) hrest
            have hbuf : ((c :: rest).takeWhile (fun x => x ≠ '/')).reverse ++
                (if (r = true ∧ (body r st).reverse.length ≠ 1) ∨
                    ((!r) = true ∧ (body r st).reverse.length ≠ 0)
                  then '/' :: (body r st).reverse else (body r st).reverse) =
                (body r ((c :: rest).takeWhile (fun x => x ≠ '/') :: st)).reverse := by
              rw [body_reverse_cons]
              by_cases hst : st = []
              · rw [if_neg (fun h => (sep_needed r st hn).1 h hst)]
                simp [hst]
              · rw [if_pos ((sep_needed r st hn).2 hst)]
                simp [hst]
            rw [hbuf, cleanStep_real r st hreal, ← dotdotIdx_cons r hreal.2.2.1 st]
            exact ih _ _ hlen2 hn2

theorem render_eq_body (r : Bool) (st : List (List Char)) (hn : Norm r st) :
    render r st = if (body r st).reverse.length = 0 then ['.'] else (body r st).reverse.reverse := by
  cases r
  · by_cases h : st = []
    · subst h
      rfl
    · obtain ⟨c, cs, h2, _⟩ := joinElems_head st h (norm_noSep hn) (norm_ne_nil hn)
      simp [render, body, h, h2]
  · simp [render, body]

/-- The loop of `filepath.Clean` and its description by path elements agree on
every path. -/
theorem cleanBytes_eq (p : List Char) : cleanBytes p = cleanChars p := by
  unfold cleanBytes
  by_cases hp : p = []
  · subst hp
    rfl
  · rw [if_neg hp, cleanChars_eq, render_eq_body _ _ (norm_clean _ p)]
    cases p with
    | nil => exact absurd rfl hp
    | cons c x =>
      by_cases hc : c = '/'
      · subst hc
        have h1 : isRooted ('/' :: x) = true := rfl
        have h2 := cleanLoop_spec true (x.length + 1) x [] (Nat.le_succ _) trivial
        simp only [h1, if_true, List.tail_cons, List.length_cons, elems_cons_sep,
          List.foldl_cons, cleanStep_skip true [] (Or.inl rfl)]
        exact congrArg (fun out => if out.length = 0 then ['.'] else out.reverse) h2
      · have h1 : isRooted (c :: x) = false := by simp [isRooted, hc]
        have h2 := cleanLoop_spec false (x.length + 1) (c :: x) [] (Nat.le_refl _) trivial
        simp only [h1, Bool.false_eq_true, if_false, List.length_cons]
        exact congrArg (fun out => if out.length = 0 then ['.'] else out.reverse) h2

/-! ## `Clean`, `Join` and `Abs` on strings -/

theorem data_ne_nil {a : String} (h : a ≠ "") : a.data ≠ [] :=
  fun h1 => h (String.ext h1)

theorem Clean_data (p : String) : (Clean p).data = cleanChars p.data :=
  cleanBytes_eq p.data

theorem Clean_ne_empty (p : String) : Clean p ≠ "" := by
  intro h
  have h1 : (Clean p).data = [] := by rw [h]
  rw [Clean_data] at h1
  exact cleanChars_ne_nil p.data h1

theorem Clean_idem (p : String) : Clean (Clean p) = Clean p := by
  apply String.ext
  rw [Clean_data, Clean_data]
  exact cleanChars_idem p.data

theorem IsAbs_Clean (p : String) : IsAbs (Clean p) = IsAbs p := by
  unfold IsAbs
  rw [Clean_data]
  exact isRooted_cleanChars p.data

theorem sep_data (a b : String) : (a ++ "/" ++ b).data = a.data ++ '/' :: b.data := by
  simp

theorem Join_empty_left (b : String) : Join ["", b] = if b = "" then "" else Clean b := by
  by_cases h : b = ""
  · subst h
    rfl
  · simp [Join, List.dropWhile, h, joinSep]

theorem Join_of_ne {a : String} (h : a ≠ "") (b : String) :
    Join [a, b] = Clean (a ++ "/" ++ b) := by
  simp [Join, List.dropWhile, h, joinSep]

theorem Clean_sep_clean_right {a : String} (h : a ≠ "") (b : String) (hb : IsAbs b = false) :
    Clean (a ++ "/" ++ Clean b) = Clean (a ++ "/" ++ b) := by
  apply String.ext
  rw [Clean_data, Clean_data, sep_data, sep_data, Clean_data]
  exact cleanChars_append_clean_right (data_ne_nil h) b.data hb

theorem Clean_sep_clean_left {a : String} (h : a ≠ "") (b : String) :
    Clean (Clean a ++ "/" ++ b) = Clean (a ++ "/" ++ b) := by
  apply String.ext
  rw [Clean_data, Clean_data, sep_data, sep_data, Clean_data]
  exact cleanChars_append_clean_left (data_ne_nil h) b.data

theorem Clean_sep_empty {a : String} (h : a ≠ "") : Clean (a ++ "/" ++ "") = Clean a := by
  apply String.ext
  rw [Clean_data, Clean_data, sep_data, cleanChars_append_sep (data_ne_nil h)]
  rfl

theorem Clean_sep_dot {a : String} (h : a ≠ "") : Clean (a ++ "/" ++ ".") = Clean a := by
  apply String.ext
  rw [Clean_data, Clean_data, sep_data, cleanChars_append_sep (data_ne_nil h)]
  rfl

theorem HasPrefix_self (s : String) : HasPrefix s s = true := by
  simp [HasPrefix]

theorem HasPrefix_empty (s : String) : HasPrefix s "" = true := by
  simp [HasPrefix]

/-- The absolute form of the cleaned base begins with the absolute form of the base. -/
theorem HasPrefix_abs_clean (wd : Option String) (base : String) :
    HasPrefix ((Abs wd (Clean base)).getD "") ((Abs wd base).getD "") = true := by
  unfold Abs
  rw [IsAbs_Clean]
  cases hb : IsAbs base
  · cases wd with
    | none => exact HasPrefix_empty _
    | some d =>
      by_cases hd : d = ""
      · subst hd
        simp only [Bool.false_eq_true, if_false, Option.getD_some]
        rw [Join_empty_left, Join_empty_left, if_neg (Clean_ne_empty base), Clean_idem]
        by_cases hbase : base = ""
        · rw [if_pos hbase]
          exact HasPrefix_empty _
        · rw [if_neg hbase]
          exact HasPrefix_self _
      · simp only [Bool.false_eq_true, if_false, Option.getD_some]
        rw [Join_of_ne hd, Join_of_ne hd, Clean_sep_clean_right hd base hb]
        exact HasPrefix_self _
  · simp only [if_true, Option.getD_some]
    rw [Clean_idem]
    exact HasPrefix_self _

theorem safeJoin_of_clean_eq (wd : Option String) (base rel : String)
    (h : Clean (Join [base, rel]) = Clean base) : safeJoin wd base rel = .ok (Clean base) := by
  unfold safeJoin
  simp only [h, HasPrefix_abs_clean, Bool.not_true, Bool.false_eq_true, if_false]

theorem Clean_Join_empty (base : String) : Clean (Join [base, ""]) = Clean base := by
  by_cases h : base = ""
  · subst h
    rfl
  · rw [Join_of_ne h, Clean_idem, Clean_sep_empty h]

theorem Clean_Join_dot (base : String) : Clean (Join [base, "."]) = Clean base := by
  by_cases h : base = ""
  · subst h
    decide
  · rw [Join_of_ne h, Clean_idem, Clean_sep_dot h]

/-- C6: for every base directory and every working directory (also when it
cannot be determined), `safeJoin base ""` and `safeJoin base "."` succeed and
return the cleaned base, and so does every `rel` whose cleaned join with the
base is the cleaned base. -/
theorem safeJoin_root_accepted (wd : Option String) (base : String) :
    safeJoin wd base "" = .ok (Clean base) ∧
    safeJoin wd base "." = .ok (Clean base) ∧
    ∀ rel, Clean (Join [base, rel]) = Clean base → safeJoin wd base rel = .ok (Clean base) :=
  ⟨safeJoin_of_clean_eq wd base "" (Clean_Join_empty base),
   safeJoin_of_clean_eq wd base "." (Clean_Join_dot base),
   fun rel h => safeJoin_of_clean_eq wd base rel h⟩

theorem safeJoin_root_accepted_witness :
    Clean (Join ["indir", "a/.."]) = Clean "indir" ∧
    safeJoin (some "/srv") "indir" "a/.." = .ok "indir" :=
  ⟨by decide, (safeJoin_root_accepted (some "/srv") "indir").2.2 "a/.." (by decide)⟩

/-! ## The parent path -/

theorem render_cons (r : Bool) (e : List Char) (out : List (List Char)) :
    render r (e :: out) = stem r out ++ e := by
  cases out with
  | nil => cases r <;> simp [render, stem, joinElems]
  | cons t rest => cases r <;> simp [render, stem, joinElems]

theorem cleanChars_render (r : Bool) (out : List (List Char)) (hn : Norm r out) :
    cleanChars (render r out) = render r out := by
  rw [cleanChars_eq, isRooted_render r out (norm_noSep hn) (norm_ne_nil hn),
    foldl_elems_render _ _ _ _ (norm_noSep hn), foldr_cleanStep_self _ _ hn]

theorem cleanChars_append_sep_nil {a : List Char} (h : a ≠ []) :
    cleanChars (a ++ ['/']) = cleanChars a := by
  rw [cleanChars_append_sep h]
  rfl

theorem cleanChars_stem (r : Bool) (out : List (List Char)) (hn : Norm r out) :
    cleanChars (stem r out) = render r out := by
  cases out with
  | nil => cases r <;> rfl
  | cons t rest =>
    have h : render r (t :: rest) ≠ [] := render_ne_nil _ _ (norm_noSep hn) (norm_ne_nil hn)
    show cleanChars (render r (t :: rest) ++ ['/']) = _
    rw [cleanChars_append_sep_nil h, cleanChars_render r _ hn]

theorem dropWhile_noSep (l m : List Char) (h : '/' ∉ l) :
    (l ++ '/' :: m).dropWhile (fun c => c ≠ '/') = '/' :: m := by
  induction l with
  | nil => simp [List.dropWhile]
  | cons c cs ih =>
    have hc : c ≠ '/' := fun hc => h (by simp [hc])
    have hcs : '/' ∉ cs := fun hcs => h (List.mem_cons_of_mem _ hcs)
    rw [List.cons_append, List.dropWhile_cons, if_pos (by simpa using hc)]
    exact ih hcs

theorem dropWhile_noSep_all (l : List Char) (h : '/' ∉ l) :
    l.dropWhile (fun c => c ≠ '/') = [] := by
  induction l with
  | nil => rfl
  | cons c cs ih =>
    have hc : c ≠ '/' := fun hc => h (by simp [hc])
    have hcs : '/' ∉ cs := fun hcs => h (List.mem_cons_of_mem _ hcs)
    rw [List.dropWhile_cons, if_pos (by simpa using hc)]
    exact ih hcs

theorem dropTrailing_append_sep (a e : List Char) (h : '/' ∉ e) :
    dropTrailing (a ++ '/' :: e) = a ++ ['/'] := by
  unfold dropTrailing
  have h1 : (a ++ '/' :: e).reverse = e.reverse ++ '/' :: a.reverse := by simp
  rw [h1, dropWhile_noSep _ _ (by simpa using h)]
  simp

theorem dropTrailing_noSep (e : List Char) (h : '/' ∉ e) : dropTrailing e = [] := by
  unfold dropTrailing
  rw [dropWhile_noSep_all _ (by simpa using h)]
  rfl

theorem dropTrailing_stem (r : Bool) (out : List (List Char)) (e : List Char) (h : '/' ∉ e) :
    dropTrailing (stem r out ++ e) = stem r out := by
  cases out with
  | nil =>
    cases r
    · simpa [stem] using dropTrailing_noSep e h
    · simpa [stem] using dropTrailing_append_sep [] e h
  | cons t rest =>
    show dropTrailing ((render r (t :: rest) ++ ['/']) ++ e) = render r (t :: rest) ++ ['/']
    rw [List.append_assoc]
    exact dropTrailing_append_sep _ e h

theorem joinPath_append_singleton (l : List (List Char)) (e : List Char) (h : l ≠ []) :
    joinPath (l ++ [e]) = joinPath l ++ '/' :: e := by
  induction l with
  | nil => exact absurd rfl h
  | cons x xs ih =>
    cases xs with
    | nil => simp [joinPath]
    | cons y ys =>
      have h1 : joinPath (x :: (y :: ys) ++ [e]) = x ++ '/' :: joinPath ((y :: ys) ++ [e]) := rfl
      have h2 : joinPath (x :: y :: ys) = x ++ '/' :: joinPath (y :: ys) := rfl
      rw [h1, ih (by simp), h2]
      simp

theorem joinPath_reverse (out : List (List Char)) : joinPath out.reverse = joinElems out := by
  induction out with
  | nil => rfl
  | cons e rest ih =>
    cases rest with
    | nil => rfl
    | cons t rest =>
      have h1 : joinElems (e :: t :: rest) = joinElems (t :: rest) ++ '/' :: e := rfl
      rw [h1, List.reverse_cons, joinPath_append_singleton _ _ (by simp), ih]

theorem pathOf_reverse (r : Bool) (out : List (List Char)) :
    pathOf r out.reverse = ⟨render r out⟩ := by
  cases r
  · by_cases h : out = []
    · subst h
      rfl
    · simp [pathOf, render, h, joinPath_reverse]
  · simp [pathOf, render, joinPath_reverse]

theorem filter_elems_render (r : Bool) (out : List (List Char)) (hn : Norm r out)
    (h : ¬ (r = false ∧ out = [])) :
    (elems (render r out)).filter (fun e => e ≠ []) = out.reverse := by
  have hfil : out.reverse.filter (fun e => e ≠ []) = out.reverse := by
    rw [List.filter_eq_self]
    intro e he
    simpa using norm_ne_nil hn e (List.mem_reverse.1 he)
  by_cases ho : out = []
  · subst ho
    cases r
    · exact absurd ⟨rfl, rfl⟩ h
    · rfl
  · have h1 := elems_joinElems out ho (norm_noSep hn)
    cases r
    · simp only [render, ho, if_false, Bool.false_eq_true]
      rw [h1, hfil]
    · simp only [render, if_true]
      rw [elems_cons_sep, h1]
      simpa using hfil

theorem Dir_render_cons (r : Bool) (e : List Char) (out : List (List Char))
    (hn : Norm r (e :: out)) : Dir ⟨render r (e :: out)⟩ = ⟨render r out⟩ := by
  apply String.ext
  unfold Dir
  rw [Clean_data]
  show cleanChars (dropTrailing (render r (e :: out))) = render r out
  rw [render_cons, dropTrailing_stem r out e (norm_noSep hn e (List.mem_cons_self _ _)),
    cleanChars_stem r out (norm_tail hn)]

theorem ref_render_cons (r : Bool) (e : List Char) (out : List (List Char))
    (hn : Norm r (e :: out)) :
    pathOf (IsAbs ⟨render r (e :: out)⟩) (segments ⟨render r (e :: out)⟩).dropLast =
      ⟨render r out⟩ := by
  have h1 : IsAbs ⟨render r (e :: out)⟩ = r :=
    isRooted_render r _ (norm_noSep hn) (norm_ne_nil hn)
  have h2 : segments ⟨render r (e :: out)⟩ = (e :: out).reverse :=
    filter_elems_render r _ hn (by simp)
  rw [h1, h2, List.reverse_cons, List.dropLast_concat, pathOf_reverse]

theorem parentPath_eq_parentPathRef (p : String) : parentPath p = parentPathRef p := by
  have hn := norm_clean (isRooted p.data) p.data
  have hc : Clean p = ⟨render (isRooted p.data)
      ((elems p.data).foldl (cleanStep (isRooted p.data)) [])⟩ :=
    String.ext (Clean_data p)
  generalize (elems p.data).foldl (cleanStep (isRooted p.data)) [] = out at hn hc
  generalize isRooted p.data = r at hn hc
  unfold parentPath parentPathRef
  simp only []
  rw [hc]
  cases out with
  | nil =>
    cases r
    · rfl
    · rfl
  | cons e rest =>
    have hne : (⟨render r (e :: rest)⟩ : String) ≠ "" := by
      intro h
      have h1 : render r (e :: rest) = [] := congrArg String.data h
      exact render_ne_nil r _ (norm_noSep hn) (norm_ne_nil hn) h1
    rw [Dir_render_cons r e rest hn, ref_render_cons r e rest hn]
    by_cases hd : (⟨render r (e :: rest)⟩ : String) = "."
    · simp [hd]
    · simp only [hd, hne, or_self, if_false]
      by_cases hp : (⟨render r rest⟩ : String) = "."
      · simp [hp]
      · simp [hp]

/-- C7: `parentPath` is its reference definition on every input string: the
root marker `.` when the input cleans to the root marker, and otherwise the
cleaned input with its last segment removed, which is `.` when nothing is
left; so the parent of `.`, of the empty path and of the parent of `.` is `.`. -/
theorem parentPath_refines_reference :
    (∀ p, parentPath p = parentPathRef p) ∧
    (∀ p, Clean p = "." → parentPath p = ".") ∧
    parentPath "." = "." ∧ parentPath "" = "." ∧ parentPath (parentPath ".") = "." :=
  ⟨parentPath_eq_parentPathRef,
   fun p h => by simp [parentPath, h],
   by decide, by decide, by decide⟩

theorem parentPath_refines_reference_witness :
    Clean "a/.." = "." ∧ parentPath "a/.." = "." :=
  ⟨by decide, parentPath_refines_reference.2.1 "a/.." (by decide)⟩

/-! ## The order of a listing -/

theorem ltChars_asymm : ∀ a b : List Char, ltChars a b = true → ltChars b a = false := by
  intro a
  induction a with
  | nil =>
    intro b _
    cases b <;> rfl
  | cons x xs ih =>
    intro b h
    cases b with
    | nil => simp [ltChars] at h
    | cons y ys =>
      simp only [ltChars] at h ⊢
      by_cases h1 : x.toNat < y.toNat
      · have h2 : ¬ y.toNat < x.toNat := by omega
        simp [h1, h2]
      · by_cases h2 : y.toNat < x.toNat
        · simp [h1, h2] at h
        · simp only [h1, h2, if_false] at h ⊢
          exact ih ys h

theorem ltChars_ntrans : ∀ a b c : List Char,
    ltChars a b = false → ltChars b c = false → ltChars a c = false := by
  intro a
  induction a with
  | nil =>
    intro b c h1 h2
    cases b with
    | nil => exact h2
    | cons y ys => simp [ltChars] at h1
  | cons x xs ih =>
    intro b c h1 h2
    cases c with
    | nil => rfl
    | cons z zs =>
      cases b with
      | nil => simp [ltChars] at h2
      | cons y ys =>
        simp only [ltChars] at h1 h2 ⊢
        by_cases hxy : x.toNat < y.toNat
        · simp [hxy] at h1
        · by_cases hyx : y.toNat < x.toNat
          · by_cases hyz : y.toNat < z.toNat
            · simp [hyz] at h2
            · have h3 : ¬ x.toNat < z.toNat := by omega
              have h4 : z.toNat < x.toNat := by omega
              simp [h3, h4]
          · simp only [hxy, hyx, if_false] at h1
            by_cases hyz : y.toNat < z.toNat
            · simp [hyz] at h2
            · by_cases hzy : z.toNat < y.toNat
              · have h3 : ¬ x.toNat < z.toNat := by omega
                have h4 : z.toNat < x.toNat := by omega
                simp [h3, h4]
              · simp only [hyz, hzy, if_false] at h2
                have h3 : ¬ x.toNat < z.toNat := by omega
                have h4 : ¬ z.toNat < x.toNat := by omega
                simp only [h3, h4, if_false]
                exact ih ys zs h1 h2

/-! ## Slices by index: swaps -/

theorem getElemOpt_val {α : Type} [Inhabited α] {l : List α} {i : Nat} (h : i < l.length) :
    l[i]? = some (val l i) := by
  simp [val, List.getElem?_eq_getElem h]

theorem val_mem {α : Type} [Inhabited α] {l : List α} {i : Nat} (h : i < l.length) :
    val l i ∈ l := by
  have h1 : val l i = l[i] := by simp [val, List.getElem?_eq_getElem h]
  rw [h1]
  exact List.getElem_mem h

theorem lessAt_val {α : Type} [Inhabited α] (less : α → α → Bool) {l : List α} {i j : Nat}
    (hi : i < l.length) (hj : j < l.length) :
    lessAt less l i j = less (val l i) (val l j) := by
  unfold lessAt
  rw [getElemOpt_val hi, getElemOpt_val hj]

theorem swapAt_length {α : Type} (l : List α) (i j : Nat) :
    (swapAt l i j).length = l.length := by
  unfold swapAt
  cases l[i]? <;> cases l[j]? <;> simp

theorem swapAt_val {α : Type} [Inhabited α] {l : List α} {i j : Nat}
    (hi : i < l.length) (hj : j < l.length) (k : Nat) :
    val (swapAt l i j) k = if k = j then val l i else if k = i then val l j else val l k := by
  unfold swapAt
  rw [getElemOpt_val hi, getElemOpt_val hj]
  simp only [val, List.getElem?_set, List.length_set]
  by_cases h1 : j = k
  · subst h1
    simp [hj]
  · have h1' : ¬ k = j := fun h => h1 h.symm
    by_cases h2 : i = k
    · subst h2
      simp [h1, h1', hi, List.getElem?_eq_getElem hj]
    · have h2' : ¬ k = i := fun h => h2 h.symm
      simp [h1, h2, h1', h2']

theorem set_perm_cons {α : Type} : ∀ (t : List α) (j : Nat) (y a : α), t[j]? = some y →
    (y :: t.set j a).Perm (a :: t) := by
  intro t
  induction t with
  | nil => intro j y a h; simp at h
  | cons b t ih =>
    intro j y a h
    cases j with
    | zero =>
      simp at h
      subst h
      exact List.Perm.swap _ _ _
    | succ j =>
      simp at h
      have h1 := ih j y a h
      calc (y :: (b :: t).set (j + 1) a).Perm (b :: y :: t.set j a) := List.Perm.swap _ _ _
        _ |>.Perm (b :: a :: t) := List.Perm.cons b h1
        _ |>.Perm (a :: b :: t) := List.Perm.swap _ _ _

theorem set_set_perm {α : Type} : ∀ (l : List α) (i j : Nat) (x y : α),
    l[i]? = some x → l[j]? = some y → ((l.set i y).set j x).Perm l := by
  intro l
  induction l with
  | nil => intro i j x y h; simp at h
  | cons a t ih =>
    intro i j x y hx hy
    cases i with
    | zero =>
      simp at hx
      subst hx
      cases j with
      | zero =>
        simp at hy
        subst hy
        simp
      | succ j =>
        simp at hy
        simpa using set_perm_cons t j y a hy
    | succ i =>
      simp at hx
      cases j with
      | zero =>
        simp at hy
        subst hy
        simpa using set_perm_cons t i x a hx
      | succ j =>
        simp at hy
        simpa using List.Perm.cons a (ih i j x y hx hy)

theorem swapAt_perm {α : Type} (l : List α) (i j : Nat) : (swapAt l i j).Perm l := by
  unfold swapAt
  cases hx : l[i]? with
  | none => exact List.Perm.refl _
  | some x =>
    cases hy : l[j]? with
    | none => exact List.Perm.refl _
    | some y => exact set_set_perm l i j x y hx hy

/-! ## Moving elements inside a range -/

theorem Within.refl {α : Type} [Inhabited α] (a b : Nat) (l : List α) : Within a b l l :=
  ⟨rfl, List.Perm.refl _, fun _ _ => rfl, fun k h1 h2 => ⟨k, h1, h2, rfl⟩⟩

theorem Within.trans {α : Type} [Inhabited α] {a b : Nat} {l l1 l2 : List α}
    (h1 : Within a b l l1) (h2 : Within a b l1 l2) : Within a b l l2 := by
  refine ⟨h2.len.trans h1.len, h2.perm.trans h1.perm, ?_, ?_⟩
  · intro k hk
    rw [h2.outside k hk, h1.outside k hk]
  · intro k ha hb
    obtain ⟨k1, ha1, hb1, e1⟩ := h2.inside k ha hb
    obtain ⟨k2, ha2, hb2, e2⟩ := h1.inside k1 ha1 hb1
    exact ⟨k2, ha2, hb2, e1.trans e2⟩

theorem Within.widen {α : Type} [Inhabited α] {a b a0 b0 : Nat} {l l1 : List α}
    (h : Within a b l l1) (ha : a0 ≤ a) (hb : b ≤ b0) : Within a0 b0 l l1 := by
  refine ⟨h.len, h.perm, ?_, ?_⟩
  · intro k hk
    exact h.outside k (by omega)
  · intro k hk1 hk2
    by_cases hin : a ≤ k ∧ k < b
    · obtain ⟨k', h1, h2, e⟩ := h.inside k hin.1 hin.2
      exact ⟨k', by omega, by omega, e⟩
    · exact ⟨k, hk1, hk2, h.outside k (by omega)⟩

theorem Within.swap {α : Type} [Inhabited α] {a b i j : Nat} (l : List α)
    (hai : a ≤ i) (hib : i < b) (haj : a ≤ j) (hjb : j < b) (hb : b ≤ l.length) :
    Within a b l (swapAt l i j) := by
  have hi : i < l.length := by omega
  have hj : j < l.length := by omega
  refine ⟨swapAt_length l i j, swapAt_perm l i j, ?_, ?_⟩
  · intro k hk
    rw [swapAt_val hi hj]
    have h1 : ¬ k = j := by omega
    have h2 : ¬ k = i := by omega
    simp [h1, h2]
  · intro k hk1 hk2
    rw [swapAt_val hi hj]
    by_cases h1 : k = j
    · exact ⟨i, hai, hib, by simp [h1]⟩
    · by_cases h2 : k = i
      · subst h2
        exact ⟨j, haj, hjb, by simp [h1]⟩
      · exact ⟨k, hk1, hk2, by simp [h1, h2]⟩

/-- What holds of every element of the range before holds of every one after. -/
theorem Within.forall_range {α : Type} [Inhabited α] {a b : Nat} {l l1 : List α}
    (h : Within a b l l1) (P : α → Prop) (hp : ∀ k, a ≤ k → k < b → P (val l k)) :
    ∀ k, a ≤ k → k < b → P (val l1 k) := by
  intro k hk1 hk2
  obtain ⟨k', h1, h2, e⟩ := h.inside k hk1 hk2
  rw [e]
  exact hp k' h1 h2

theorem StrictWeak.irrefl {α : Type} {less : α → α → Bool} (hw : StrictWeak less) (a : α) :
    less a a = false := by
  cases h : less a a with
  | false => rfl
  | true => have := hw.asymm a a h; rw [h] at this; exact this

/-- From `a < b` and `b ≤ c` follows `a < c`. -/
theorem StrictWeak.lt_of_lt_of_le {α : Type} {less : α → α → Bool} (hw : StrictWeak less)
    {a b c : α} (h1 : less a b = true) (h2 : less c b = false) : less a c = true := by
  cases h : less a c with
  | true => rfl
  | false =>
    have := hw.ntrans a c b h h2
    rw [h1] at this
    exact absurd this (by simp)

/-- From `a ≤ b` and `b < c` follows `a < c`. -/
theorem StrictWeak.lt_of_le_of_lt {α : Type} {less : α → α → Bool} (hw : StrictWeak less)
    {a b c : α} (h1 : less b a = false) (h2 : less b c = true) : less a c = true := by
  cases h : less a c with
  | true => rfl
  | false =>
    have := hw.ntrans b a c h1 h
    rw [h2] at this
    exact absurd this (by simp)

theorem SortedR.narrow {α : Type} [Inhabited α] {less : α → α → Bool} {l : List α}
    {a b a0 b0 : Nat} (h : SortedR less l a b) (ha : a ≤ a0) (hb : b0 ≤ b) :
    SortedR less l a0 b0 :=
  fun i j h1 h2 h3 => h i j (by omega) h2 (by omega)

theorem SortedR.of_le {α : Type} [Inhabited α] (less : α → α → Bool) (l : List α)
    {a b : Nat} (h : b ≤ a + 1) : SortedR less l a b :=
  fun i j h1 h2 h3 => by omega

/-- A range that is the same slice elsewhere stays ordered. -/
theorem SortedR.congr {α : Type} [Inhabited α] {less : α → α → Bool} {l l1 : List α}
    {a b : Nat} (h : SortedR less l a b) (he : ∀ k, a ≤ k → k < b → val l1 k = val l k) :
    SortedR less l1 a b := by
  intro i j h1 h2 h3
  rw [he i h1 (by omega), he j (by omega) h3]
  exact h i j h1 h2 h3

/-! ## Insertion sort -/

theorem insertionInner_spec {α : Type} [Inhabited α] {less : α → α → Bool}
    (hw : StrictWeak less) (a : Nat) :
    ∀ (j : Nat) (l : List α) (i : Nat), a ≤ j → j ≤ i → i < l.length →
      SortedR less l a j → SortedR less l (j + 1) (i + 1) →
      (∀ p q, a ≤ p → p < j → j < q → q ≤ i → less (val l q) (val l p) = false) →
      (∀ q, j < q → q ≤ i → less (val l j) (val l q) = true) →
      Within a (i + 1) l (insertionInner less a j l) ∧
        SortedR less (insertionInner less a j l) a (i + 1) := by
  intro j
  induction j with
  | zero =>
    intro l i ha _ _ _ h2 _ h4
    refine ⟨Within.refl _ _ _, ?_⟩
    show SortedR less l a (i + 1)
    intro p q hp hpq hq
    by_cases h0 : p = 0
    · subst h0
      exact hw.asymm _ _ (h4 q hpq (by omega))
    · exact h2 p q (by omega) hpq hq
  | succ j ih =>
    intro l i ha hji hi h1 h2 h3 h4
    have hJ : j + 1 < l.length := by omega
    have hj : j < l.length := by omega
    unfold insertionInner
    by_cases hc : j + 1 > a ∧ lessAt less l (j + 1) j = true
    · rw [if_pos hc]
      have hlt : less (val l (j + 1)) (val l j) = true := by
        rw [← lessAt_val less hJ hj]; exact hc.2
      have hv := @swapAt_val α _ l (j + 1) j hJ hj
      have hlen := swapAt_length l (j + 1) j
      have hsw : Within a (i + 1) l (swapAt l (j + 1) j) :=
        Within.swap l (by omega) (by omega) (by omega) (by omega) (by omega)
      have := ih (swapAt l (j + 1) j) i (by omega) (by omega) (by omega) ?_ ?_ ?_ ?_
      · exact ⟨hsw.trans this.1, this.2⟩
      · intro p q hp hpq hq
        rw [hv p, hv q]
        have e1 : ¬ p = j := by omega
        have e2 : ¬ p = j + 1 := by omega
        have e3 : ¬ q = j := by omega
        have e4 : ¬ q = j + 1 := by omega
        simp only [e1, e2, e3, e4, if_false]
        exact h1 p q hp hpq (by omega)
      · intro p q hp hpq hq
        rw [hv p, hv q]
        have e3 : ¬ q = j := by omega
        have e4 : ¬ q = j + 1 := by omega
        have e1 : ¬ p = j := by omega
        simp only [e1, e3, e4, if_false]
        by_cases e2 : p = j + 1
        · simp only [e2, if_true]
          exact h3 j q (by omega) (by omega) (by omega) (by omega)
        · simp only [e2, if_false]
          exact h2 p q (by omega) hpq hq
      · intro p q hp hpj hjq hq
        rw [hv p, hv q]
        have e1 : ¬ p = j := by omega
        have e2 : ¬ p = j + 1 := by omega
        have e3 : ¬ q = j := by omega
        simp only [e1, e2, e3, if_false]
        by_cases e4 : q = j + 1
        · simp only [e4, if_true]
          exact h1 p j hp hpj (by omega)
        · simp only [e4, if_false]
          exact h3 p q hp (by omega) (by omega) hq
      · intro q hjq hq
        rw [hv j, hv q]
        have e3 : ¬ q = j := by omega
        have e0 : ¬ j = j + 1 := by omega
        simp only [e3, e0, if_false, if_true]
        by_cases e4 : q = j + 1
        · simp only [e4, if_true]
          exact hlt
        · simp only [e4, if_false]
          exact h4 q (by omega) hq
    · rw [if_neg hc]
      refine ⟨Within.refl _ _ _, ?_⟩
      intro p q hp hpq hq
      by_cases c1 : q < j + 1
      · exact h1 p q hp hpq c1
      · by_cases c2 : j + 1 < p
        · exact h2 p q (by omega) hpq hq
        · by_cases c3 : p = j + 1
          · subst c3
            exact hw.asymm _ _ (h4 q hpq (by omega))
          · by_cases c4 : q = j + 1
            · subst c4
              have hnl : less (val l (j + 1)) (val l j) = false := by
                rw [← lessAt_val less hJ hj]
                cases hb : lessAt less l (j + 1) j with
                | false => rfl
                | true => exact absurd ⟨by omega, hb⟩ hc
              by_cases c5 : p = j
              · subst c5
                exact hnl
              · exact hw.ntrans _ _ _ hnl (h1 p j hp (by omega) (by omega))
            · exact h3 p q hp (by omega) (by omega) (by omega)

theorem insertionSort_fold {α : Type} [Inhabited α] {less : α → α → Bool}
    (hw : StrictWeak less) (a : Nat) :
    ∀ (n s : Nat) (l : List α), a < s → s + n ≤ l.length → SortedR less l a s →
      Within a (s + n) l ((List.range' s n).foldl (fun l i => insertionInner less a i l) l) ∧
        SortedR less ((List.range' s n).foldl (fun l i => insertionInner less a i l) l)
          a (s + n) := by
  intro n
  induction n with
  | zero =>
    intro s l _ _ h
    exact ⟨Within.refl _ _ _, h⟩
  | succ n ih =>
    intro s l has hlen h
    rw [List.range'_succ, List.foldl_cons]
    have h1 := insertionInner_spec hw a s l s (by omega) (Nat.le_refl _) (by omega) h
      (SortedR.of_le less l (by omega)) (fun p q _ _ h3 h4 => by omega)
      (fun q h3 h4 => by omega)
    have h2 := ih (s + 1) (insertionInner less a s l) (by omega)
      (by rw [h1.1.len]; omega) h1.2
    have e : s + 1 + n = s + (n + 1) := by omega
    rw [e] at h2
    exact ⟨(h1.1.widen (Nat.le_refl _) (by omega)).trans h2.1, h2.2⟩

/-- `insertionSort_func` orders the range and moves nothing else. -/
theorem insertionSortFunc_spec {α : Type} [Inhabited α] {less : α → α → Bool}
    (hw : StrictWeak less) (l : List α) (a b : Nat) (hb : b ≤ l.length) :
    Within a b l (insertionSortFunc less l a b) ∧
      SortedR less (insertionSortFunc less l a b) a b := by
  unfold insertionSortFunc
  by_cases h : a + 1 ≤ b
  · have := insertionSort_fold hw a (b - (a + 1)) (a + 1) l (by omega) (by omega)
      (SortedR.of_le less l (Nat.le_refl _))
    have e : a + 1 + (b - (a + 1)) = b := by omega
    rw [e] at this
    exact this
  · have e : b - (a + 1) = 0 := by omega
    rw [e]
    exact ⟨Within.refl _ _ _, SortedR.of_le less l (by omega)⟩

/-! ## Scans, pivots and pattern breaking -/

theorem whileUp_spec (cond : Nat → Bool) : ∀ (fuel i : Nat),
    i ≤ whileUp cond fuel i ∧ whileUp cond fuel i ≤ i + fuel ∧
    (∀ k, i ≤ k → k < whileUp cond fuel i → cond k = true) ∧
    (whileUp cond fuel i < i + fuel → cond (whileUp cond fuel i) = false) := by
  intro fuel
  induction fuel with
  | zero =>
    intro i
    refine ⟨Nat.le_refl _, Nat.le_refl _, fun k h1 h2 => ?_, fun h => ?_⟩
    · simp only [whileUp] at h2; omega
    · simp only [whileUp] at h; omega
  | succ n ih =>
    intro i
    unfold whileUp
    by_cases hc : cond i = true
    · rw [if_pos hc]
      obtain ⟨h1, h2, h3, h4⟩ := ih (i + 1)
      refine ⟨by omega, by omega, fun k hk1 hk2 => ?_, fun h => h4 (by omega)⟩
      by_cases e : k = i
      · rw [e]; exact hc
      · exact h3 k (by omega) hk2
    · rw [if_neg hc]
      refine ⟨Nat.le_refl _, by omega, fun k h1 h2 => by omega, fun _ => by simpa using hc⟩

theorem whileDown_spec (cond : Nat → Bool) (h0 : cond 0 = false) : ∀ (fuel j : Nat),
    whileDown cond fuel j ≤ j ∧ j ≤ whileDown cond fuel j + fuel ∧
    (∀ k, whileDown cond fuel j < k → k ≤ j → cond k = true) ∧
    (j < whileDown cond fuel j + fuel → cond (whileDown cond fuel j) = false) := by
  intro fuel
  induction fuel with
  | zero =>
    intro j
    refine ⟨Nat.le_refl _, Nat.le_refl _, fun k h1 h2 => ?_, fun h => ?_⟩
    · simp only [whileDown] at h1; omega
    · simp only [whileDown] at h; omega
  | succ n ih =>
    intro j
    unfold whileDown
    by_cases hc : cond j = true
    · rw [if_pos hc]
      have hj : j ≠ 0 := by
        intro e
        rw [e, h0] at hc
        exact absurd hc (by simp)
      obtain ⟨h1, h2, h3, h4⟩ := ih (j - 1)
      refine ⟨by omega, by omega, fun k hk1 hk2 => ?_, fun h => h4 (by omega)⟩
      by_cases e : k = j
      · rw [e]; exact hc
      · exact h3 k hk1 (by omega)
    · rw [if_neg hc]
      refine ⟨Nat.le_refl _, by omega, fun k h1 h2 => by omega, fun _ => by simpa using hc⟩

theorem bitsLenLoop_spec : ∀ (fuel n : Nat), n ≤ fuel →
    n < 2 ^ bitsLenLoop fuel n ∧ (1 ≤ n → 2 ^ bitsLenLoop fuel n ≤ 2 * n) := by
  intro fuel
  induction fuel with
  | zero =>
    intro n h
    have : n = 0 := by omega
    subst this
    simp [bitsLenLoop]
  | succ f ih =>
    intro n h
    unfold bitsLenLoop
    by_cases hn : n = 0
    · subst hn
      simp
    · rw [if_neg hn]
      obtain ⟨h1, h2⟩ := ih (n / 2) (by omega)
      rw [pow_succ]
      constructor
      · omega
      · intro _
        by_cases h3 : 1 ≤ n / 2
        · have := h2 h3
          omega
        · have e : n / 2 = 0 := by omega
          rw [e] at h1 ⊢
          have e2 : bitsLenLoop f 0 = 0 := by
            cases f <;> simp [bitsLenLoop]
          rw [e2]
          omega

theorem breakOther_lt (length r : Nat) (h : 1 ≤ length) : breakOther length r < length := by
  unfold breakOther
  obtain ⟨h1, h2⟩ := bitsLenLoop_spec length length (Nat.le_refl _)
  have h3 : r % 2 ^ bitsLen length < 2 ^ bitsLen length :=
    Nat.mod_lt _ (Nat.pos_of_ne_zero (by positivity))
  have h4 : 2 ^ bitsLen length ≤ 2 * length := h2 h
  split
  · omega
  · omega

theorem breakPatternsFunc_within {α : Type} [Inhabited α] (random : Nat → Nat) (l : List α)
    (a b : Nat) (hb : b ≤ l.length) : Within a b l (breakPatternsFunc random l a b) := by
  unfold breakPatternsFunc
  by_cases h : b - a ≥ 8
  · rw [if_pos h]
    have o0 := breakOther_lt (b - a) (random 0) (by omega)
    have o1 := breakOther_lt (b - a) (random 1) (by omega)
    have o2 := breakOther_lt (b - a) (random 2) (by omega)
    have w0 : Within a b l (swapAt l (a + (b - a) / 4 * 2 - 1 - 1 + 0)
        (a + breakOther (b - a) (random 0))) :=
      Within.swap l (by omega) (by omega) (by omega) (by omega) hb
    have w1 := Within.swap (a := a) (b := b)
      (swapAt l (a + (b - a) / 4 * 2 - 1 - 1 + 0) (a + breakOther (b - a) (random 0)))
      (i := a + (b - a) / 4 * 2 - 1 - 1 + 1) (j := a + breakOther (b - a) (random 1))
      (by omega) (by omega) (by omega) (by omega) (by rw [w0.len]; exact hb)
    have w2 := Within.swap (a := a) (b := b)
      (swapAt (swapAt l (a + (b - a) / 4 * 2 - 1 - 1 + 0) (a + breakOther (b - a) (random 0)))
        (a + (b - a) / 4 * 2 - 1 - 1 + 1) (a + breakOther (b - a) (random 1)))
      (i := a + (b - a) / 4 * 2 - 1 - 1 + 2) (j := a + breakOther (b - a) (random 2))
      (by omega) (by omega) (by omega) (by omega) (by rw [w1.len, w0.len]; exact hb)
    exact (w0.trans w1).trans w2
  · rw [if_neg h]
    exact Within.refl _ _ _

theorem reverseLoop_within {α : Type} [Inhabited α] (a b : Nat) :
    ∀ (fuel : Nat) (l : List α) (i j : Nat), a ≤ i → j < b → b ≤ l.length →
      Within a b l (reverseLoop fuel l i j) := by
  intro fuel
  induction fuel with
  | zero => intro l i j _ _ _; exact Within.refl _ _ _
  | succ n ih =>
    intro l i j hi hj hb
    unfold reverseLoop
    by_cases h : i < j
    · rw [if_pos h]
      have w := Within.swap (a := a) (b := b) l (i := i) (j := j) hi (by omega) (by omega) hj hb
      exact w.trans (ih _ (i + 1) (j - 1) (by omega) (by omega) (by rw [w.len]; exact hb))
    · rw [if_neg h]
      exact Within.refl _ _ _

theorem reverseRangeFunc_within {α : Type} [Inhabited α] (l : List α) (a b : Nat)
    (hab : a < b) (hb : b ≤ l.length) : Within a b l (reverseRangeFunc l a b) :=
  reverseLoop_within a b (b - a) l a (b - 1) (Nat.le_refl _) (by omega) hb

theorem order2Func_fst {α : Type} (less : α → α → Bool) (l : List α) (a b s : Nat) :
    (order2Func less l a b s).1 = a ∨ (order2Func less l a b s).1 = b := by
  unfold order2Func
  split
  · exact Or.inr rfl
  · exact Or.inl rfl

theorem order2Func_snd {α : Type} (less : α → α → Bool) (l : List α) (a b s : Nat) :
    (order2Func less l a b s).2.1 = a ∨ (order2Func less l a b s).2.1 = b := by
  unfold order2Func
  split
  · exact Or.inl rfl
  · exact Or.inr rfl

theorem medianFunc_mem {α : Type} (less : α → α → Bool) (l : List α) (a b c s : Nat) :
    (medianFunc less l a b c s).1 = a ∨ (medianFunc less l a b c s).1 = b ∨
      (medianFunc less l a b c s).1 = c := by
  have e : (medianFunc less l a b c s).1 =
      (order2Func less l (order2Func less l a b s).1
        (order2Func less l (order2Func less l a b s).2.1 c (order2Func less l a b s).2.2).1
        (order2Func less l (order2Func less l a b s).2.1 c
          (order2Func less l a b s).2.2).2.2).2.1 := rfl
  rw [e]
  generalize (order2Func less l (order2Func less l a b s).2.1 c
    (order2Func less l a b s).2.2).2.2 = s2
  have h1 := order2Func_fst less l a b s
  have h2 := order2Func_snd less l a b s
  have h3 := order2Func_fst less l (order2Func less l a b s).2.1 c (order2Func less l a b s).2.2
  generalize (order2Func less l (order2Func less l a b s).2.1 c
    (order2Func less l a b s).2.2).1 = y at h3 ⊢
  generalize (order2Func less l a b s).1 = x at h1 ⊢
  generalize (order2Func less l a b s).2.1 = z at h2 h3
  have h4 := order2Func_snd less l x y s2
  generalize (order2Func less l x y s2).2.1 = r at h4 ⊢
  rcases h4 with h | h <;> rcases h1 with h1 | h1 <;> rcases h2 with h2 | h2 <;>
    rcases h3 with h3 | h3 <;> subst_vars <;> simp

theorem medianFunc_range {α : Type} (less : α → α → Bool) (l : List α) (a b c s lo hi : Nat)
    (ha : lo ≤ a ∧ a < hi) (hb : lo ≤ b ∧ b < hi) (hc : lo ≤ c ∧ c < hi) :
    lo ≤ (medianFunc less l a b c s).1 ∧ (medianFunc less l a b c s).1 < hi := by
  rcases medianFunc_mem less l a b c s with h | h | h <;> rw [h] <;> assumption

/-- The pivot `choosePivot_func` chooses lies in the range. -/
theorem choosePivotFunc_range {α : Type} (less : α → α → Bool) (l : List α) (a b : Nat)
    (h : 13 ≤ b - a) :
    a ≤ (choosePivotFunc less l a b).1 ∧ (choosePivotFunc less l a b).1 < b := by
  have key : ∀ r : Nat × Nat, (a ≤ r.1 ∧ r.1 < b) →
      a ≤ (if r.2 = 0 then (r.1, SortedHint.increasingHint)
        else if r.2 = 12 then (r.1, SortedHint.decreasingHint)
        else (r.1, SortedHint.unknownHint)).1 ∧
      (if r.2 = 0 then (r.1, SortedHint.increasingHint)
        else if r.2 = 12 then (r.1, SortedHint.decreasingHint)
        else (r.1, SortedHint.unknownHint)).1 < b := by
    intro r hr
    split
    · exact hr
    · split <;> exact hr
  unfold choosePivotFunc
  apply key
  have h8 : b - a ≥ 8 := by omega
  rw [if_pos h8]
  by_cases h50 : b - a ≥ 50
  · rw [if_pos h50]
    unfold medianAdjacentFunc
    apply medianFunc_range
    · exact medianFunc_range less l _ _ _ _ a b (by omega) (by omega) (by omega)
    · exact medianFunc_range less l _ _ _ _ a b (by omega) (by omega) (by omega)
    · exact medianFunc_range less l _ _ _ _ a b (by omega) (by omega) (by omega)
  · rw [if_neg h50]
    exact medianFunc_range less l _ _ _ _ a b (by omega) (by omega) (by omega)

/-! ## Partitions -/

theorem swapAt_val_of_ne {α : Type} [Inhabited α] {l : List α} {i j k : Nat}
    (hi : i < l.length) (hj : j < l.length) (h1 : k ≠ i) (h2 : k ≠ j) :
    val (swapAt l i j) k = val l k := by
  rw [swapAt_val hi hj]
  simp [h1, h2]

theorem swapAt_val_left {α : Type} [Inhabited α] {l : List α} {i j : Nat}
    (hi : i < l.length) (hj : j < l.length) : val (swapAt l i j) i = val l j := by
  rw [swapAt_val hi hj]
  by_cases h : i = j
  · simp [h]
  · simp [h]

theorem swapAt_val_right {α : Type} [Inhabited α] {l : List α} {i j : Nat}
    (hi : i < l.length) (hj : j < l.length) : val (swapAt l i j) j = val l i := by
  rw [swapAt_val hi hj]
  simp

theorem partitionLoop_spec {α : Type} [Inhabited α] {less : α → α → Bool}
    (a b : Nat) (p : α) :
    ∀ (fuel : Nat) (l : List α) (i j : Nat), a + 1 ≤ i → i ≤ j + 1 → j < b → b ≤ l.length →
      j + 1 - i < fuel → val l a = p →
      (∀ k, a + 1 ≤ k → k < i → less (val l k) p = true) →
      (∀ k, j < k → k < b → less (val l k) p = false) →
      Within (a + 1) b l (partitionLoop less a fuel l i j).1 ∧
      a ≤ (partitionLoop less a fuel l i j).2 ∧ (partitionLoop less a fuel l i j).2 < b ∧
      val (partitionLoop less a fuel l i j).1 a = p ∧
      (∀ k, a + 1 ≤ k → k ≤ (partitionLoop less a fuel l i j).2 →
        less (val (partitionLoop less a fuel l i j).1 k) p = true) ∧
      (∀ k, (partitionLoop less a fuel l i j).2 < k → k < b →
        less (val (partitionLoop less a fuel l i j).1 k) p = false) := by
  intro fuel
  induction fuel with
  | zero => intro l i j _ _ _ _ h; omega
  | succ n ih =>
    intro l i j hi hij hj hb hfuel hp hL hR
    have ha : a < l.length := by omega
    obtain ⟨u1, u2, u3, u4⟩ :=
      whileUp_spec (fun k => decide (k ≤ j) && lessAt less l k a) (j + 1 - i) i
    obtain ⟨d1, d2, d3, d4⟩ :=
      whileDown_spec (fun k =>
        decide (whileUp (fun k => decide (k ≤ j) && lessAt less l k a) (j + 1 - i) i ≤ k) &&
          !lessAt less l k a) (by simp; omega) (j + 1 -
        whileUp (fun k => decide (k ≤ j) && lessAt less l k a) (j + 1 - i) i) j
    unfold partitionLoop
    simp only []
    generalize whileUp (fun k => decide (k ≤ j) && lessAt less l k a) (j + 1 - i) i = i1
      at u1 u2 u3 u4 d1 d2 d3 d4 ⊢
    generalize whileDown (fun k => decide (i1 ≤ k) && !lessAt less l k a) (j + 1 - i1) j = j1
      at d1 d2 d3 d4 ⊢
    have hL1 : ∀ k, a + 1 ≤ k → k < i1 → less (val l k) p = true := by
      intro k hk1 hk2
      by_cases hk : k < i
      · exact hL k hk1 hk
      · have := u3 k (by omega) hk2
        simp only [Bool.and_eq_true, decide_eq_true_eq] at this
        rw [lessAt_val less (by omega) ha, hp] at this
        exact this.2
    have hR1 : ∀ k, j1 < k → k < b → less (val l k) p = false := by
      intro k hk1 hk2
      by_cases hk : j < k
      · exact hR k hk hk2
      · have := d3 k hk1 (by omega)
        simp only [Bool.and_eq_true, decide_eq_true_eq, Bool.not_eq_true'] at this
        rw [lessAt_val less (by omega) ha, hp] at this
        exact this.2
    have hij1 : i1 ≤ j1 + 1 := by
      by_contra hcon
      have := d3 (j1 + 1) (by omega) (by omega)
      simp only [Bool.and_eq_true, decide_eq_true_eq] at this
      omega
    by_cases hgt : i1 > j1
    · rw [if_pos hgt]
      exact ⟨Within.refl _ _ _, by omega, by omega, hp,
        fun k hk1 hk2 => hL1 k hk1 (by omega), hR1⟩
    · rw [if_neg hgt]
      have hi1 : less (val l i1) p = false := by
        have := u4 (by omega)
        simp only [Bool.and_eq_false_iff, decide_eq_false_iff_not] at this
        rcases this with h | h
        · omega
        · rw [lessAt_val less (by omega) ha, hp] at h
          exact h
      have hj1 : less (val l j1) p = true := by
        have := d4 (by omega)
        simp only [Bool.and_eq_false_iff, decide_eq_false_iff_not, Bool.not_eq_false'] at this
        rcases this with h | h
        · omega
        · rw [lessAt_val less (by omega) ha, hp] at h
          exact h
      have hne : i1 ≠ j1 := by
        intro e
        rw [e, hj1] at hi1
        exact absurd hi1 (by simp)
      have hil : i1 < l.length := by omega
      have hjl : j1 < l.length := by omega
      have hsw : Within (a + 1) b l (swapAt l i1 j1) :=
        Within.swap l (by omega) (by omega) (by omega) (by omega) hb
      have := ih (swapAt l i1 j1) (i1 + 1) (j1 - 1) (by omega) (by omega) (by omega)
        (by rw [hsw.len]; exact hb) (by omega)
        (by rw [swapAt_val_of_ne hil hjl (by omega) (by omega)]; exact hp) ?_ ?_
      · obtain ⟨r1, r2, r3, r4, r5, r6⟩ := this
        exact ⟨hsw.trans r1, r2, r3, r4, r5, r6⟩
      · intro k hk1 hk2
        by_cases e : k = i1
        · rw [e, swapAt_val_left hil hjl]
          exact hj1
        · rw [swapAt_val_of_ne hil hjl e (by omega)]
          exact hL1 k hk1 (by omega)
      · intro k hk1 hk2
        by_cases e : k = j1
        · rw [e, swapAt_val_right hil hjl]
          exact hi1
        · rw [swapAt_val_of_ne hil hjl (by omega) e]
          exact hR1 k (by omega) hk2

theorem partitionFunc_eq {α : Type} (less : α → α → Bool) (l : List α) (a b pivot : Nat) :
    (partitionFunc less l a b pivot).1 =
      swapAt (partitionLoop less a (b - a + 1) (swapAt l a pivot) (a + 1) (b - 1)).1
        (partitionLoop less a (b - a + 1) (swapAt l a pivot) (a + 1) (b - 1)).2 a ∧
    (partitionFunc less l a b pivot).2.1 =
      (partitionLoop less a (b - a + 1) (swapAt l a pivot) (a + 1) (b - 1)).2 := by
  unfold partitionFunc
  rw [partitionLoop]
  simp only []
  split <;> simp

/-- `partition_func` leaves the elements less than the pivot before it and the
others after it, inside the range. -/
theorem partitionFunc_spec {α : Type} [Inhabited α] {less : α → α → Bool}
    (l : List α) (a b pivot : Nat) (hap : a ≤ pivot) (hpb : pivot < b) (hb : b ≤ l.length) :
    Within a b l (partitionFunc less l a b pivot).1 ∧
    a ≤ (partitionFunc less l a b pivot).2.1 ∧ (partitionFunc less l a b pivot).2.1 < b ∧
    (∀ k, a ≤ k → k < (partitionFunc less l a b pivot).2.1 →
      less (val (partitionFunc less l a b pivot).1 k)
        (val (partitionFunc less l a b pivot).1 (partitionFunc less l a b pivot).2.1) = true) ∧
    (∀ k, (partitionFunc less l a b pivot).2.1 < k → k < b →
      less (val (partitionFunc less l a b pivot).1 k)
        (val (partitionFunc less l a b pivot).1 (partitionFunc less l a b pivot).2.1) = false) := by
  obtain ⟨e1, e2⟩ := partitionFunc_eq less l a b pivot
  rw [e1, e2]
  have hsw : Within a b l (swapAt l a pivot) :=
    Within.swap l (Nat.le_refl _) (by omega) hap hpb hb
  have hb0 : b ≤ (swapAt l a pivot).length := by rw [hsw.len]; exact hb
  obtain ⟨r1, r2, r3, r4, r5, r6⟩ :=
    @partitionLoop_spec α _ less a b (val (swapAt l a pivot) a) (b - a + 1)
      (swapAt l a pivot) (a + 1) (b - 1) (Nat.le_refl _) (by omega) (by omega) hb0 (by omega) rfl
      (fun k h1 h2 => by omega) (fun k h1 h2 => by omega)
  generalize partitionLoop less a (b - a + 1) (swapAt l a pivot) (a + 1) (b - 1) = r
    at r1 r2 r3 r4 r5 r6 ⊢
  have hb1 : b ≤ r.1.length := by rw [r1.len]; exact hb0
  have hm : r.2 < r.1.length := by omega
  have ha : a < r.1.length := by omega
  have hsw2 : Within a b r.1 (swapAt r.1 r.2 a) :=
    Within.swap r.1 r2 r3 (Nat.le_refl _) (by omega) hb1
  refine ⟨(hsw.trans (r1.widen (by omega) (Nat.le_refl _))).trans hsw2, r2, r3, ?_, ?_⟩
  · intro k hk1 hk2
    rw [swapAt_val_left hm ha, r4]
    by_cases e : k = a
    · rw [e, swapAt_val_right hm ha]
      exact r5 r.2 (by omega) (Nat.le_refl _)
    · rw [swapAt_val_of_ne hm ha (by omega) e]
      exact r5 k (by omega) (by omega)
  · intro k hk1 hk2
    rw [swapAt_val_left hm ha, r4, swapAt_val_of_ne hm ha (by omega) (by omega)]
    exact r6 k hk1 hk2

theorem partitionEqualLoop_spec {α : Type} [Inhabited α] {less : α → α → Bool}
    (a b : Nat) (p : α) :
    ∀ (fuel : Nat) (l : List α) (i j : Nat), a + 1 ≤ i → i ≤ j + 1 → j < b → b ≤ l.length →
      j + 1 - i < fuel → val l a = p →
      (∀ k, a + 1 ≤ k → k < i → less p (val l k) = false) →
      (∀ k, j < k → k < b → less p (val l k) = true) →
      Within (a + 1) b l (partitionEqualLoop less a fuel l i j).1 ∧
      a + 1 ≤ (partitionEqualLoop less a fuel l i j).2 ∧
      (partitionEqualLoop less a fuel l i j).2 ≤ b ∧
      val (partitionEqualLoop less a fuel l i j).1 a = p ∧
      (∀ k, a + 1 ≤ k → k < (partitionEqualLoop less a fuel l i j).2 →
        less p (val (partitionEqualLoop less a fuel l i j).1 k) = false) ∧
      (∀ k, (partitionEqualLoop less a fuel l i j).2 ≤ k → k < b →
        less p (val (partitionEqualLoop less a fuel l i j).1 k) = true) := by
  intro fuel
  induction fuel with
  | zero => intro l i j _ _ _ _ h; omega
  | succ n ih =>
    intro l i j hi hij hj hb hfuel hp hL hR
    have ha : a < l.length := by omega
    obtain ⟨u1, u2, u3, u4⟩ :=
      whileUp_spec (fun k => decide (k ≤ j) && !lessAt less l a k) (j + 1 - i) i
    obtain ⟨d1, d2, d3, d4⟩ :=
      whileDown_spec (fun k =>
        decide (whileUp (fun k => decide (k ≤ j) && !lessAt less l a k) (j + 1 - i) i ≤ k) &&
          lessAt less l a k) (by simp; omega) (j + 1 -
        whileUp (fun k => decide (k ≤ j) && !lessAt less l a k) (j + 1 - i) i) j
    unfold partitionEqualLoop
    simp only []
    generalize whileUp (fun k => decide (k ≤ j) && !lessAt less l a k) (j + 1 - i) i = i1
      at u1 u2 u3 u4 d1 d2 d3 d4 ⊢
    generalize whileDown (fun k => decide (i1 ≤ k) && lessAt less l a k) (j + 1 - i1) j = j1
      at d1 d2 d3 d4 ⊢
    have hL1 : ∀ k, a + 1 ≤ k → k < i1 → less p (val l k) = false := by
      intro k hk1 hk2
      by_cases hk : k < i
      · exact hL k hk1 hk
      · have := u3 k (by omega) hk2
        simp only [Bool.and_eq_true, decide_eq_true_eq, Bool.not_eq_true'] at this
        rw [lessAt_val less ha (by omega), hp] at this
        exact this.2
    have hR1 : ∀ k, j1 < k → k < b → less p (val l k) = true := by
      intro k hk1 hk2
      by_cases hk : j < k
      · exact hR k hk hk2
      · have := d3 k hk1 (by omega)
        simp only [Bool.and_eq_true, decide_eq_true_eq] at this
        rw [lessAt_val less ha (by omega), hp] at this
        exact this.2
    have hij1 : i1 ≤ j1 + 1 := by
      by_contra hcon
      have := d3 (j1 + 1) (by omega) (by omega)
      simp only [Bool.and_eq_true, decide_eq_true_eq] at this
      omega
    by_cases hgt : i1 > j1
    · rw [if_pos hgt]
      exact ⟨Within.refl _ _ _, by omega, by omega, hp, hL1,
        fun k hk1 hk2 => hR1 k (by omega) hk2⟩
    · rw [if_neg hgt]
      have hi1 : less p (val l i1) = true := by
        have := u4 (by omega)
        simp only [Bool.and_eq_false_iff, decide_eq_false_iff_not, Bool.not_eq_false'] at this
        rcases this with h | h
        · omega
        · rw [lessAt_val less ha (by omega), hp] at h
          exact h
      have hj1 : less p (val l j1) = false := by
        have := d4 (by omega)
        simp only [Bool.and_eq_false_iff, decide_eq_false_iff_not] at this
        rcases this with h | h
        · omega
        · rw [lessAt_val less ha (by omega), hp] at h
          exact h
      have hne : i1 ≠ j1 := by
        intro e
        rw [e, hj1] at hi1
        exact absurd hi1 (by simp)
      have hil : i1 < l.length := by omega
      have hjl : j1 < l.length := by omega
      have hsw : Within (a + 1) b l (swapAt l i1 j1) :=
        Within.swap l (by omega) (by omega) (by omega) (by omega) hb
      have := ih (swapAt l i1 j1) (i1 + 1) (j1 - 1) (by omega) (by omega) (by omega)
        (by rw [hsw.len]; exact hb) (by omega)
        (by rw [swapAt_val_of_ne hil hjl (by omega) (by omega)]; exact hp) ?_ ?_
      · obtain ⟨r1, r2, r3, r4, r5, r6⟩ := this
        exact ⟨hsw.trans r1, r2, r3, r4, r5, r6⟩
      · intro k hk1 hk2
        by_cases e : k = i1
        · rw [e, swapAt_val_left hil hjl]
          exact hj1
        · rw [swapAt_val_of_ne hil hjl e (by omega)]
          exact hL1 k hk1 (by omega)
      · intro k hk1 hk2
        by_cases e : k = j1
        · rw [e, swapAt_val_right hil hjl]
          exact hi1
        · rw [swapAt_val_of_ne hil hjl (by omega) e]
          exact hR1 k (by omega) hk2

/-- `partitionEqual_func` leaves the elements not greater than the pivot first
and the greater ones after them, inside the range. -/
theorem partitionEqualFunc_spec {α : Type} [Inhabited α] {less : α → α → Bool}
    (hw : StrictWeak less)
    (l : List α) (a b pivot : Nat) (hap : a ≤ pivot) (hpb : pivot < b) (hb : b ≤ l.length) :
    Within a b l (partitionEqualFunc less l a b pivot).1 ∧
    a + 1 ≤ (partitionEqualFunc less l a b pivot).2 ∧
    (partitionEqualFunc less l a b pivot).2 ≤ b ∧
    (∀ k, a ≤ k → k < (partitionEqualFunc less l a b pivot).2 →
      less (val l pivot) (val (partitionEqualFunc less l a b pivot).1 k) = false) ∧
    (∀ k, (partitionEqualFunc less l a b pivot).2 ≤ k → k < b →
      less (val l pivot) (val (partitionEqualFunc less l a b pivot).1 k) = true) := by
  unfold partitionEqualFunc
  have hsw : Within a b l (swapAt l a pivot) :=
    Within.swap l (Nat.le_refl _) (by omega) hap hpb hb
  have hb0 : b ≤ (swapAt l a pivot).length := by rw [hsw.len]; exact hb
  have hp : val (swapAt l a pivot) a = val l pivot :=
    swapAt_val_left (by omega) (by omega)
  obtain ⟨r1, r2, r3, r4, r5, r6⟩ :=
    @partitionEqualLoop_spec α _ less a b (val l pivot) (b - a + 1)
      (swapAt l a pivot) (a + 1) (b - 1) (Nat.le_refl _) (by omega) (by omega) hb0 (by omega) hp
      (fun k h1 h2 => by omega) (fun k h1 h2 => by omega)
  refine ⟨hsw.trans (r1.widen (by omega) (Nat.le_refl _)), r2, r3, ?_, r6⟩
  intro k hk1 hk2
  by_cases e : k = a
  · rw [e, r4]
    exact hw.irrefl _
  · exact r5 k (by omega) hk2

/-! ## Heap sort -/

theorem siftDownLoop_spec {α : Type} [Inhabited α] {less : α → α → Bool}
    (hw : StrictWeak less) (lo hi first : Nat) :
    ∀ (fuel : Nat) (l : List α) (root : Nat), lo ≤ root → first + hi ≤ l.length →
      hi ≤ root + fuel →
      (∀ p, lo ≤ p → p ≠ root → HeapAt less l first hi p) →
      (∀ q, lo ≤ q → (root = 2 * q + 1 ∨ root = 2 * q + 2) →
        ∀ c, (c = 2 * root + 1 ∨ c = 2 * root + 2) → c < hi →
          less (val l (first + q)) (val l (first + c)) = false) →
      Within (first + lo) (first + hi) l (siftDownLoop less hi first fuel l root) ∧
      (∀ p, lo ≤ p → HeapAt less (siftDownLoop less hi first fuel l root) first hi p) := by
  intro fuel
  induction fuel with
  | zero =>
    intro l root _ _ hf hH _
    refine ⟨Within.refl _ _ _, ?_⟩
    intro p hp
    by_cases e : p = root
    · intro c hc hch
      omega
    · exact hH p hp e
  | succ n ih =>
    intro l root hlo hlen hf hH hG
    unfold siftDownLoop
    by_cases h1 : 2 * root + 1 ≥ hi
    · rw [if_pos h1]
      refine ⟨Within.refl _ _ _, ?_⟩
      intro p hp
      by_cases e : p = root
      · intro c hc hch
        omega
      · exact hH p hp e
    · rw [if_neg h1]
      simp only []
      have hr : first + root < l.length := by omega
      have hc0 : first + (2 * root + 1) < l.length := by omega
      -- the greater child
      have hchild : ∃ child, (child = 2 * root + 1 ∨ child = 2 * root + 2) ∧ child < hi ∧
          (if 2 * root + 1 + 1 < hi ∧
              lessAt less l (first + (2 * root + 1)) (first + (2 * root + 1) + 1) = true
            then 2 * root + 1 + 1 else 2 * root + 1) = child ∧
          (∀ c, (c = 2 * root + 1 ∨ c = 2 * root + 2) → c < hi →
            less (val l (first + child)) (val l (first + c)) = false) := by
        by_cases h2 : 2 * root + 1 + 1 < hi ∧
            lessAt less l (first + (2 * root + 1)) (first + (2 * root + 1) + 1) = true
        · refine ⟨2 * root + 2, Or.inr rfl, by omega, by rw [if_pos h2], ?_⟩
          intro c hc hch
          have h3 := h2.2
          rw [lessAt_val less hc0 (by omega)] at h3
          rcases hc with e | e
          · rw [e]
            exact hw.asymm _ _ h3
          · rw [e]
            exact hw.irrefl _
        · refine ⟨2 * root + 1, Or.inl rfl, by omega, by rw [if_neg h2], ?_⟩
          intro c hc hch
          rcases hc with e | e
          · rw [e]
            exact hw.irrefl _
          · rw [e]
            cases h3 : lessAt less l (first + (2 * root + 1)) (first + (2 * root + 1) + 1) with
            | true => exact absurd ⟨by omega, h3⟩ h2
            | false =>
              rw [lessAt_val less hc0 (by omega)] at h3
              exact h3
      obtain ⟨child, hch1, hch2, hch3, hch4⟩ := hchild
      rw [hch3]
      have hcl : first + child < l.length := by omega
      by_cases h4 : lessAt less l (first + root) (first + child) = true
      · have h4' : (!lessAt less l (first + root) (first + child)) = false := by simp [h4]
        rw [h4']
        simp only [Bool.false_eq_true, if_false]
        rw [lessAt_val less hr hcl] at h4
        have hsw : Within (first + lo) (first + hi) l
            (swapAt l (first + root) (first + child)) :=
          Within.swap l (by omega) (by omega) (by omega) (by omega) hlen
        have hv := @swapAt_val α _ l (first + root) (first + child) hr hcl
        have := ih (swapAt l (first + root) (first + child)) child (by omega)
          (by rw [hsw.len]; exact hlen) (by omega) ?_ ?_
        · exact ⟨hsw.trans this.1, this.2⟩
        · intro p hp hpc c hc hch
          rw [hv, hv]
          by_cases e : p = root
          · subst e
            have e1 : ¬ first + p = first + child := by omega
            have e2 : ¬ first + c = first + p := by omega
            simp only [e1, e2, if_false, if_true]
            by_cases e3 : c = child
            · subst e3
              simp only [if_true]
              exact hw.asymm _ _ h4
            · have e4 : ¬ first + c = first + child := by omega
              simp only [e4, if_false]
              exact hch4 c hc hch
          · have e1 : ¬ first + p = first + child := by omega
            have e2 : ¬ first + p = first + root := by omega
            have e3 : ¬ first + c = first + child := by omega
            simp only [e1, e2, e3, if_false]
            by_cases e4 : c = root
            · subst e4
              simp only [if_true]
              exact hG p hp (by omega) child hch1 hch2
            · have e5 : ¬ first + c = first + root := by omega
              simp only [e5, if_false]
              exact hH p hp e c hc hch
        · intro q hq hqc c hc hch
          have eq : q = root := by omega
          subst eq
          rw [hv, hv]
          have e1 : ¬ first + q = first + child := by omega
          have e2 : ¬ first + c = first + child := by omega
          have e3 : ¬ first + c = first + q := by omega
          simp only [e1, e2, e3, if_false, if_true]
          exact hH child (by omega) (by omega) c hc hch
      · have h4' : (!lessAt less l (first + root) (first + child)) = true := by simp [h4]
        rw [h4']
        simp only [if_true]
        refine ⟨Within.refl _ _ _, ?_⟩
        intro p hp
        by_cases e : p = root
        · subst e
          intro c hc hch
          have h5 : less (val l (first + p)) (val l (first + child)) = false := by
            rw [← lessAt_val less hr hcl]
            simpa using h4
          exact hw.ntrans _ _ _ h5 (hch4 c hc hch)
        · exact hH p hp e

theorem siftDownFunc_spec {α : Type} [Inhabited α] {less : α → α → Bool}
    (hw : StrictWeak less) (l : List α) (lo hi first : Nat) (hlen : first + hi ≤ l.length)
    (hH : ∀ p, lo < p → HeapAt less l first hi p) :
    Within (first + lo) (first + hi) l (siftDownFunc less l lo hi first) ∧
    (∀ p, lo ≤ p → HeapAt less (siftDownFunc less l lo hi first) first hi p) :=
  siftDownLoop_spec hw lo hi first hi l lo (Nat.le_refl _) hlen (by omega)
    (fun p hp hne => hH p (by omega)) (fun q hq hroot => by omega)

/-- The root of a heap is not less than any of its nodes. -/
theorem heap_root_max {α : Type} [Inhabited α] {less : α → α → Bool}
    (hw : StrictWeak less) (l : List α) (first hi : Nat)
    (hH : ∀ p, HeapAt less l first hi p) :
    ∀ p, p < hi → less (val l first) (val l (first + p)) = false := by
  intro p
  induction p using Nat.strong_induction_on with
  | _ p ih =>
    intro hp
    by_cases h0 : p = 0
    · subst h0
      exact hw.irrefl _
    · have h1 := ih ((p - 1) / 2) (by omega) (by omega)
      have h2 := hH ((p - 1) / 2) p (by omega) hp
      exact hw.ntrans _ _ _ h1 h2

theorem heapBuild_spec {α : Type} [Inhabited α] {less : α → α → Bool}
    (hw : StrictWeak less) (hi first : Nat) :
    ∀ (k : Nat) (l : List α), first + hi ≤ l.length →
      (∀ p, k ≤ p → HeapAt less l first hi p) →
      Within first (first + hi) l
        ((List.range k).reverse.foldl (fun l i => siftDownFunc less l i hi first) l) ∧
      (∀ p, HeapAt less
        ((List.range k).reverse.foldl (fun l i => siftDownFunc less l i hi first) l)
        first hi p) := by
  intro k
  induction k with
  | zero =>
    intro l _ hH
    exact ⟨Within.refl _ _ _, fun p => hH p (Nat.zero_le _)⟩
  | succ k ih =>
    intro l hlen hH
    rw [List.range_succ, List.reverse_append, List.reverse_singleton, List.singleton_append,
      List.foldl_cons]
    have h1 := siftDownFunc_spec hw l k hi first hlen (fun p hp => hH p (by omega))
    have h2 := ih (siftDownFunc less l k hi first) (by rw [h1.1.len]; exact hlen) h1.2
    exact ⟨(h1.1.widen (by omega) (Nat.le_refl _)).trans h2.1, h2.2⟩

theorem heapPop_spec {α : Type} [Inhabited α] {less : α → α → Bool}
    (hw : StrictWeak less) (hi first : Nat) :
    ∀ (k : Nat) (l : List α), k ≤ hi → first + hi ≤ l.length →
      (∀ p, HeapAt less l first k p) →
      SortedR less l (first + k) (first + hi) →
      (∀ p q, p < k → k ≤ q → q < hi →
        less (val l (first + q)) (val l (first + p)) = false) →
      Within first (first + hi) l
        ((List.range k).reverse.foldl
          (fun l i => siftDownFunc less (swapAt l first (first + i)) 0 i first) l) ∧
      SortedR less
        ((List.range k).reverse.foldl
          (fun l i => siftDownFunc less (swapAt l first (first + i)) 0 i first) l)
        first (first + hi) := by
  intro k
  induction k with
  | zero =>
    intro l _ _ _ hS _
    exact ⟨Within.refl _ _ _, hS⟩
  | succ k ih =>
    intro l hk hlen hH hS hC
    rw [List.range_succ, List.reverse_append, List.reverse_singleton, List.singleton_append,
      List.foldl_cons]
    have hf : first < l.length := by omega
    have hkl : first + k < l.length := by omega
    have hmax := heap_root_max hw l first (k + 1) hH
    have hsw : Within first (first + (k + 1)) l (swapAt l first (first + k)) :=
      Within.swap l (Nat.le_refl _) (by omega) (by omega) (by omega) (by omega)
    have hv := @swapAt_val α _ l first (first + k) hf hkl
    have hlen1 : first + hi ≤ (swapAt l first (first + k)).length := by
      rw [hsw.len]; exact hlen
    have h1 := siftDownFunc_spec hw (swapAt l first (first + k)) 0 k first (by omega) ?_
    · have hw2 : Within first (first + k) (swapAt l first (first + k))
          (siftDownFunc less (swapAt l first (first + k)) 0 k first) := by
        simpa using h1.1
      -- elements of the new heap come from the old heap
      have hfrom : ∀ p, p < k → ∃ p', p' < k + 1 ∧
          val (siftDownFunc less (swapAt l first (first + k)) 0 k first) (first + p) =
            val l (first + p') := by
        intro p hp
        obtain ⟨k', hk1, hk2, e⟩ := hw2.inside (first + p) (by omega) (by omega)
        rw [e, hv]
        by_cases e1 : k' = first + k
        · omega
        · by_cases e2 : k' = first
          · refine ⟨k, by omega, ?_⟩
            rw [if_neg e1, if_pos e2]
          · refine ⟨k' - first, by omega, ?_⟩
            simp only [e1, e2, if_false]
            congr 1
            omega
      have hout : ∀ q, k ≤ q →
          val (siftDownFunc less (swapAt l first (first + k)) 0 k first) (first + q) =
            val (swapAt l first (first + k)) (first + q) :=
        fun q hq => hw2.outside (first + q) (by omega)
      have h2 := ih (siftDownFunc less (swapAt l first (first + k)) 0 k first) (by omega)
        (by rw [h1.1.len]; exact hlen1) (fun p => h1.2 p (Nat.zero_le _)) ?_ ?_
      · exact ⟨(hsw.widen (Nat.le_refl _) (by omega)).trans
          ((hw2.widen (Nat.le_refl _) (by omega)).trans h2.1), h2.2⟩
      · intro i j hi1 hij hj
        have ei : i = first + (i - first) := by omega
        have ej : j = first + (j - first) := by omega
        rw [ei, ej, hout _ (by omega), hout _ (by omega), hv, hv]
        have e1 : ¬ first + (j - first) = first + k := by omega
        have e2 : ¬ first + (j - first) = first := by omega
        have e3 : ¬ first + (i - first) = first ∨ k = 0 := by omega
        simp only [e1, e2, if_false]
        by_cases e4 : i = first + k
        · have e5 : first + (i - first) = first + k := by omega
          simp only [e5, if_true]
          have := hC 0 (j - first) (by omega) (by omega) (by omega)
          simpa using this
        · have e5 : ¬ first + (i - first) = first + k := by omega
          have e6 : ¬ first + (i - first) = first := by omega
          simp only [e5, e6, if_false]
          rw [← ei, ← ej]
          exact hS i j (by omega) hij hj
      · intro p q hp hq hqh
        obtain ⟨p', hp', e⟩ := hfrom p hp
        rw [e, hout q hq, hv]
        have e2 : ¬ first + q = first := by omega
        by_cases e1 : q = k
        · subst e1
          simp only [if_true]
          exact hmax p' hp'
        · have e3 : ¬ first + q = first + k := by omega
          simp only [e2, e3, if_false]
          exact hC p' q hp' (by omega) hqh
    · intro p hp c hc hch
      rw [hv, hv]
      have e1 : ¬ first + p = first + k := by omega
      have e2 : ¬ first + p = first := by omega
      have e3 : ¬ first + c = first + k := by omega
      have e4 : ¬ first + c = first := by omega
      simp only [e1, e2, e3, e4, if_false]
      exact hH p c hc (by omega)

/-- `heapSort_func` orders the range and moves nothing else. -/
theorem heapSortFunc_spec {α : Type} [Inhabited α] {less : α → α → Bool}
    (hw : StrictWeak less) (l : List α) (a b : Nat) (hab : a ≤ b) (hb : b ≤ l.length) :
    Within a b l (heapSortFunc less l a b) ∧ SortedR less (heapSortFunc less l a b) a b := by
  unfold heapSortFunc
  simp only []
  have e : a + (b - a) = b := by omega
  have h1 := heapBuild_spec hw (b - a) a ((b - a - 1) / 2 + 1) l (by omega)
    (fun p hp c hc hch => by omega)
  have h2 := heapPop_spec hw (b - a) a (b - a) _ (Nat.le_refl _)
    (by rw [h1.1.len]; omega) h1.2 (SortedR.of_le less _ (by omega))
    (fun p q hp hq hqh => by omega)
  rw [e] at h1 h2
  exact ⟨h1.1.trans h2.1, h2.2⟩

/-! ## Partial insertion sort -/

theorem LowerB.within {α : Type} [Inhabited α] {less : α → α → Bool} {l l1 : List α}
    {a b : Nat} (h : LowerB less l a b) (hw : Within a b l l1) : LowerB less l1 a b := by
  rcases h with h | h
  · exact Or.inl h
  · by_cases h0 : a = 0
    · exact Or.inl h0
    · refine Or.inr ?_
      intro k hk1 hk2
      obtain ⟨k', h1, h2, e⟩ := hw.inside k hk1 hk2
      rw [e, hw.outside (a - 1) (Or.inl (by omega))]
      exact h k' h1 h2

theorem LowerB.shorten {α : Type} [Inhabited α] {less : α → α → Bool} {l : List α}
    {a b b0 : Nat} (h : LowerB less l a b) (hb : b0 ≤ b) : LowerB less l a b0 := by
  rcases h with h | h
  · exact Or.inl h
  · exact Or.inr (fun k h1 h2 => h k h1 (by omega))

theorem SortedR.snoc {α : Type} [Inhabited α] {less : α → α → Bool}
    (hw : StrictWeak less) {l : List α} {a m : Nat} (h : SortedR less l a m)
    (hm : less (val l m) (val l (m - 1)) = false) (ham : a + 1 ≤ m) :
    SortedR less l a (m + 1) := by
  intro i j hi hij hj
  by_cases e : j = m
  · subst e
    by_cases e1 : i = j - 1
    · subst e1
      exact hm
    · exact hw.ntrans _ _ _ hm (h i (j - 1) hi (by omega) (by omega))
  · exact h i j hi hij (by omega)

theorem SortedR.extend {α : Type} [Inhabited α] {less : α → α → Bool}
    (hw : StrictWeak less) {l : List α} {a : Nat} :
    ∀ (d i : Nat), a + 1 ≤ i → SortedR less l a i →
      (∀ k, i ≤ k → k < i + d → less (val l k) (val l (k - 1)) = false) →
      SortedR less l a (i + d) := by
  intro d
  induction d with
  | zero =>
    intro i _ h _
    exact h
  | succ d ih =>
    intro i hi h hadj
    have := ih (i + 1) (by omega) (h.snoc hw (hadj i (Nat.le_refl _) (by omega)) hi)
      (fun k h1 h2 => hadj k (by omega) (by omega))
    rw [show i + (d + 1) = i + 1 + d by omega]
    exact this

/-- With no smaller element before the range, the shift to the left of
`partialInsertionSort_func` is the inner loop of the insertion sort. -/
theorem shiftLeft_eq {α : Type} [Inhabited α] {less : α → α → Bool} (a : Nat) :
    ∀ (j : Nat) (l : List α), a ≤ j → j < l.length →
      (a = 0 ∨ less (val l j) (val l (a - 1)) = false) →
      shiftLeft less j l = insertionInner less a j l := by
  intro j
  induction j with
  | zero =>
    intro l _ _ _
    rfl
  | succ j ih =>
    intro l haj hj hlow
    unfold shiftLeft insertionInner
    by_cases e : j + 1 > a
    · cases h : lessAt less l (j + 1) j with
      | false => simp
      | true =>
        simp only [Bool.not_true, Bool.false_eq_true, if_false, e, true_and, if_true]
        have hl : (swapAt l (j + 1) j).length = l.length := swapAt_length _ _ _
        apply ih _ (by omega) (by omega)
        rcases hlow with h0 | h0
        · exact Or.inl h0
        · by_cases ha0 : a = 0
          · exact Or.inl ha0
          refine Or.inr ?_
          have e2 : val (swapAt l (j + 1) j) (a - 1) = val l (a - 1) :=
            swapAt_val_of_ne hj (by omega) (by omega) (by omega)
          rw [swapAt_val_right hj (by omega), e2]
          exact h0
    · have e1 : a = j + 1 := by omega
      rcases hlow with h0 | h0
      · omega
      · have h1 : lessAt less l (j + 1) j = false := by
          rw [lessAt_val less hj (by omega)]
          rw [e1] at h0
          simpa using h0
        simp [h1, e]

theorem shiftRight_within {α : Type} [Inhabited α] {less : α → α → Bool} (i b : Nat) :
    ∀ (fuel : Nat) (l : List α) (j : Nat), i < j → b ≤ l.length →
      Within i b l (shiftRight less b fuel l j) := by
  intro fuel
  induction fuel with
  | zero =>
    intro l j _ _
    exact Within.refl _ _ _
  | succ n ih =>
    intro l j hij hb
    unfold shiftRight
    by_cases h1 : j < b
    · rw [if_pos h1]
      cases h : lessAt less l j (j - 1) with
      | false => simpa using Within.refl _ _ _
      | true =>
        simp only [Bool.not_true, Bool.false_eq_true, if_false]
        have hsw : Within i b l (swapAt l j (j - 1)) :=
          Within.swap l (by omega) h1 (by omega) (by omega) hb
        exact hsw.trans (ih _ (j + 1) (by omega) (by rw [hsw.len]; exact hb))
    · rw [if_neg h1]
      exact Within.refl _ _ _

theorem partialInsertionLoop_spec {α : Type} [Inhabited α] {less : α → α → Bool}
    (hw : StrictWeak less) (a b : Nat) :
    ∀ (steps : Nat) (l : List α) (i : Nat), a + 1 ≤ i → i ≤ b → b ≤ l.length →
      LowerB less l a b → SortedR less l a i →
      Within a b l (partialInsertionLoop less a b steps l i).1 ∧
      ((partialInsertionLoop less a b steps l i).2 = true →
        SortedR less (partialInsertionLoop less a b steps l i).1 a b) := by
  intro steps
  induction steps with
  | zero =>
    intro l i _ _ _ _ _
    exact ⟨Within.refl _ _ _, fun h => by simp [partialInsertionLoop] at h⟩
  | succ n ih =>
    intro l i hai hib hb hlow hs
    unfold partialInsertionLoop
    simp only []
    obtain ⟨w1, w2, w3, w4⟩ :=
      whileUp_spec (fun i => decide (i < b) && !lessAt less l i (i - 1)) (b - i) i
    generalize whileUp (fun i => decide (i < b) && !lessAt less l i (i - 1)) (b - i) i = i1
      at w1 w2 w3 w4
    have hs1 : SortedR less l a i1 := by
      have := SortedR.extend hw (i1 - i) i hai hs (fun k h1 h2 => by
        have h3 := w3 k h1 (by omega)
        simp only [Bool.and_eq_true, decide_eq_true_eq, Bool.not_eq_true'] at h3
        rw [lessAt_val less (by omega) (by omega)] at h3
        exact h3.2)
      rw [show i + (i1 - i) = i1 by omega] at this
      exact this
    by_cases e1 : i1 = b
    · rw [if_pos e1]
      refine ⟨Within.refl _ _ _, fun _ => ?_⟩
      rw [← e1]
      exact hs1
    · rw [if_neg e1]
      by_cases e2 : b - a < 50
      · rw [if_pos e2]
        exact ⟨Within.refl _ _ _, fun h => by simp at h⟩
      · rw [if_neg e2]
        have hi1 : i1 < b := by omega
        have hlt : less (val l i1) (val l (i1 - 1)) = true := by
          have h3 := w4 (by omega)
          simp only [Bool.and_eq_false_iff, decide_eq_false_iff_not, Bool.not_eq_false'] at h3
          rcases h3 with h3 | h3
          · omega
          · rw [lessAt_val less (by omega) (by omega)] at h3
            exact h3
        have hsw : Within a b l (swapAt l i1 (i1 - 1)) :=
          Within.swap l (by omega) hi1 (by omega) (by omega) hb
        have hsl : SortedR less (swapAt l i1 (i1 - 1)) a (i1 - 1) :=
          (hs1.narrow (Nat.le_refl _) (by omega)).congr (fun k h1 h2 =>
            swapAt_val_of_ne (by omega) (by omega) (by omega) (by omega))
        have hl1 : (swapAt l i1 (i1 - 1)).length = l.length := swapAt_length _ _ _
        have hlow1 := hlow.within hsw
        -- the shift to the left
        have h2 : Within a b (swapAt l i1 (i1 - 1))
            (if i1 - a ≥ 2 then shiftLeft less (i1 - 1) (swapAt l i1 (i1 - 1))
              else swapAt l i1 (i1 - 1)) ∧
            SortedR less (if i1 - a ≥ 2 then shiftLeft less (i1 - 1) (swapAt l i1 (i1 - 1))
              else swapAt l i1 (i1 - 1)) a i1 := by
          by_cases e3 : i1 - a ≥ 2
          · rw [if_pos e3]
            rw [shiftLeft_eq a (i1 - 1) _ (by omega) (by omega) (by
              rcases hlow1 with h0 | h0
              · exact Or.inl h0
              · exact Or.inr (h0 (i1 - 1) (by omega) (by omega)))]
            have := insertionInner_spec hw a (i1 - 1) (swapAt l i1 (i1 - 1)) (i1 - 1)
              (by omega) (Nat.le_refl _) (by omega) hsl (SortedR.of_le less _ (by omega))
              (fun p q _ _ _ _ => by omega) (fun q _ _ => by omega)
            rw [show i1 - 1 + 1 = i1 by omega] at this
            exact ⟨this.1.widen (Nat.le_refl _) (by omega), this.2⟩
          · rw [if_neg e3]
            exact ⟨Within.refl _ _ _, SortedR.of_le less _ (by omega)⟩
        generalize (if i1 - a ≥ 2 then shiftLeft less (i1 - 1) (swapAt l i1 (i1 - 1))
              else swapAt l i1 (i1 - 1)) = l2 at h2
        have hl2 : l2.length = l.length := by rw [h2.1.len, hl1]
        have h3 : Within i1 b l2
            (if b - i1 ≥ 2 then shiftRight less b (b - (i1 + 1)) l2 (i1 + 1) else l2) := by
          by_cases e4 : b - i1 ≥ 2
          · rw [if_pos e4]
            exact shiftRight_within i1 b _ l2 (i1 + 1) (by omega) (by omega)
          · rw [if_neg e4]
            exact Within.refl _ _ _
        generalize (if b - i1 ≥ 2 then shiftRight less b (b - (i1 + 1)) l2 (i1 + 1) else l2) = l3
          at h3
        have h03 : Within a b l l3 := hsw.trans (h2.1.trans (h3.widen (by omega) (Nat.le_refl _)))
        have := ih l3 i1 (by omega) (by omega) (by rw [h03.len]; exact hb) (hlow.within h03)
          (h2.2.congr (fun k h1 h2 => h3.outside k (Or.inl h2)))
        exact ⟨h03.trans this.1, this.2⟩

theorem partialInsertionSortFunc_spec {α : Type} [Inhabited α] {less : α → α → Bool}
    (hw : StrictWeak less) (l : List α) (a b : Nat) (hab : a < b) (hb : b ≤ l.length)
    (hlow : LowerB less l a b) :
    Within a b l (partialInsertionSortFunc less l a b).1 ∧
    ((partialInsertionSortFunc less l a b).2 = true →
      SortedR less (partialInsertionSortFunc less l a b).1 a b) :=
  partialInsertionLoop_spec hw a b 5 l (a + 1) (Nat.le_refl _) hab hb hlow
    (SortedR.of_le less _ (Nat.le_refl _))

/-! ## Pattern-defeating quicksort -/

theorem SortedR.join {α : Type} [Inhabited α] {less : α → α → Bool} (hw : StrictWeak less)
    {l : List α} {a m b : Nat} (P : α)
    (h1 : SortedR less l a m) (h2 : SortedR less l m b)
    (hl : ∀ k, a ≤ k → k < m → less P (val l k) = false)
    (hr : ∀ k, m ≤ k → k < b → less (val l k) P = false) : SortedR less l a b := by
  intro i j hi hij hj
  by_cases e1 : j < m
  · exact h1 i j hi hij e1
  · by_cases e2 : m ≤ i
    · exact h2 i j e2 hij hj
    · exact hw.ntrans _ _ _ (hr j (by omega) hj) (hl i hi (by omega))

theorem pdqPrepare_spec {α : Type} [Inhabited α] {less : α → α → Bool} (hw : StrictWeak less)
    (random : Nat → Nat → Nat) (l : List α) (a b : Nat) (wb wp : Bool)
    (h : 13 ≤ b - a) (hb : b ≤ l.length) (hlow : LowerB less l a b) :
    Within a b l (pdqPrepare less random l a b wb wp).1.1 ∧
    ((pdqPrepare less random l a b wb wp).1.2 = true →
      SortedR less (pdqPrepare less random l a b wb wp).1.1 a b) ∧
    a ≤ (pdqPrepare less random l a b wb wp).2 ∧
    (pdqPrepare less random l a b wb wp).2 < b := by
  unfold pdqPrepare
  simp only []
  have h1 : Within a b l (if (!wb) = true then breakPatternsFunc (random (b - a)) l a b else l) := by
    split
    · exact breakPatternsFunc_within _ l a b hb
    · exact Within.refl _ _ _
  generalize (if (!wb) = true then breakPatternsFunc (random (b - a)) l a b else l) = l1 at h1
  have hph := choosePivotFunc_range less l1 a b h
  generalize choosePivotFunc less l1 a b = ph at hph
  have hl1 : l1.length = l.length := h1.len
  have h2 : Within a b l1
      (if ph.2 = SortedHint.decreasingHint then reverseRangeFunc l1 a b else l1) := by
    split
    · exact reverseRangeFunc_within l1 a b (by omega) (by omega)
    · exact Within.refl _ _ _
  generalize (if ph.2 = SortedHint.decreasingHint then reverseRangeFunc l1 a b else l1) = l2
    at h2
  have h02 := h1.trans h2
  have hpv : a ≤ (if ph.2 = SortedHint.decreasingHint then (b - 1) - (ph.1 - a) else ph.1) ∧
      (if ph.2 = SortedHint.decreasingHint then (b - 1) - (ph.1 - a) else ph.1) < b := by
    split <;> omega
  generalize (if ph.2 = SortedHint.decreasingHint then (b - 1) - (ph.1 - a) else ph.1) = pivot
    at hpv
  have key : ∀ c : Bool,
      Within a b l (if c = true then partialInsertionSortFunc less l2 a b else (l2, false)).1 ∧
      ((if c = true then partialInsertionSortFunc less l2 a b else (l2, false)).2 = true →
        SortedR less
          (if c = true then partialInsertionSortFunc less l2 a b else (l2, false)).1 a b) := by
    intro c
    have hp := partialInsertionSortFunc_spec hw l2 a b (by omega)
      (by rw [h02.len]; exact hb) (hlow.within h02)
    cases c with
    | true => exact ⟨h02.trans hp.1, hp.2⟩
    | false => exact ⟨h02, fun hf => by simp at hf⟩
  exact ⟨(key _).1, (key _).2, hpv.1, hpv.2⟩

theorem pdqsortLoop_succ {α : Type} (less : α → α → Bool) (random : Nat → Nat → Nat)
    (fuel : Nat) (l : List α) (a b limit : Nat) (wb wp : Bool) :
    pdqsortLoop less random (fuel + 1) l a b limit wb wp =
      if b - a ≤ 12 then insertionSortFunc less l a b
      else if limit = 0 then heapSortFunc less l a b
      else if (pdqPrepare less random l a b wb wp).1.2 = true then
        (pdqPrepare less random l a b wb wp).1.1
      else if a > 0 ∧
          (!lessAt less (pdqPrepare less random l a b wb wp).1.1 (a - 1)
            (pdqPrepare less random l a b wb wp).2) = true then
        pdqsortLoop less random fuel
          (partitionEqualFunc less (pdqPrepare less random l a b wb wp).1.1 a b
            (pdqPrepare less random l a b wb wp).2).1
          (partitionEqualFunc less (pdqPrepare less random l a b wb wp).1.1 a b
            (pdqPrepare less random l a b wb wp).2).2
          b (if (!wb) = true then limit - 1 else limit) wb wp
      else if (partitionFunc less (pdqPrepare less random l a b wb wp).1.1 a b
            (pdqPrepare less random l a b wb wp).2).2.1 - a <
          b - (partitionFunc less (pdqPrepare less random l a b wb wp).1.1 a b
            (pdqPrepare less random l a b wb wp).2).2.1 then
        pdqsortLoop less random fuel
          (pdqsortLoop less random fuel
            (partitionFunc less (pdqPrepare less random l a b wb wp).1.1 a b
              (pdqPrepare less random l a b wb wp).2).1
            a
            (partitionFunc less (pdqPrepare less random l a b wb wp).1.1 a b
              (pdqPrepare less random l a b wb wp).2).2.1
            (if (!wb) = true then limit - 1 else limit) true true)
          ((partitionFunc less (pdqPrepare less random l a b wb wp).1.1 a b
              (pdqPrepare less random l a b wb wp).2).2.1 + 1)
          b (if (!wb) = true then limit - 1 else limit)
          (decide ((partitionFunc less (pdqPrepare less random l a b wb wp).1.1 a b
              (pdqPrepare less random l a b wb wp).2).2.1 - a ≥ (b - a) / 8))
          (partitionFunc less (pdqPrepare less random l a b wb wp).1.1 a b
              (pdqPrepare less random l a b wb wp).2).2.2
      else
        pdqsortLoop less random fuel
          (pdqsortLoop less random fuel
            (partitionFunc less (pdqPrepare less random l a b wb wp).1.1 a b
              (pdqPrepare less random l a b wb wp).2).1
            ((partitionFunc less (pdqPrepare less random l a b wb wp).1.1 a b
              (pdqPrepare less random l a b wb wp).2).2.1 + 1)
            b (if (!wb) = true then limit - 1 else limit) true true)
          a
          (partitionFunc less (pdqPrepare less random l a b wb wp).1.1 a b
              (pdqPrepare less random l a b wb wp).2).2.1
          (if (!wb) = true then limit - 1 else limit)
          (decide (b - (partitionFunc less (pdqPrepare less random l a b wb wp).1.1 a b
              (pdqPrepare less random l a b wb wp).2).2.1 ≥ (b - a) / 8))
          (partitionFunc less (pdqPrepare less random l a b wb wp).1.1 a b
              (pdqPrepare less random l a b wb wp).2).2.2 := by
  rfl

theorem SortedR.glue {α : Type} [Inhabited α] {less : α → α → Bool} (hw : StrictWeak less)
    {l : List α} {a mid b : Nat}
    (hs1 : SortedR less l a mid) (hs2 : SortedR less l (mid + 1) b)
    (hleft : ∀ k, a ≤ k → k < mid → less (val l k) (val l mid) = true)
    (hright : ∀ k, mid < k → k < b → less (val l k) (val l mid) = false) :
    SortedR less l a b := by
  have h1 : SortedR less l a (mid + 1) :=
    SortedR.join hw (val l mid) hs1 (SortedR.of_le less l (Nat.le_refl _))
      (fun k h1 h2 => hw.asymm _ _ (hleft k h1 h2))
      (fun k h1 h2 => by
        have e : k = mid := by omega
        rw [e]
        exact hw.irrefl _)
  refine SortedR.join hw (val l mid) h1 hs2 ?_ (fun k h1 h2 => hright k (by omega) h2)
  intro k h1 h2
  by_cases e : k = mid
  · rw [e]
    exact hw.irrefl _
  · exact hw.asymm _ _ (hleft k h1 (by omega))

/-- `pdqsort_func` orders the range `[a, b)` and moves nothing else, when the
element before the range is not greater than an element of it. -/
theorem pdqsortLoop_spec {α : Type} [Inhabited α] {less : α → α → Bool} (hw : StrictWeak less)
    (random : Nat → Nat → Nat) :
    ∀ (fuel : Nat) (l : List α) (a b limit : Nat) (wb wp : Bool), b ≤ l.length →
      b - a < fuel → LowerB less l a b →
      Within a b l (pdqsortLoop less random fuel l a b limit wb wp) ∧
      SortedR less (pdqsortLoop less random fuel l a b limit wb wp) a b := by
  intro fuel
  induction fuel with
  | zero =>
    intro l a b limit wb wp _ h _
    omega
  | succ n ih =>
    intro l a b limit wb wp hb hf hlow
    rw [pdqsortLoop_succ]
    by_cases c1 : b - a ≤ 12
    · rw [if_pos c1]
      exact insertionSortFunc_spec hw l a b hb
    rw [if_neg c1]
    by_cases c2 : limit = 0
    · rw [if_pos c2]
      exact heapSortFunc_spec hw l a b (by omega) hb
    rw [if_neg c2]
    obtain ⟨p1, p2, p3, p4⟩ := pdqPrepare_spec hw random l a b wb wp (by omega) hb hlow
    generalize pdqPrepare less random l a b wb wp = pp at p1 p2 p3 p4
    generalize (if (!wb) = true then limit - 1 else limit) = limit1
    obtain ⟨⟨l3, sorted⟩, pivot⟩ := pp
    simp only at p1 p2 p3 p4 ⊢
    have hl3 : l3.length = l.length := p1.len
    have hlow3 := hlow.within p1
    by_cases c3 : sorted = true
    · rw [if_pos c3]
      exact ⟨p1, p2 c3⟩
    rw [if_neg c3]
    by_cases c4 : a > 0 ∧ (!lessAt less l3 (a - 1) pivot) = true
    · rw [if_pos c4]
      obtain ⟨q1, q2, q3, q4, q5⟩ := partitionEqualFunc_spec hw l3 a b pivot p3 p4 (by omega)
      generalize partitionEqualFunc less l3 a b pivot = pe at q1 q2 q3 q4 q5
      obtain ⟨l4, mid⟩ := pe
      simp only at q1 q2 q3 q4 q5 ⊢
      have he1 : less (val l3 (a - 1)) (val l3 pivot) = false := by
        have := c4.2
        rw [lessAt_val less (by omega) (by omega)] at this
        simpa using this
      have hlowk : ∀ k, a ≤ k → k < b → less (val l3 k) (val l3 (a - 1)) = false := by
        rcases hlow3 with h0 | h0
        · omega
        · exact h0
      have hge : ∀ k, a ≤ k → k < b → less (val l4 k) (val l3 pivot) = false := by
        intro k h1 h2
        obtain ⟨k', h3, h4, e⟩ := q1.inside k h1 h2
        rw [e]
        exact hw.ntrans _ _ _ (hlowk k' h3 h4) he1
      have hlow4 : LowerB less l4 mid b := by
        refine Or.inr (fun k h1 h2 => ?_)
        exact hw.ntrans _ _ _ (hge k (by omega) h2) (q4 (mid - 1) (by omega) (by omega))
      have r := ih l4 mid b limit1 wb wp (by rw [q1.len]; omega) (by omega) hlow4
      generalize pdqsortLoop less random n l4 mid b limit1 wb wp = l5 at r
      refine ⟨p1.trans (q1.trans (r.1.widen (by omega) (Nat.le_refl _))), ?_⟩
      refine SortedR.join hw (val l3 pivot) ?_ r.2 ?_ ?_
      · intro i j hi hij hj
        rw [r.1.outside i (Or.inl (by omega)), r.1.outside j (Or.inl hj)]
        exact hw.ntrans _ _ _ (hge j (by omega) (by omega)) (q4 i hi (by omega))
      · intro k h1 h2
        rw [r.1.outside k (Or.inl h2)]
        exact q4 k h1 h2
      · intro k h1 h2
        obtain ⟨k', h3, h4, e⟩ := r.1.inside k h1 h2
        rw [e]
        exact hge k' (by omega) h4
    · rw [if_neg c4]
      obtain ⟨q1, q2, q3, q4, q5⟩ :=
        @partitionFunc_spec α _ less l3 a b pivot p3 p4 (by omega)
      generalize partitionFunc less l3 a b pivot = pt at q1 q2 q3 q4 q5
      obtain ⟨l4, mid, ap⟩ := pt
      simp only at q1 q2 q3 q4 q5 ⊢
      have hlow4 := hlow3.within q1
      have hl4 : l4.length = l.length := by rw [q1.len, hl3]
      by_cases c5 : mid - a < b - mid
      · rw [if_pos c5]
        have r1 := ih l4 a mid limit1 true true (by omega) (by omega) (hlow4.shorten (by omega))
        generalize pdqsortLoop less random n l4 a mid limit1 true true = l5 at r1
        have hlow5 : LowerB less l5 (mid + 1) b := by
          refine Or.inr (fun k h1 h2 => ?_)
          rw [r1.1.outside k (Or.inr (by omega)), show mid + 1 - 1 = mid by omega,
            r1.1.outside mid (Or.inr (Nat.le_refl _))]
          exact q5 k (by omega) h2
        have r2 := ih l5 (mid + 1) b limit1 (decide (mid - a ≥ (b - a) / 8)) ap
          (by rw [r1.1.len]; omega) (by omega) hlow5
        generalize pdqsortLoop less random n l5 (mid + 1) b limit1
          (decide (mid - a ≥ (b - a) / 8)) ap = l6 at r2
        refine ⟨p1.trans (q1.trans ((r1.1.widen (Nat.le_refl _) (by omega)).trans
          (r2.1.widen (by omega) (Nat.le_refl _)))), ?_⟩
        have hmid : val l6 mid = val l4 mid := by
          rw [r2.1.outside mid (Or.inl (by omega)), r1.1.outside mid (Or.inr (Nat.le_refl _))]
        refine SortedR.glue hw
          (r1.2.congr (fun k h1 h2 => r2.1.outside k (Or.inl (by omega)))) r2.2 ?_ ?_
        · intro k h1 h2
          rw [hmid, r2.1.outside k (Or.inl (by omega))]
          obtain ⟨k', h3, h4, e⟩ := r1.1.inside k h1 h2
          rw [e]
          exact q4 k' h3 h4
        · intro k h1 h2
          rw [hmid]
          obtain ⟨k', h3, h4, e⟩ := r2.1.inside k (by omega) h2
          rw [e, r1.1.outside k' (Or.inr (by omega))]
          exact q5 k' (by omega) h4
      · rw [if_neg c5]
        have hlow4r : LowerB less l4 (mid + 1) b := by
          refine Or.inr (fun k h1 h2 => ?_)
          rw [show mid + 1 - 1 = mid by omega]
          exact q5 k (by omega) h2
        have r1 := ih l4 (mid + 1) b limit1 true true (by omega) (by omega) hlow4r
        generalize pdqsortLoop less random n l4 (mid + 1) b limit1 true true = l5 at r1
        have hlow5 : LowerB less l5 a mid :=
          (hlow4.within (r1.1.widen (by omega) (Nat.le_refl _))).shorten (by omega)
        have r2 := ih l5 a mid limit1 (decide (b - mid ≥ (b - a) / 8)) ap
          (by rw [r1.1.len]; omega) (by omega) hlow5
        generalize pdqsortLoop less random n l5 a mid limit1
          (decide (b - mid ≥ (b - a) / 8)) ap = l6 at r2
        refine ⟨p1.trans (q1.trans ((r1.1.widen (by omega) (Nat.le_refl _)).trans
          (r2.1.widen (Nat.le_refl _) (by omega)))), ?_⟩
        have hmid : val l6 mid = val l4 mid := by
          rw [r2.1.outside mid (Or.inr (Nat.le_refl _)), r1.1.outside mid (Or.inl (by omega))]
        refine SortedR.glue hw r2.2
          (r1.2.congr (fun k h1 h2 => r2.1.outside k (Or.inr (by omega)))) ?_ ?_
        · intro k h1 h2
          rw [hmid]
          obtain ⟨k', h3, h4, e⟩ := r2.1.inside k h1 h2
          rw [e, r1.1.outside k' (Or.inl (by omega))]
          exact q4 k' h3 h4
        · intro k h1 h2
          rw [hmid, r2.1.outside k (Or.inr (by omega))]
          obtain ⟨k', h3, h4, e⟩ := r1.1.inside k (by omega) h2
          rw [e]
          exact q5 k' (by omega) h4

theorem SortedR.pairwise {α : Type} [Inhabited α] {less : α → α → Bool} {l : List α}
    (h : SortedR less l 0 l.length) : l.Pairwise (fun x y => less y x = false) := by
  rw [List.pairwise_iff_getElem]
  intro i j hi hj hij
  have := h i j (Nat.zero_le _) hij hj
  simpa [val, hi, hj] using this

/-- `sort.Slice` returns a permutation of the slice in which no element is less
than an element before it, whenever `less` is a strict weak order. -/
theorem sortSlice_spec {α : Type} [Inhabited α] {less : α → α → Bool} (hw : StrictWeak less)
    (random : Nat → Nat → Nat) (xs : List α) :
    (sortSlice random less xs).Perm xs ∧
    (sortSlice random less xs).Pairwise (fun x y => less y x = false) := by
  have h := pdqsortLoop_spec hw random (xs.length + 1) xs 0 xs.length (bitsLen xs.length)
    true true (Nat.le_refl _) (by omega) (Or.inl rfl)
  refine ⟨h.1.perm, SortedR.pairwise ?_⟩
  have e : (sortSlice random less xs).length = xs.length := h.1.len
  rw [e]
  exact h.2

/-! ## The sort commutes with a map of the elements -/

theorem lessAt_map {α β : Type} (less : α → α → Bool) (f : β → α) (l : List β) (i j : Nat) :
    lessAt less (l.map f) i j = lessAt (lessOn less f) l i j := by
  unfold lessAt
  rw [List.getElem?_map, List.getElem?_map]
  cases l[i]? <;> cases l[j]? <;> rfl

theorem swapAt_map {α β : Type} (f : β → α) (l : List β) (i j : Nat) :
    swapAt (l.map f) i j = (swapAt l i j).map f := by
  unfold swapAt
  rw [List.getElem?_map, List.getElem?_map]
  cases l[i]? <;> cases l[j]? <;> simp [List.map_set]

theorem foldl_map_comm {α β ι : Type} (f : β → α) (g : List α → ι → List α)
    (g' : List β → ι → List β) (h : ∀ l i, g (l.map f) i = (g' l i).map f) :
    ∀ (is : List ι) (l : List β), is.foldl g (l.map f) = (is.foldl g' l).map f := by
  intro is
  induction is with
  | nil => intro l; rfl
  | cons i is ih =>
    intro l
    rw [List.foldl_cons, List.foldl_cons, h, ih]

theorem insertionInner_map {α β : Type} (less : α → α → Bool) (f : β → α) (a : Nat) :
    ∀ (j : Nat) (l : List β),
      insertionInner less a j (l.map f) = (insertionInner (lessOn less f) a j l).map f := by
  intro j
  induction j with
  | zero => intro l; rfl
  | succ j ih =>
    intro l
    unfold insertionInner
    rw [lessAt_map, swapAt_map, ih]
    split_ifs <;> rfl

theorem insertionSortFunc_map {α β : Type} (less : α → α → Bool) (f : β → α) (l : List β)
    (a b : Nat) :
    insertionSortFunc less (l.map f) a b = (insertionSortFunc (lessOn less f) l a b).map f := by
  unfold insertionSortFunc
  exact foldl_map_comm f _ _ (fun l i => insertionInner_map less f a i l) _ l

theorem siftDownLoop_map {α β : Type} (less : α → α → Bool) (f : β → α) (hi first : Nat) :
    ∀ (fuel : Nat) (l : List β) (root : Nat),
      siftDownLoop less hi first fuel (l.map f) root =
        (siftDownLoop (lessOn less f) hi first fuel l root).map f := by
  intro fuel
  induction fuel with
  | zero => intro l root; rfl
  | succ n ih =>
    intro l root
    unfold siftDownLoop
    simp only [lessAt_map, swapAt_map, ih]
    split_ifs <;> rfl

theorem siftDownFunc_map {α β : Type} (less : α → α → Bool) (f : β → α) (l : List β)
    (lo hi first : Nat) :
    siftDownFunc less (l.map f) lo hi first =
      (siftDownFunc (lessOn less f) l lo hi first).map f :=
  siftDownLoop_map less f hi first hi l lo

theorem heapSortFunc_map {α β : Type} (less : α → α → Bool) (f : β → α) (l : List β)
    (a b : Nat) :
    heapSortFunc less (l.map f) a b = (heapSortFunc (lessOn less f) l a b).map f := by
  unfold heapSortFunc
  simp only []
  rw [foldl_map_comm f (fun l i => siftDownFunc less l i (b - a) a)
    (fun l i => siftDownFunc (lessOn less f) l i (b - a) a)
    (fun l i => siftDownFunc_map less f l i (b - a) a)]
  exact foldl_map_comm f (fun l i => siftDownFunc less (swapAt l a (a + i)) 0 i a)
    (fun l i => siftDownFunc (lessOn less f) (swapAt l a (a + i)) 0 i a)
    (fun l i => by
      show siftDownFunc less (swapAt (l.map f) a (a + i)) 0 i a = _
      rw [swapAt_map, siftDownFunc_map]) _ _

theorem partitionLoop_map {α β : Type} (less : α → α → Bool) (f : β → α) (a : Nat) :
    ∀ (fuel : Nat) (l : List β) (i j : Nat),
      partitionLoop less a fuel (l.map f) i j =
        ((partitionLoop (lessOn less f) a fuel l i j).1.map f,
          (partitionLoop (lessOn less f) a fuel l i j).2) := by
  intro fuel
  induction fuel with
  | zero => intro l i j; rfl
  | succ n ih =>
    intro l i j
    unfold partitionLoop
    simp only [lessAt_map, swapAt_map, ih]
    split_ifs <;> rfl

theorem partitionFunc_map {α β : Type} (less : α → α → Bool) (f : β → α) (l : List β)
    (a b pivot : Nat) :
    partitionFunc less (l.map f) a b pivot =
      ((partitionFunc (lessOn less f) l a b pivot).1.map f,
        (partitionFunc (lessOn less f) l a b pivot).2) := by
  unfold partitionFunc
  simp only [lessAt_map, swapAt_map, partitionLoop_map]
  split_ifs <;> rfl

theorem partitionEqualLoop_map {α β : Type} (less : α → α → Bool) (f : β → α) (a : Nat) :
    ∀ (fuel : Nat) (l : List β) (i j : Nat),
      partitionEqualLoop less a fuel (l.map f) i j =
        ((partitionEqualLoop (lessOn less f) a fuel l i j).1.map f,
          (partitionEqualLoop (lessOn less f) a fuel l i j).2) := by
  intro fuel
  induction fuel with
  | zero => intro l i j; rfl
  | succ n ih =>
    intro l i j
    unfold partitionEqualLoop
    simp only [lessAt_map, swapAt_map, ih]
    split_ifs <;> rfl

theorem partitionEqualFunc_map {α β : Type} (less : α → α → Bool) (f : β → α) (l : List β)
    (a b pivot : Nat) :
    partitionEqualFunc less (l.map f) a b pivot =
      ((partitionEqualFunc (lessOn less f) l a b pivot).1.map f,
        (partitionEqualFunc (lessOn less f) l a b pivot).2) := by
  unfold partitionEqualFunc
  rw [swapAt_map, partitionEqualLoop_map]

theorem shiftLeft_map {α β : Type} (less : α → α → Bool) (f : β → α) :
    ∀ (j : Nat) (l : List β),
      shiftLeft less j (l.map f) = (shiftLeft (lessOn less f) j l).map f := by
  intro j
  induction j with
  | zero => intro l; rfl
  | succ j ih =>
    intro l
    unfold shiftLeft
    rw [lessAt_map, swapAt_map, ih]
    split_ifs <;> rfl

theorem shiftRight_map {α β : Type} (less : α → α → Bool) (f : β → α) (b : Nat) :
    ∀ (fuel : Nat) (l : List β) (j : Nat),
      shiftRight less b fuel (l.map f) j = (shiftRight (lessOn less f) b fuel l j).map f := by
  intro fuel
  induction fuel with
  | zero => intro l j; rfl
  | succ n ih =>
    intro l j
    unfold shiftRight
    rw [lessAt_map, swapAt_map, ih]
    split_ifs <;> rfl

theorem partialInsertionLoop_map {α β : Type} (less : α → α → Bool) (f : β → α) (a b : Nat) :
    ∀ (steps : Nat) (l : List β) (i : Nat),
      partialInsertionLoop less a b steps (l.map f) i =
        ((partialInsertionLoop (lessOn less f) a b steps l i).1.map f,
          (partialInsertionLoop (lessOn less f) a b steps l i).2) := by
  intro steps
  induction steps with
  | zero => intro l i; rfl
  | succ n ih =>
    intro l i
    unfold partialInsertionLoop
    simp only [lessAt_map, swapAt_map, shiftLeft_map, ← apply_ite (List.map f),
      shiftRight_map, ih]
    split_ifs <;> rfl

theorem partialInsertionSortFunc_map {α β : Type} (less : α → α → Bool) (f : β → α)
    (l : List β) (a b : Nat) :
    partialInsertionSortFunc less (l.map f) a b =
      ((partialInsertionSortFunc (lessOn less f) l a b).1.map f,
        (partialInsertionSortFunc (lessOn less f) l a b).2) :=
  partialInsertionLoop_map less f a b 5 l (a + 1)

theorem breakPatternsFunc_map {α β : Type} (f : β → α) (random : Nat → Nat) (l : List β)
    (a b : Nat) :
    breakPatternsFunc random (l.map f) a b = (breakPatternsFunc random l a b).map f := by
  unfold breakPatternsFunc
  simp only [swapAt_map]
  split_ifs <;> rfl

theorem order2Func_map {α β : Type} (less : α → α → Bool) (f : β → α) (l : List β)
    (a b s : Nat) :
    order2Func less (l.map f) a b s = order2Func (lessOn less f) l a b s := by
  unfold order2Func
  rw [lessAt_map]

theorem medianFunc_map {α β : Type} (less : α → α → Bool) (f : β → α) (l : List β)
    (a b c s : Nat) :
    medianFunc less (l.map f) a b c s = medianFunc (lessOn less f) l a b c s := by
  unfold medianFunc
  simp only [order2Func_map]

theorem medianAdjacentFunc_map {α β : Type} (less : α → α → Bool) (f : β → α) (l : List β)
    (a s : Nat) :
    medianAdjacentFunc less (l.map f) a s = medianAdjacentFunc (lessOn less f) l a s :=
  medianFunc_map less f l _ _ _ s

theorem choosePivotFunc_map {α β : Type} (less : α → α → Bool) (f : β → α) (l : List β)
    (a b : Nat) :
    choosePivotFunc less (l.map f) a b = choosePivotFunc (lessOn less f) l a b := by
  unfold choosePivotFunc
  simp only [medianAdjacentFunc_map, medianFunc_map]

theorem reverseLoop_map {α β : Type} (f : β → α) :
    ∀ (fuel : Nat) (l : List β) (i j : Nat),
      reverseLoop fuel (l.map f) i j = (reverseLoop fuel l i j).map f := by
  intro fuel
  induction fuel with
  | zero => intro l i j; rfl
  | succ n ih =>
    intro l i j
    unfold reverseLoop
    rw [swapAt_map, ih]
    split_ifs <;> rfl

theorem reverseRangeFunc_map {α β : Type} (f : β → α) (l : List β) (a b : Nat) :
    reverseRangeFunc (l.map f) a b = (reverseRangeFunc l a b).map f :=
  reverseLoop_map f _ l a (b - 1)

theorem pdqPrepare_map {α β : Type} (less : α → α → Bool) (f : β → α)
    (random : Nat → Nat → Nat) (l : List β) (a b : Nat) (wb wp : Bool) :
    pdqPrepare less random (l.map f) a b wb wp =
      (((pdqPrepare (lessOn less f) random l a b wb wp).1.1.map f,
        (pdqPrepare (lessOn less f) random l a b wb wp).1.2),
        (pdqPrepare (lessOn less f) random l a b wb wp).2) := by
  unfold pdqPrepare
  simp only []
  have e1 : (if (!wb) = true then breakPatternsFunc (random (b - a)) (l.map f) a b
      else l.map f) =
      (if (!wb) = true then breakPatternsFunc (random (b - a)) l a b else l).map f := by
    split
    · exact breakPatternsFunc_map f _ l a b
    · rfl
  rw [e1]
  generalize (if (!wb) = true then breakPatternsFunc (random (b - a)) l a b else l) = l1
  rw [choosePivotFunc_map]
  generalize choosePivotFunc (lessOn less f) l1 a b = ph
  have e2 : (if ph.2 = SortedHint.decreasingHint then reverseRangeFunc (l1.map f) a b
      else l1.map f) =
      (if ph.2 = SortedHint.decreasingHint then reverseRangeFunc l1 a b else l1).map f := by
    split
    · exact reverseRangeFunc_map f l1 a b
    · rfl
  rw [e2]
  generalize (if ph.2 = SortedHint.decreasingHint then reverseRangeFunc l1 a b else l1) = l2
  rw [partialInsertionSortFunc_map]
  generalize (wb && wp && decide ((if ph.2 = SortedHint.decreasingHint
    then SortedHint.increasingHint else ph.2) = SortedHint.increasingHint)) = c
  cases c <;> rfl

theorem pdqsortLoop_map {α β : Type} (less : α → α → Bool) (f : β → α)
    (random : Nat → Nat → Nat) :
    ∀ (fuel : Nat) (l : List β) (a b limit : Nat) (wb wp : Bool),
      pdqsortLoop less random fuel (l.map f) a b limit wb wp =
        (pdqsortLoop (lessOn less f) random fuel l a b limit wb wp).map f := by
  intro fuel
  induction fuel with
  | zero => intro l a b limit wb wp; rfl
  | succ n ih =>
    intro l a b limit wb wp
    rw [pdqsortLoop_succ, pdqsortLoop_succ, pdqPrepare_map]
    simp only [insertionSortFunc_map, heapSortFunc_map, lessAt_map, partitionEqualFunc_map,
      partitionFunc_map, ih]
    split_ifs <;> rfl

theorem sortSlice_map {α β : Type} (less : α → α → Bool) (f : β → α)
    (random : Nat → Nat → Nat) (xs : List β) :
    sortSlice random less (xs.map f) = (sortSlice random (lessOn less f) xs).map f := by
  unfold sortSlice
  rw [List.length_map]
  exact pdqsortLoop_map less f random _ xs 0 xs.length _ true true

/-- `sort.Slice` returns a permutation of the slice in which no element is less
than an element before it, whenever `less` is a strict weak order on a set that
holds the elements of the slice. -/
theorem sortSlice_spec_on {α : Type} (less : α → α → Bool) (S : α → Prop) (d : α) (hd : S d)
    (hasym : ∀ a b, S a → S b → less a b = true → less b a = false)
    (hnt : ∀ a b c, S a → S b → S c → less a b = false → less b c = false → less a c = false)
    (random : Nat → Nat → Nat) (xs : List α) (hxs : ∀ x ∈ xs, S x) :
    (sortSlice random less xs).Perm xs ∧
    (sortSlice random less xs).Pairwise (fun x y => less y x = false) := by
  have inh : Inhabited { x : α // S x } := ⟨⟨d, hd⟩⟩
  have hw : StrictWeak (lessOn less (Subtype.val : { x : α // S x } → α)) :=
    ⟨fun a b => hasym a.1 b.1 a.2 b.2, fun a b c => hnt a.1 b.1 c.1 a.2 b.2 c.2⟩
  have e : xs = (xs.attachWith S hxs).map Subtype.val := by
    simp [List.attachWith_map_subtype_val]
  have h := sortSlice_spec hw random (xs.attachWith S hxs)
  rw [e, sortSlice_map]
  refine ⟨h.1.map _, ?_⟩
  rw [List.pairwise_map]
  exact h.2

theorem entryLess_asymm (lower : Char → Char) (a b : Entry)
    (h : entryLess lower a b = true) : entryLess lower b a = false := by
  unfold entryLess at h ⊢
  by_cases hab : a.Typ = b.Typ
  · rw [if_pos hab] at h
    rw [if_pos hab.symm]
    exact ltChars_asymm _ _ h
  · rw [if_neg hab] at h
    rw [if_neg (fun hba => hab hba.symm)]
    have ha : a.Typ = "dir" := by simpa using h
    have hb : b.Typ ≠ "dir" := fun hb => hab (ha.trans hb.symm)
    simpa using hb

theorem entryLess_ntrans (lower : Char → Char) (a b c : Entry)
    (ha : IsKind a) (hb : IsKind b) (hc : IsKind c)
    (h1 : entryLess lower a b = false) (h2 : entryLess lower b c = false) :
    entryLess lower a c = false := by
  unfold entryLess at h1 h2 ⊢
  rcases ha with ha | ha <;> rcases hb with hb | hb <;> rcases hc with hc | hc <;>
    simp only [ha, hb, hc] at h1 h2 ⊢ <;>
    first
      | exact ltChars_ntrans _ _ _ (by simpa using h1) (by simpa using h2)
      | simp at h1 h2 ⊢

/-- Every sequence ordered by the handler's comparison has its directories
before its files and, within each kind, lower-cased names that do not decrease;
this holds of whatever `sort.Slice` returns. -/
theorem entries_ordered_of_sorted (lower : Char → Char) (out : List Entry)
    (h : out.Pairwise (fun a b => entryLess lower b a = false)) :
    out.Pairwise (fun a b => ¬ (a.Typ = "file" ∧ b.Typ = "dir")) ∧
    out.Pairwise (fun a b => a.Typ = b.Typ →
      strLess (ToLower lower b.Name) (ToLower lower a.Name) = false) := by
  constructor
  · refine h.imp ?_
    intro a b hab hk
    have hne : ¬ b.Typ = a.Typ := by
      rw [hk.1, hk.2]
      decide
    unfold entryLess at hab
    rw [if_neg hne] at hab
    simp [hk.2] at hab
  · refine h.imp ?_
    intro a b hab hk
    simpa [entryLess, hk] using hab

theorem isKind_mkEntry (relPath : String) (it : DirEntry) : IsKind (mkEntry relPath it) := by
  unfold IsKind mkEntry
  cases it.IsDir <;> simp

theorem listDir_isKind (w : World) (relPath : String) (depth : Int) (ops : List Op)
    (entries : List Entry) (h : listDir w relPath depth = (ops, .ok entries)) :
    ∀ e ∈ entries, IsKind e := by
  unfold listDir at h
  by_cases hd : depth > maxDepth
  · rw [if_pos hd] at h
    injection h with _ h2
    injection h2 with h3
    subst h3
    simp
  · rw [if_neg hd] at h
    cases hj : safeJoin w.Getwd baseDir relPath with
    | error err => simp [hj] at h
    | ok full =>
      cases hr : w.ReadDir full with
      | error err => simp [hj, hr] at h
      | ok items =>
        simp only [hj, hr] at h
        injection h with _ h2
        injection h2 with h3
        subst h3
        intro e he
        obtain ⟨it, _, rfl⟩ := List.mem_map.1 he
        exact isKind_mkEntry relPath it

theorem ToLower_ascii (lower : Char → Char)
    (hl : ∀ c : Char, c.toNat < 128 → lower c = c.toLower) (s : String)
    (hs : ∀ c ∈ s.data, c.toNat < 128) : ToLower lower s = ToLower Char.toLower s := by
  unfold ToLower
  congr 1
  exact List.map_congr_left (fun c hc => hl c (hs c hc))

theorem sortSlice_short {α : Type} (random : Nat → Nat → Nat) (less : α → α → Bool)
    (xs : List α) (h : xs.length ≤ 12) :
    sortSlice random less xs = insertionSortFunc less xs 0 xs.length := by
  unfold sortSlice
  rw [pdqsortLoop_succ, if_pos (by omega)]

theorem sortSlice_entries_spec (random : Nat → Nat → Nat) (lower : Char → Char)
    (entries : List Entry) (hk : ∀ e ∈ entries, IsKind e) :
    (sortSlice random (entryLess lower) entries).Perm entries ∧
    (sortSlice random (entryLess lower) entries).Pairwise
      (fun a b => ¬ (a.Typ = "file" ∧ b.Typ = "dir")) ∧
    (sortSlice random (entryLess lower) entries).Pairwise (fun a b => a.Typ = b.Typ →
      strLess (ToLower lower b.Name) (ToLower lower a.Name) = false) := by
  have h := sortSlice_spec_on (entryLess lower) IsKind ⟨"", "", "dir"⟩ (Or.inl rfl)
    (fun a b _ _ => entryLess_asymm lower a b) (entryLess_ntrans lower) random entries hk
  exact ⟨h.1, entries_ordered_of_sorted lower _ h.2⟩

theorem handler_dir_branch (w : World) (lower : Char → Char) (query full : String)
    (info : FileInfo) (ops : List Op) (entries : List Entry)
    (hj : safeJoin w.Getwd baseDir (if query = "" then "." else query) = .ok full)
    (hs : w.Stat full = .ok info) (hd : info.IsDir = true)
    (hl : listDir w (if query = "" then "." else query) 1 = (ops, .ok entries)) :
    handler w lower query =
      Op.stat full :: (ops ++ [Op.execute
        { CurrentPath := if query = "" then "." else query
          ParentPath := parentPath (if query = "" then "." else query)
          Entries := sortSlice w.Random (entryLess lower) entries
          IsFileView := false }]) := by
  unfold handler
  simp only [hj, hs, hd, hl, if_true, finish]
  simp

theorem listDir_ok (w : World) (relPath full : String) (items : List DirEntry)
    (hj : safeJoin w.Getwd baseDir relPath = .ok full) (hr : w.ReadDir full = .ok items) :
    listDir w relPath 1 = ([Op.readDir full], .ok (items.map (mkEntry relPath))) := by
  unfold listDir
  rw [if_neg (by decide)]
  simp only [hj, hr]

/-- The insertion sort of the library on four elements that compare as the
children of the example do. -/
theorem insertionSortFunc_four {α : Type} (less : α → α → Bool) (x0 x1 x2 x3 : α)
    (e1 : less x1 x0 = true) (e2 : less x2 x1 = false) (e3 : less x2 x0 = true)
    (e4 : less x3 x0 = true) (e5 : less x3 x2 = true) (e6 : less x3 x1 = false) :
    insertionSortFunc less [x0, x1, x2, x3] 0 4 = [x1, x3, x2, x0] := by
  simp [insertionSortFunc, List.range', insertionInner, lessAt, swapAt, e1, e2, e3, e4, e5, e6]

theorem sortSlice_example (random : Nat → Nat → Nat) (lower : Char → Char)
    (hl : ∀ c : Char, c.toNat < 128 → lower c = c.toLower) (rel : String) :
    sortSlice random (entryLess lower)
      ([⟨"b.txt", false⟩, ⟨"A", true⟩, ⟨"a.txt", false⟩, ⟨"B", true⟩].map (mkEntry rel)) =
      [⟨"A", true⟩, ⟨"B", true⟩, ⟨"a.txt", false⟩, ⟨"b.txt", false⟩].map (mkEntry rel) := by
  have h1 : ToLower lower "b.txt" = "b.txt" := by
    rw [ToLower_ascii lower hl _ (by decide)]; decide
  have h2 : ToLower lower "A" = "a" := by
    rw [ToLower_ascii lower hl _ (by decide)]; decide
  have h3 : ToLower lower "a.txt" = "a.txt" := by
    rw [ToLower_ascii lower hl _ (by decide)]; decide
  have h4 : ToLower lower "B" = "b" := by
    rw [ToLower_ascii lower hl _ (by decide)]; decide
  have h5 : strLess "a.txt" "b.txt" = true := by decide
  have h6 : strLess "b" "a" = false := by decide
  have e1 : entryLess lower (mkEntry rel ⟨"A", true⟩) (mkEntry rel ⟨"b.txt", false⟩) = true := by
    rfl
  have e2 : entryLess lower (mkEntry rel ⟨"a.txt", false⟩) (mkEntry rel ⟨"A", true⟩) = false := by
    rfl
  have e3 : entryLess lower (mkEntry rel ⟨"a.txt", false⟩) (mkEntry rel ⟨"b.txt", false⟩)
      = true := by
    simp [entryLess, mkEntry, h1, h3, h5]
  have e4 : entryLess lower (mkEntry rel ⟨"B", true⟩) (mkEntry rel ⟨"b.txt", false⟩) = true := by
    rfl
  have e5 : entryLess lower (mkEntry rel ⟨"B", true⟩) (mkEntry rel ⟨"a.txt", false⟩) = true := by
    rfl
  have e6 : entryLess lower (mkEntry rel ⟨"B", true⟩) (mkEntry rel ⟨"A", true⟩) = false := by
    simp [entryLess, mkEntry, h2, h4, h6]
  rw [sortSlice_short _ _ _ (by simp)]
  exact insertionSortFunc_four _ _ _ _ _ e1 e2 e3 e4 e5 e6

/-- C3: when the handler lists a directory, the entries it puts in the view
model are what `sort.Slice`, the pattern-defeating quicksort of the library at
every length, makes of the entries `listDir` returned: a permutation of them,
with every directory before every file and, within each kind, lower-cased names
that do not decrease; when the directory holds the children b.txt, A, a.txt, B,
of which A and B are directories, the entries are A, B, a.txt, b.txt; a
directory of the 26 files A to M and a to m, on which the quicksort runs, comes
out with names that do not decrease in lower case, a before A and i before I. -/
theorem handler_orders_entries :
    (∀ (w : World) (lower : Char → Char) (query full : String) (info : FileInfo)
        (ops : List Op) (entries : List Entry),
      safeJoin w.Getwd baseDir (if query = "" then "." else query) = .ok full →
      w.Stat full = .ok info → info.IsDir = true →
      listDir w (if query = "" then "." else query) 1 = (ops, .ok entries) →
      ∃ data, handler w lower query = Op.stat full :: (ops ++ [Op.execute data]) ∧
        data.Entries = sortSlice w.Random (entryLess lower) entries ∧
        data.Entries.Perm entries ∧
        data.Entries.Pairwise (fun a b => ¬ (a.Typ = "file" ∧ b.Typ = "dir")) ∧
        data.Entries.Pairwise (fun a b => a.Typ = b.Typ →
          strLess (ToLower lower b.Name) (ToLower lower a.Name) = false)) ∧
    (∀ (w : World) (lower : Char → Char) (query full : String) (info : FileInfo),
      (∀ c : Char, c.toNat < 128 → lower c = c.toLower) →
      safeJoin w.Getwd baseDir (if query = "" then "." else query) = .ok full →
      w.Stat full = .ok info → info.IsDir = true →
      w.ReadDir full = .ok [⟨"b.txt", false⟩, ⟨"A", true⟩, ⟨"a.txt", false⟩, ⟨"B", true⟩] →
      ∃ data, handler w lower query = [Op.stat full, Op.readDir full, Op.execute data] ∧
        data.Entries = [⟨"A", true⟩, ⟨"B", true⟩, ⟨"a.txt", false⟩, ⟨"b.txt", false⟩].map
          (mkEntry (if query = "" then "." else query))) ∧
    handler longWorld Char.toLower "" =
      [Op.stat "indir", Op.readDir "indir", Op.execute
        { CurrentPath := ".", ParentPath := ".", IsFileView := false,
          Entries :=
            ["a", "A", "B", "b", "C", "c", "D", "d", "E", "e", "F", "f", "G", "g", "H", "h",
             "i", "I", "J", "j", "K", "k", "L", "l", "M", "m"].map
              (fun n => ⟨n, n, "file"⟩) }] := by
  refine ⟨?_, ?_, by decide!⟩
  · intro w lower query full info ops entries hj hs hd hl
    exact ⟨_, handler_dir_branch w lower query full info ops entries hj hs hd hl, rfl,
      sortSlice_entries_spec w.Random lower entries (listDir_isKind w _ 1 ops entries hl)⟩
  · intro w lower query full info hl hj hs hd hr
    have h := handler_dir_branch w lower query full info _ _ hj hs hd
      (listDir_ok w _ full _ hj hr)
    refine ⟨_, h, ?_⟩
    dsimp only
    exact sortSlice_example w.Random lower hl _

theorem handler_orders_entries_witness :
    ∃ data, handler demoWorld Char.toLower "" =
        [Op.stat "indir", Op.readDir "indir", Op.execute data] ∧
      data.Entries.map Entry.Name = ["A", "B", "a.txt", "b.txt"] ∧
      data.Entries.Perm
        ([⟨"b.txt", false⟩, ⟨"A", true⟩, ⟨"a.txt", false⟩, ⟨"B", true⟩].map (mkEntry ".")) ∧
      data.Entries.Pairwise (fun a b => ¬ (a.Typ = "file" ∧ b.Typ = "dir")) := by
  obtain ⟨data, h1, h2⟩ := handler_orders_entries.2.1 demoWorld Char.toLower "" "indir"
    ⟨true, false⟩ (fun _ _ => rfl) (by decide) (by decide) rfl (by decide)
  obtain ⟨data1, h3, _, h4, h5, _⟩ := handler_orders_entries.1 demoWorld Char.toLower ""
    "indir" ⟨true, false⟩ [Op.readDir "indir"]
    ([⟨"b.txt", false⟩, ⟨"A", true⟩, ⟨"a.txt", false⟩, ⟨"B", true⟩].map (mkEntry "."))
    (by decide) (by decide) rfl (by decide)
  have e : data1 = data := by
    rw [h1] at h3
    injection h3 with _ h6
    injection h6 with _ h7
    injection h7 with h8 _
    injection h8 with h9
    exact h9.symm
  rw [e] at h4 h5
  refine ⟨data, h1, ?_, h4, h5⟩
  rw [h2]
  decide

/-! ## The depth bound, the stat step and the classification -/

/-- C8: beyond the maximum depth of 4, `listDir` returns the empty sequence and
no error for every path, also one the resolver rejects, without a call on the
resolver's result or the file system. -/
theorem listDir_beyond_maxDepth (w : World) (relPath : String) (depth : Int)
    (h : depth > maxDepth) : maxDepth = 4 ∧ listDir w relPath depth = ([], .ok []) := by
  refine ⟨rfl, ?_⟩
  unfold listDir
  rw [if_pos h]

theorem listDir_beyond_maxDepth_witness :
    safeJoin demoWorld.Getwd baseDir "../../etc/passwd" = .error .ErrPermission ∧
    (5 : Int) > maxDepth ∧ maxDepth = 4 ∧
    listDir demoWorld "../../etc/passwd" 5 = ([], .ok []) :=
  ⟨by decide, by decide, listDir_beyond_maxDepth demoWorld "../../etc/passwd" 5 (by decide)⟩

/-- C9, as the program has it: for a request whose path the resolver accepts,
every failure of the stat step, whether the path does not exist or the error is
another one, is answered with 404 Not Found after the one call of stat. -/
theorem handler_stat_failure (w : World) (lower : Char → Char) (query full : String)
    (e : GoError)
    (hj : safeJoin w.Getwd baseDir (if query = "" then "." else query) = .ok full)
    (hs : w.Stat full = .error e) :
    handler w lower query = [.stat full, .httpError "Not found" 404] := by
  unfold handler
  simp only [hj, hs]

theorem handler_stat_failure_witness :
    safeJoin demoWorld.Getwd baseDir "missing" = .ok "indir/missing" ∧
    demoWorld.Stat "indir/missing" = .error .ErrNotExist ∧
    handler demoWorld Char.toLower "missing" =
      [.stat "indir/missing", .httpError "Not found" 404] :=
  ⟨by decide, by decide,
   handler_stat_failure demoWorld Char.toLower "missing" "indir/missing" .ErrNotExist
    (by decide) (by decide)⟩

/-- C9, as the specification has it, fails: the base directory is accepted, its
stat fails with a permission error, which is not non-existence, and the handler
answers 404, with no 500 among its calls. -/
theorem handler_stat_permission_not_500 :
    safeJoin deniedWorld.Getwd baseDir "." = .ok "indir" ∧
    deniedWorld.Stat "indir" = .error .ErrPermission ∧
    GoError.ErrPermission ≠ GoError.ErrNotExist ∧
    handler deniedWorld Char.toLower "" = [.stat "indir", .httpError "Not found" 404] ∧
    ¬ ∃ msg, Op.httpError msg 500 ∈ handler deniedWorld Char.toLower "" := by
  refine ⟨by decide, by decide, by decide, by decide, ?_⟩
  rintro ⟨msg, h⟩
  have h1 : handler deniedWorld Char.toLower "" =
      [.stat "indir", .httpError "Not found" 404] := by decide
  rw [h1] at h
  simp at h

theorem extScan_append_sep (m : List Char) :
    ∀ (l acc : List Char), '/' ∉ l → extScan (l ++ '/' :: m) acc = extScan l acc := by
  intro l
  induction l with
  | nil => intro acc _; simp [extScan]
  | cons c cs ih =>
    intro acc h
    have hc : c ≠ '/' := fun hc => h (by simp [hc])
    have hcs : '/' ∉ cs := fun hcs => h (List.mem_cons_of_mem _ hcs)
    simp only [List.cons_append, extScan, hc, if_false]
    by_cases hd : c = '.'
    · simp [hd]
    · simp only [hd, if_false]
      exact ih _ hcs

/-- The extension of a path is the extension of its last element. -/
theorem Ext_sep (dir name : String) (h : '/' ∉ name.data) :
    Ext (dir ++ "/" ++ name) = Ext name := by
  apply String.ext
  show extScan (dir ++ "/" ++ name).data.reverse [] = extScan name.data.reverse []
  rw [sep_data]
  have h1 : (dir.data ++ '/' :: name.data).reverse = name.data.reverse ++ '/' :: dir.data.reverse := by
    simp
  rw [h1]
  exact extScan_append_sep _ _ _ (by simpa using h)

/-! ## Where confinement fails -/

/-- C1 at base `indir`, `rel` `../indir2/x` and working directory `/srv`:
`safeJoin` accepts and returns `indir2/x`, whose absolute form `/srv/indir2/x`
has the absolute base `/srv/indir` as a string prefix without being the base
or a descendant of it. -/
theorem safeJoin_accepts_sibling :
    safeJoin (some "/srv") "indir" "../indir2/x" = .ok "indir2/x" ∧
    Abs (some "/srv") "indir" = some "/srv/indir" ∧
    Abs (some "/srv") "indir2/x" = some "/srv/indir2/x" ∧
    HasPrefix "/srv/indir2/x" "/srv/indir" = true ∧
    isWithin "/srv/indir" "/srv/indir2/x" = false := by
  decide

/-- C2 at `rel` `../indir` and working directory `/srv`: the resolver accepts
`rel`, which denotes the base, `parentPath` returns `..`, and the resolver
rejects that. -/
theorem parentPath_leaves_root :
    safeJoin (some "/srv") baseDir "../indir" = .ok "indir" ∧
    parentPath "../indir" = ".." ∧
    safeJoin (some "/srv") baseDir (parentPath "../indir") = .error .ErrPermission := by
  decide

/-! ## Rejection -/

theorem isPrefixOf_append_left (a x y : List Char) :
    (a ++ x).isPrefixOf (a ++ y) = x.isPrefixOf y := by
  induction a with
  | nil => rfl
  | cons c cs ih => simp [List.isPrefixOf, ih]

/-- Two paths that begin with an element and a separator: one can only begin
with the other when the first elements are the same. -/
theorem isPrefixOf_sep : ∀ (t u a b : List Char), '/' ∉ t → '/' ∉ u →
    (t ++ '/' :: a).isPrefixOf (u ++ '/' :: b) = true → t = u ∧ a.isPrefixOf b = true := by
  intro t
  induction t with
  | nil =>
    intro u a b _ hu h
    cases u with
    | nil => simpa [List.isPrefixOf] using h
    | cons d ds =>
      have hd : d ≠ '/' := fun hd => hu (by simp [hd])
      simp [List.isPrefixOf] at h
      exact absurd h.1.symm hd
  | cons c cs ih =>
    intro u a b ht hu h
    have hc : c ≠ '/' := fun hc => ht (by simp [hc])
    have hcs : '/' ∉ cs := fun hcs => ht (List.mem_cons_of_mem _ hcs)
    cases u with
    | nil =>
      simp [List.isPrefixOf] at h
      exact absurd h.1 hc
    | cons d ds =>
      have hds : '/' ∉ ds := fun hds => hu (List.mem_cons_of_mem _ hds)
      simp only [List.cons_append, List.isPrefixOf, Bool.and_eq_true, beq_iff_eq] at h
      obtain ⟨h1, h2⟩ := ih ds a b hcs hds h.2
      exact ⟨by rw [h.1, h1], h2⟩

theorem render_cons_cons (r : Bool) (b a : List Char) (out : List (List Char)) :
    render r (b :: a :: out) = stem r out ++ (a ++ '/' :: b) := by
  rw [render_cons]
  show (render r (a :: out) ++ ['/']) ++ b = _
  rw [render_cons]
  simp

theorem etc_passwd_outside (r : Bool) (out : List (List Char))
    (hs : ∀ e ∈ out, '/' ∉ e) :
    (render r ("indir".data :: out)).isPrefixOf
      (render r ("passwd".data :: "etc".data :: cleanStep r out dotdot)) = false := by
  cases out with
  | nil =>
    rw [cleanStep_dotdot_nil]
    cases r <;> decide
  | cons t rest =>
    by_cases ht : t = dotdot
    · subst ht
      rw [cleanStep_dotdot_dotdot]
      cases r
      · simp only [Bool.false_eq_true, if_false]
        have h1 : render false ("indir".data :: dotdot :: rest) =
            stem false (dotdot :: rest) ++ "indir".data := render_cons _ _ _
        have h2 : render false ("passwd".data :: "etc".data :: dotdot :: dotdot :: rest) =
            stem false (dotdot :: rest) ++
              (dotdot ++ '/' :: ("etc".data ++ '/' :: "passwd".data)) := by
          rw [render_cons_cons]
          show (render false (dotdot :: dotdot :: rest) ++ ['/']) ++ _ = _
          rw [render_cons false dotdot (dotdot :: rest)]
          simp
        rw [h1, h2, isPrefixOf_append_left]
        decide
      · simp only [if_true]
        have h1 : render true ("indir".data :: dotdot :: rest) =
            stem true (dotdot :: rest) ++ "indir".data := render_cons _ _ _
        have h2 : render true ("passwd".data :: "etc".data :: dotdot :: rest) =
            stem true (dotdot :: rest) ++ ("etc".data ++ '/' :: "passwd".data) :=
          render_cons_cons _ _ _ _
        rw [h1, h2, isPrefixOf_append_left]
        decide
    · rw [cleanStep_dotdot_pop r rest ht]
      have h1 : render r ("indir".data :: t :: rest) =
          stem r rest ++ (t ++ '/' :: "indir".data) := render_cons_cons _ _ _ _
      have h2 : render r ("passwd".data :: "etc".data :: rest) =
          stem r rest ++ ("etc".data ++ '/' :: "passwd".data) := render_cons_cons _ _ _ _
      rw [h1, h2, isPrefixOf_append_left]
      cases h : (t ++ '/' :: "indir".data).isPrefixOf ("etc".data ++ '/' :: "passwd".data) with
      | false => rfl
      | true =>
        have h3 := (isPrefixOf_sep t "etc".data "indir".data "passwd".data
          (hs t (List.mem_cons_self _ _)) (by decide) h).2
        exact absurd h3 (by decide)

/-- The request `../../etc/passwd` is rejected in every working directory. -/
theorem safeJoin_etc_passwd (wd : String) :
    safeJoin (some wd) baseDir "../../etc/passwd" = .error .ErrPermission := by
  have hc : Clean (Join [baseDir, "../../etc/passwd"]) = "../etc/passwd" := by decide
  have hb : Abs (some wd) baseDir = some (Join [wd, "indir"]) := rfl
  have ha : Abs (some wd) "../etc/passwd" = some (Join [wd, "../etc/passwd"]) := rfl
  have hp : HasPrefix (Join [wd, "../etc/passwd"]) (Join [wd, "indir"]) = false := by
    by_cases hw : wd = ""
    · subst hw
      decide
    · rw [Join_of_ne hw, Join_of_ne hw]
      unfold HasPrefix
      rw [Clean_data, Clean_data, sep_data, sep_data,
        cleanChars_append_sep (data_ne_nil hw), cleanChars_append_sep (data_ne_nil hw)]
      have e1 : elems "indir".data = ["indir".data] := by decide
      have e2 : elems "../etc/passwd".data = [dotdot, "etc".data, "passwd".data] := by decide
      rw [e1, e2]
      simp only [List.foldl_cons, List.foldl_nil]
      rw [cleanStep_push _ _ (by decide) (by decide) (by decide),
        cleanStep_push _ _ (by decide) (by decide) (by decide),
        cleanStep_push _ _ (by decide) (by decide) (by decide)]
      exact etc_passwd_outside _ _ (norm_noSep (norm_clean _ wd.data))
  unfold safeJoin
  simp only [hc, hb, ha, Option.getD_some, hp, Bool.not_false, if_true]

/-- A request whose path the resolver rejects is answered with 403 Forbidden as
the only call the handler makes: no stat, no directory or file read, no file
serving and no template; and `../../etc/passwd` is such a request in every
working directory that `os.Getwd` reports. -/
theorem handler_rejects_without_io :
    (∀ (w : World) (lower : Char → Char) (query : String) (err : GoError),
      safeJoin w.Getwd baseDir (if query = "" then "." else query) = .error err →
      handler w lower query = [.httpError "Access denied" 403]) ∧
    (∀ (w : World) (lower : Char → Char) (wd : String), w.Getwd = some wd →
      safeJoin w.Getwd baseDir "../../etc/passwd" = .error .ErrPermission ∧
      handler w lower "../../etc/passwd" = [.httpError "Access denied" 403]) := by
  have h1 : ∀ (w : World) (lower : Char → Char) (query : String) (err : GoError),
      safeJoin w.Getwd baseDir (if query = "" then "." else query) = .error err →
      handler w lower query = [.httpError "Access denied" 403] := by
    intro w lower query err h
    unfold handler
    simp only [h]
  refine ⟨h1, ?_⟩
  intro w lower wd hw
  have h2 : safeJoin w.Getwd baseDir "../../etc/passwd" = .error .ErrPermission := by
    rw [hw]
    exact safeJoin_etc_passwd wd
  exact ⟨h2, h1 w lower "../../etc/passwd" .ErrPermission h2⟩

theorem handler_rejects_without_io_witness :
    safeJoin demoWorld.Getwd baseDir "../indir2/../.." = .error .ErrPermission ∧
    handler demoWorld Char.toLower "../indir2/../.." = [.httpError "Access denied" 403] :=
  ⟨by decide,
   handler_rejects_without_io.1 demoWorld Char.toLower "../indir2/../.." .ErrPermission
    (by decide)⟩

/-- C4 at the request `../../etc/passwd` in a process whose working directory
cannot be determined: both errors of `filepath.Abs` are dropped, the empty
absolute base is a prefix of the empty absolute path, the resolver returns
`../etc/passwd`, and the handler stats and reads that file and renders it,
with no 403 among its calls. -/
theorem handler_reads_passwd_without_wd :
    lostWorld.Getwd = none ∧
    Abs lostWorld.Getwd baseDir = none ∧
    safeJoin lostWorld.Getwd baseDir "../../etc/passwd" = .ok "../etc/passwd" ∧
    handler lostWorld Char.toLower "../../etc/passwd" =
      [.stat "../etc/passwd", .readFile "../etc/passwd",
       .execute
        { CurrentPath := "../../etc/passwd", ParentPath := "../../etc",
          IsFileView := true, FileContent := "root:x:0:0:root:/root:/bin/sh" }] ∧
    Op.httpError "Access denied" 403 ∉ handler lostWorld Char.toLower "../../etc/passwd" := by
  decide

/-! ## The links of a listing -/

theorem dotdot_mem_cleanStep {out : List (List Char)} (e : List Char)
    (h : dotdot ∈ out) : dotdot ∈ cleanStep false out e := by
  by_cases h0 : e = [] ∨ e = ['.']
  · rw [cleanStep_skip false out h0]
    exact h
  · rw [not_or] at h0
    by_cases hd : e = dotdot
    · subst hd
      cases out with
      | nil => simp at h
      | cons t rest =>
        by_cases ht : t = dotdot
        · subst ht
          rw [cleanStep_dotdot_dotdot]
          simp
        · rw [cleanStep_dotdot_pop false rest ht]
          rcases List.mem_cons.1 h with h1 | h1
          · exact absurd h1.symm ht
          · exact h1
    · rw [cleanStep_push false out h0.1 h0.2 hd]
      exact List.mem_cons_of_mem _ h

theorem cleanStep_mode_eq {out : List (List Char)} (e : List Char)
    (h1 : dotdot ∉ out) (h2 : dotdot ∉ cleanStep false out e) :
    cleanStep true out e = cleanStep false out e := by
  by_cases h0 : e = [] ∨ e = ['.']
  · rw [cleanStep_skip false out h0, cleanStep_skip true out h0]
  · rw [not_or] at h0
    by_cases hd : e = dotdot
    · subst hd
      cases out with
      | nil =>
        rw [cleanStep_dotdot_nil] at h2
        simp at h2
      | cons t rest =>
        have ht : t ≠ dotdot := fun ht => h1 (by simp [ht])
        rw [cleanStep_dotdot_pop false rest ht, cleanStep_dotdot_pop true rest ht]
    · rw [cleanStep_push false out h0.1 h0.2 hd, cleanStep_push true out h0.1 h0.2 hd]

/-- A path that does not climb above its start has the same elements written
whether it is cleaned as a rooted path or not. -/
theorem foldl_cleanStep_mode_eq (es : List (List Char))
    (h : dotdot ∉ es.foldl (cleanStep false) []) :
    es.foldl (cleanStep true) [] = es.foldl (cleanStep false) [] := by
  induction es using List.reverseRecOn with
  | nil => rfl
  | append_singleton es e ih =>
    rw [List.foldl_append, List.foldl_cons, List.foldl_nil] at h
    have h1 : dotdot ∉ es.foldl (cleanStep false) [] :=
      fun hmem => h (dotdot_mem_cleanStep e hmem)
    rw [List.foldl_append, List.foldl_append, List.foldl_cons, List.foldl_nil,
      List.foldl_cons, List.foldl_nil, ih h1]
    exact cleanStep_mode_eq e h1 h

theorem isRooted_real {n : List Char} (h : Real n) : isRooted n = false := by
  cases n with
  | nil => rfl
  | cons c cs =>
    have hc : c ≠ '/' := fun hc => h.2.2.2 (by simp [hc])
    simp [isRooted, hc]

theorem cleanChars_real {n : List Char} (h : Real n) : cleanChars n = n := by
  rw [cleanChars_eq, isRooted_real h, elems_of_noSep h.2.2.2]
  simp only [List.foldl_cons, List.foldl_nil]
  rw [cleanStep_real false [] h]
  rfl

theorem cleanChars_indir (x : List Char) :
    cleanChars ("indir".data ++ '/' :: x) =
      render false ((elems x).foldl (cleanStep false) ["indir".data]) := by
  rw [cleanChars_append_sep (by decide)]
  rfl

theorem norm_indir (x : List Char) :
    Norm false ((elems x).foldl (cleanStep false) ["indir".data]) :=
  foldl_cleanStep_norm false (elems x) _
    (Or.inl ⟨⟨by decide, by decide, by decide, by decide⟩, trivial⟩) (noSep_of_mem_elems x)

/-- The elements written for the base joined with the path of an entry are the
name after the elements written for the base joined with the listed path. -/
theorem foldl_elems_Join (relPath name : String) (hn : Real name.data)
    (hrel : IsAbs relPath = false ∨ climbsAbove relPath = false) :
    (elems (Join [relPath, name]).data).foldl (cleanStep false) ["indir".data] =
      name.data :: (elems relPath.data).foldl (cleanStep false) ["indir".data] := by
  by_cases hr : relPath = ""
  · subst hr
    have hne : name ≠ "" := fun h => hn.1 (by rw [h])
    rw [Join_empty_left, if_neg hne, Clean_data, cleanChars_real hn, elems_of_noSep hn.2.2.2]
    simp only [List.foldl_cons, List.foldl_nil]
    rw [cleanStep_real false _ hn]
    rfl
  · rw [Join_of_ne hr, Clean_data, sep_data, cleanChars_append_sep (data_ne_nil hr),
      elems_of_noSep hn.2.2.2]
    simp only [List.foldl_cons, List.foldl_nil]
    rw [cleanStep_real _ _ hn]
    have hnorm := norm_clean (isRooted relPath.data) relPath.data
    have hsep : ∀ e ∈ name.data :: (elems relPath.data).foldl
        (cleanStep (isRooted relPath.data)) [], '/' ∉ e := by
      intro e he
      rcases List.mem_cons.1 he with rfl | he
      · exact hn.2.2.2
      · exact norm_noSep hnorm e he
    rw [foldl_elems_render _ _ _ _ hsep, List.foldr_cons, cleanStep_real false _ hn]
    congr 1
    have hmode : (elems relPath.data).foldl (cleanStep (isRooted relPath.data)) [] =
        (elems relPath.data).foldl (cleanStep false) [] := by
      rcases hrel with h | h
      · have h1 : isRooted relPath.data = false := h
        rw [h1]
      · cases hroot : isRooted relPath.data with
        | false => rfl
        | true =>
          apply foldl_cleanStep_mode_eq
          simpa [climbsAbove] using h
    rw [hmode]
    exact foldl_cleanStep_replay false _ _ (noSep_of_mem_elems relPath.data)

theorem isPrefixOf_append_right (l a b : List Char) (h : l.isPrefixOf a = true) :
    l.isPrefixOf (a ++ b) = true := by
  rw [List.isPrefixOf_iff_prefix] at h ⊢
  exact h.trans (List.prefix_append a b)

theorem length_le_of_isPrefixOf (l a : List Char) (h : l.isPrefixOf a = true) :
    l.length ≤ a.length := by
  rw [List.isPrefixOf_iff_prefix] at h
  exact h.length_le

theorem stem_of_ne_nil (r : Bool) {out : List (List Char)} (h : out ≠ []) :
    stem r out = render r out ++ ['/'] := by
  cases out with
  | nil => exact absurd rfl h
  | cons t rest => rfl

theorem render_length_le_one (r : Bool) : (render r []).length ≤ 1 := by
  cases r <;> decide

/-- A path that begins with a prefix of five characters or more still begins
with it after a real element is written. -/
theorem isPrefixOf_render_cons (r : Bool) (l n : List Char) (out : List (List Char))
    (hl : 5 ≤ l.length) (h : l.isPrefixOf (render r out) = true) :
    l.isPrefixOf (render r (n :: out)) = true := by
  by_cases ho : out = []
  · subst ho
    have h1 := length_le_of_isPrefixOf _ _ h
    have h2 := render_length_le_one r
    omega
  · rw [render_cons, stem_of_ne_nil r ho, List.append_assoc]
    exact isPrefixOf_append_right _ _ _ h

theorem baseDir_ne_empty : baseDir ≠ "" := by decide

theorem Clean_Join_baseDir (x : String) :
    Clean (Join [baseDir, x]) =
      ⟨render false ((elems x.data).foldl (cleanStep false) ["indir".data])⟩ := by
  rw [Join_of_ne baseDir_ne_empty, Clean_idem]
  apply String.ext
  rw [Clean_data, sep_data]
  exact cleanChars_indir x.data

theorem string_render_ne_empty (r : Bool) (out : List (List Char)) (hn : Norm r out) :
    (⟨render r out⟩ : String) ≠ "" := by
  intro h
  exact render_ne_nil r out (norm_noSep hn) (norm_ne_nil hn) (congrArg String.data h)

theorem IsAbs_render (out : List (List Char)) (hn : Norm false out) :
    IsAbs ⟨render false out⟩ = false :=
  isRooted_render false out (norm_noSep hn) (norm_ne_nil hn)

/-- Joining a name to a clean path writes the name after its elements. -/
theorem Join_render_name (out : List (List Char)) (hn : Norm false out) (name : String)
    (hname : Real name.data) :
    Join [⟨render false out⟩, name] = ⟨render false (name.data :: out)⟩ := by
  rw [Join_of_ne (string_render_ne_empty false out hn)]
  apply String.ext
  rw [Clean_data, sep_data]
  show cleanChars (render false out ++ '/' :: name.data) = _
  rw [cleanChars_append_sep (render_ne_nil _ _ (norm_noSep hn) (norm_ne_nil hn)),
    isRooted_render false out (norm_noSep hn) (norm_ne_nil hn),
    foldl_elems_render _ _ _ _ (norm_noSep hn), foldr_cleanStep_self _ _ hn,
    elems_of_noSep hname.2.2.2]
  simp only [List.foldl_cons, List.foldl_nil]
  rw [cleanStep_real false out hname]

/-- The absolute form of a clean path that is not rooted, in the working
directory `d`: the elements of the path read after those of `d`. -/
theorem Join_wd_render (d : String) (out : List (List Char)) (hn : Norm false out) :
    Join [d, ⟨render false out⟩] =
      ⟨render (isRooted d.data) (out.foldr (fun x acc => cleanStep (isRooted d.data) acc x)
        ((elems d.data).foldl (cleanStep (isRooted d.data)) []))⟩ := by
  by_cases hd : d = ""
  · subst hd
    rw [Join_empty_left, if_neg (string_render_ne_empty false out hn)]
    apply String.ext
    rw [Clean_data]
    show cleanChars (render false out) =
      render false (out.foldr (fun x acc => cleanStep false acc x) [])
    rw [cleanChars_render false out hn, foldr_cleanStep_self false out hn]
  · rw [Join_of_ne hd]
    apply String.ext
    rw [Clean_data, sep_data]
    show cleanChars (d.data ++ '/' :: render false out) = _
    rw [cleanChars_append_sep (data_ne_nil hd), foldl_elems_render _ _ _ _ (norm_noSep hn)]

theorem norm_singleton_indir : Norm false ["indir".data] :=
  Or.inl ⟨⟨by decide, by decide, by decide, by decide⟩, trivial⟩

theorem baseDir_eq_render : baseDir = ⟨render false ["indir".data]⟩ := by decide

/-- The step from a listed directory to a child: when the directory is
accepted with the clean path of elements `out`, so is the child. -/
theorem accepted_child (wd : Option String) (out : List (List Char)) (hn : Norm false out)
    (n : List Char) (hreal : Real n)
    (h : HasPrefix ((Abs wd ⟨render false out⟩).getD "") ((Abs wd baseDir).getD "") = true) :
    HasPrefix ((Abs wd ⟨render false (n :: out)⟩).getD "") ((Abs wd baseDir).getD "") = true := by
  have hn2 : Norm false (n :: out) := Or.inl ⟨hreal, hn⟩
  unfold Abs at h ⊢
  rw [IsAbs_render out hn] at h
  rw [IsAbs_render _ hn2]
  have hb : IsAbs baseDir = false := by decide
  rw [hb] at h ⊢
  cases wd with
  | none => exact HasPrefix_empty _
  | some d =>
    simp only [Bool.false_eq_true, if_false, Option.getD_some] at h ⊢
    rw [Join_wd_render d _ hn2, List.foldr_cons, cleanStep_real _ _ hreal]
    rw [Join_wd_render d _ hn] at h
    have hbase : Join [d, baseDir] =
        ⟨render (isRooted d.data) (["indir".data].foldr
          (fun x acc => cleanStep (isRooted d.data) acc x)
          ((elems d.data).foldl (cleanStep (isRooted d.data)) []))⟩ := by
      rw [baseDir_eq_render]
      exact Join_wd_render d _ norm_singleton_indir
    rw [hbase] at h ⊢
    unfold HasPrefix at h ⊢
    refine isPrefixOf_render_cons _ _ _ _ ?_ h
    show 5 ≤ (render _ _).length
    rw [List.foldr_cons, List.foldr_nil,
      cleanStep_push _ _ (by decide) (by decide) (by decide), render_cons, List.length_append]
    exact Nat.le_add_left _ _

theorem safeJoin_ok_iff (wd : Option String) (base rel full : String) :
    safeJoin wd base rel = .ok full ↔
      HasPrefix ((Abs wd (Clean (Join [base, rel]))).getD "") ((Abs wd base).getD "") = true ∧
        Clean (Join [base, rel]) = full := by
  unfold safeJoin
  cases h : HasPrefix ((Abs wd (Clean (Join [base, rel]))).getD "") ((Abs wd base).getD "")
  · simp [h]
  · simp [h]

/-- The resolver follows a listing link to the child: for a listed path that is
accepted and is not rooted, or does not climb above its start, the path of the
entry for a real name is accepted and resolves to the child of that name. -/
theorem safeJoin_child (wd : Option String) (relPath name full : String)
    (hname : Real name.data)
    (hrel : IsAbs relPath = false ∨ climbsAbove relPath = false)
    (hj : safeJoin wd baseDir relPath = .ok full) :
    safeJoin wd baseDir (Join [relPath, name]) = .ok (Join [full, name]) := by
  rw [safeJoin_ok_iff, Clean_Join_baseDir] at hj
  obtain ⟨hacc, hfull⟩ := hj
  have hn := norm_indir relPath.data
  rw [safeJoin_ok_iff, Clean_Join_baseDir, foldl_elems_Join relPath name hname hrel,
    ← hfull, Join_render_name _ hn name hname]
  exact ⟨accepted_child wd _ hn name.data hname hacc, rfl⟩

/-! ## The file branch -/

/-- The switch of the file branch, by the extension. -/
theorem classify_iff (ext : String) :
    (classify ext = .Image ↔ ext ∈ imageExts) ∧
    (classify ext = .Video ↔ ext ∈ videoExts) ∧
    (classify ext = .Archive ↔ ext = ".zip") ∧
    (classify ext = .PlainText ↔ (ext ∉ imageExts ∧ ext ∉ videoExts ∧ ext ≠ ".zip")) := by
  unfold classify imageExts videoExts
  by_cases h1 : ext = ".png" ∨ ext = ".jpg" ∨ ext = ".jpeg" ∨ ext = ".gif" ∨ ext = ".bmp"
  · rw [if_pos h1]
    rcases h1 with h | h | h | h | h <;> subst h <;> decide
  · rw [if_neg h1]
    by_cases h2 : ext = ".mp4" ∨ ext = ".webm" ∨ ext = ".ogg"
    · rw [if_pos h2]
      rcases h2 with h | h | h <;> subst h <;> decide
    · rw [if_neg h2]
      by_cases h3 : ext = ".zip"
      · rw [if_pos h3]
        subst h3
        decide
      · rw [if_neg h3]
        simp only [not_or] at h1 h2
        simp [h1, h2, h3]

/-- What the handler does with a file, by the lower-cased extension of its path. -/
theorem handler_file_branch (w : World) (lower : Char → Char) (query full : String)
    (info : FileInfo)
    (hj : safeJoin w.Getwd baseDir (if query = "" then "." else query) = .ok full)
    (hs : w.Stat full = .ok info) (hd : info.IsDir = false) :
    (ToLower lower (Ext full) ∈ imageExts →
      handler w lower query =
        [.stat full,
         if info.IsRegular then .serveFile full
         else .execute
          { CurrentPath := if query = "" then "." else query
            ParentPath := parentPath (if query = "" then "." else query)
            IsFileView := true, IsImage := true }]) ∧
    (ToLower lower (Ext full) ∈ videoExts →
      handler w lower query =
        [.stat full,
         if info.IsRegular then .serveFile full
         else .execute
          { CurrentPath := if query = "" then "." else query
            ParentPath := parentPath (if query = "" then "." else query)
            IsFileView := true, IsVideo := true }]) ∧
    (ToLower lower (Ext full) = ".zip" →
      handler w lower query =
        [.stat full,
         .setHeader "Content-Type" "application/zip",
         .setHeader "Content-Disposition" ("attachment; filename=" ++ Base full),
         .serveFile full]) ∧
    ((ToLower lower (Ext full) ∉ imageExts ∧ ToLower lower (Ext full) ∉ videoExts ∧
        ToLower lower (Ext full) ≠ ".zip") →
      handler w lower query =
        .stat full :: .readFile full ::
          (match w.ReadFile full with
            | .error _ => [.httpError "Could not read file" 500]
            | .ok content =>
              [.execute
                { CurrentPath := if query = "" then "." else query
                  ParentPath := parentPath (if query = "" then "." else query)
                  IsFileView := true, FileContent := content }])) := by
  obtain ⟨c1, c2, c3, c4⟩ := classify_iff (ToLower lower (Ext full))
  refine ⟨?_, ?_, ?_, ?_⟩
  · intro h
    unfold handler
    simp only [hj, hs, hd, c1.2 h, finish]
    cases info.IsRegular <;> simp
  · intro h
    unfold handler
    simp only [hj, hs, hd, c2.2 h, finish]
    cases info.IsRegular <;> simp
  · intro h
    unfold handler
    simp only [hj, hs, hd, c3.2 h]
    simp
  · intro h
    unfold handler
    simp only [hj, hs, hd, c4.2 h, finish]
    cases w.ReadFile full <;> simp

/-- A name directly below the base directory is accepted in every working
directory, also when it cannot be determined. -/
theorem safeJoin_name (wd : Option String) (name : String) (hn : Real name.data) :
    safeJoin wd baseDir (Join ["", name]) = .ok (Join ["indir", name]) :=
  safeJoin_child wd "" name "indir" hn (Or.inl rfl)
    (by rw [safeJoin_of_clean_eq wd baseDir "" (Clean_Join_empty baseDir)]; rfl)

/-- C5: for every request that resolves to a file, the file branch of the
handler treats it by the lower-cased extension of its path alone, in exactly
one of four ways: as an Image for .png .jpg .jpeg .gif .bmp and as a Video for
.mp4 .webm .ogg (served directly when regular, else shown with the flag set),
as an Archive for .zip (sent as an attachment) and as PlainText for everything
else, the empty extension included (read and shown as text); the extension of
a path is that of its last element, the file name; photo.JPG is treated as an
Image, clip.mp4 as a Video, bundle.zip as an Archive and notes.md as PlainText. -/
theorem handler_classifies_by_extension :
    (∀ (w : World) (lower : Char → Char) (query full : String) (info : FileInfo),
      safeJoin w.Getwd baseDir (if query = "" then "." else query) = .ok full →
      w.Stat full = .ok info → info.IsDir = false →
      (ToLower lower (Ext full) ∈ imageExts →
        handler w lower query =
          [.stat full,
           if info.IsRegular then .serveFile full
           else .execute
            { CurrentPath := if query = "" then "." else query
              ParentPath := parentPath (if query = "" then "." else query)
              IsFileView := true, IsImage := true }]) ∧
      (ToLower lower (Ext full) ∈ videoExts →
        handler w lower query =
          [.stat full,
           if info.IsRegular then .serveFile full
           else .execute
            { CurrentPath := if query = "" then "." else query
              ParentPath := parentPath (if query = "" then "." else query)
              IsFileView := true, IsVideo := true }]) ∧
      (ToLower lower (Ext full) = ".zip" →
        handler w lower query =
          [.stat full,
           .setHeader "Content-Type" "application/zip",
           .setHeader "Content-Disposition" ("attachment; filename=" ++ Base full),
           .serveFile full]) ∧
      ((ToLower lower (Ext full) ∉ imageExts ∧ ToLower lower (Ext full) ∉ videoExts ∧
          ToLower lower (Ext full) ≠ ".zip") →
        handler w lower query =
          .stat full :: .readFile full ::
            (match w.ReadFile full with
              | .error _ => [.httpError "Could not read file" 500]
              | .ok content =>
                [.execute
                  { CurrentPath := if query = "" then "." else query
                    ParentPath := parentPath (if query = "" then "." else query)
                    IsFileView := true, FileContent := content }]))) ∧
    (∀ ext : String,
      (ext ∈ imageExts → ext ∉ videoExts ∧ ext ≠ ".zip") ∧
      (ext ∈ videoExts → ext ∉ imageExts ∧ ext ≠ ".zip") ∧
      (ext = ".zip" → ext ∉ imageExts ∧ ext ∉ videoExts)) ∧
    imageExts = [".png", ".jpg", ".jpeg", ".gif", ".bmp"] ∧
    videoExts = [".mp4", ".webm", ".ogg"] ∧
    (∀ dir name : String, '/' ∉ name.data → Ext (dir ++ "/" ++ name) = Ext name) ∧
    (∀ (w : World) (lower : Char → Char) (info : FileInfo),
      (∀ c : Char, c.toNat < 128 → lower c = c.toLower) → info.IsDir = false →
      (w.Stat "indir/photo.JPG" = .ok info →
        handler w lower "photo.JPG" =
          [.stat "indir/photo.JPG",
           if info.IsRegular then .serveFile "indir/photo.JPG"
           else .execute
            { CurrentPath := "photo.JPG", ParentPath := ".",
              IsFileView := true, IsImage := true }]) ∧
      (w.Stat "indir/clip.mp4" = .ok info →
        handler w lower "clip.mp4" =
          [.stat "indir/clip.mp4",
           if info.IsRegular then .serveFile "indir/clip.mp4"
           else .execute
            { CurrentPath := "clip.mp4", ParentPath := ".",
              IsFileView := true, IsVideo := true }]) ∧
      (w.Stat "indir/bundle.zip" = .ok info →
        handler w lower "bundle.zip" =
          [.stat "indir/bundle.zip",
           .setHeader "Content-Type" "application/zip",
           .setHeader "Content-Disposition" "attachment; filename=bundle.zip",
           .serveFile "indir/bundle.zip"]) ∧
      (w.Stat "indir/notes.md" = .ok info →
        handler w lower "notes.md" =
          .stat "indir/notes.md" :: .readFile "indir/notes.md" ::
            (match w.ReadFile "indir/notes.md" with
              | .error _ => [.httpError "Could not read file" 500]
              | .ok content =>
                [.execute
                  { CurrentPath := "notes.md", ParentPath := ".",
                    IsFileView := true, FileContent := content }]))) := by
  refine ⟨handler_file_branch, ?_, rfl, rfl, Ext_sep, ?_⟩
  · intro ext
    refine ⟨?_, ?_, ?_⟩
    · intro h
      simp only [imageExts, List.mem_cons, List.mem_singleton, List.not_mem_nil, or_false] at h
      rcases h with h | h | h | h | h <;> subst h <;> decide
    · intro h
      simp only [videoExts, List.mem_cons, List.mem_singleton, List.not_mem_nil, or_false] at h
      rcases h with h | h | h <;> subst h <;> decide
    · intro h
      subst h
      decide
  · intro w lower info hl hd
    have a1 : ToLower lower (Ext "indir/photo.JPG") = ".jpg" := by
      rw [ToLower_ascii lower hl _ (by decide)]; decide
    have a2 : ToLower lower (Ext "indir/clip.mp4") = ".mp4" := by
      rw [ToLower_ascii lower hl _ (by decide)]; decide
    have a3 : ToLower lower (Ext "indir/bundle.zip") = ".zip" := by
      rw [ToLower_ascii lower hl _ (by decide)]; decide
    have a4 : ToLower lower (Ext "indir/notes.md") = ".md" := by
      rw [ToLower_ascii lower hl _ (by decide)]; decide
    have j1 : safeJoin w.Getwd baseDir (if "photo.JPG" = "" then "." else "photo.JPG") =
        .ok "indir/photo.JPG" :=
      safeJoin_name w.Getwd "photo.JPG" (by decide)
    have j2 : safeJoin w.Getwd baseDir (if "clip.mp4" = "" then "." else "clip.mp4") =
        .ok "indir/clip.mp4" :=
      safeJoin_name w.Getwd "clip.mp4" (by decide)
    have j3 : safeJoin w.Getwd baseDir (if "bundle.zip" = "" then "." else "bundle.zip") =
        .ok "indir/bundle.zip" :=
      safeJoin_name w.Getwd "bundle.zip" (by decide)
    have j4 : safeJoin w.Getwd baseDir (if "notes.md" = "" then "." else "notes.md") =
        .ok "indir/notes.md" :=
      safeJoin_name w.Getwd "notes.md" (by decide)
    refine ⟨?_, ?_, ?_, ?_⟩
    · intro hs
      exact (handler_file_branch w lower "photo.JPG" _ info j1 hs hd).1 (by rw [a1]; decide)
    · intro hs
      exact (handler_file_branch w lower "clip.mp4" _ info j2 hs hd).2.1 (by rw [a2]; decide)
    · intro hs
      exact (handler_file_branch w lower "bundle.zip" _ info j3 hs hd).2.2.1 a3
    · intro hs
      exact (handler_file_branch w lower "notes.md" _ info j4 hs hd).2.2.2
        (by rw [a4]; decide)

theorem handler_classifies_by_extension_witness :
    safeJoin filesWorld.Getwd baseDir "photo.JPG" = .ok "indir/photo.JPG" ∧
    filesWorld.Stat "indir/photo.JPG" = .ok ⟨false, true⟩ ∧
    ToLower Char.toLower (Ext "indir/photo.JPG") ∈ imageExts ∧
    handler filesWorld Char.toLower "photo.JPG" =
      [.stat "indir/photo.JPG", .serveFile "indir/photo.JPG"] :=
  ⟨by decide, by decide, by decide,
   (handler_classifies_by_extension.1 filesWorld Char.toLower "photo.JPG" "indir/photo.JPG"
      ⟨false, true⟩ (by decide) (by decide) rfl).1 (by decide)⟩

/-! ## The links of a listing, resolved -/

/-- C10, as amended: for a listed path that the resolver accepts and that is
not rooted, or is rooted without a `..` that leads above its leading separator,
`listDir` reads the resolved directory and gives every item the path
`Join(relPath, name)`; for every name that is a single segment the resolver
accepts that path and returns `Join(full, name)`. -/
theorem listDir_links_resolve (w : World) (relPath full : String) (depth : Int)
    (items : List DirEntry) (hd : depth ≤ maxDepth)
    (hrel : IsAbs relPath = false ∨ climbsAbove relPath = false)
    (hj : safeJoin w.Getwd baseDir relPath = .ok full)
    (hr : w.ReadDir full = .ok items) :
    listDir w relPath depth = ([.readDir full], .ok (items.map (mkEntry relPath))) ∧
    ∀ it ∈ items, Real it.Name.data →
      (mkEntry relPath it).Path = Join [relPath, it.Name] ∧
      safeJoin w.Getwd baseDir (mkEntry relPath it).Path = .ok (Join [full, it.Name]) := by
  constructor
  · unfold listDir
    rw [if_neg (not_lt.2 hd)]
    simp only [hj, hr]
  · intro it _ hreal
    exact ⟨rfl, safeJoin_child w.Getwd relPath it.Name full hreal hrel hj⟩

theorem listDir_links_resolve_witness :
    safeJoin demoWorld.Getwd baseDir "../indir" = .ok "indir" ∧
    listDir demoWorld "../indir" 1 =
      ([.readDir "indir"],
       .ok [⟨"b.txt", "../indir/b.txt", "file"⟩, ⟨"A", "../indir/A", "dir"⟩,
         ⟨"a.txt", "../indir/a.txt", "file"⟩, ⟨"B", "../indir/B", "dir"⟩]) ∧
    safeJoin demoWorld.Getwd baseDir (mkEntry "../indir" ⟨"A", true⟩).Path = .ok "indir/A" := by
  have h := listDir_links_resolve demoWorld "../indir" "indir" 1
    [⟨"b.txt", false⟩, ⟨"A", true⟩, ⟨"a.txt", false⟩, ⟨"B", true⟩]
    (by decide) (Or.inl (by decide)) (by decide) (by decide)
  refine ⟨by decide, h.1.trans (by decide), ?_⟩
  exact ((h.2 ⟨"A", true⟩ (by decide) ⟨by decide, by decide, by decide, by decide⟩).2).trans
    (by decide)

/-- C10, as stated, fails at the accepted path `/../indir`: its listing is that
of the base directory, the entry for the child `A` gets the path `/indir/A`,
and the resolver returns `indir/indir/A` for it, not the child `indir/A`. -/
theorem listDir_link_misses_child :
    safeJoin demoWorld.Getwd baseDir "/../indir" = .ok "indir" ∧
    listDir demoWorld "/../indir" 1 =
      ([.readDir "indir"],
       .ok [⟨"b.txt", "/indir/b.txt", "file"⟩, ⟨"A", "/indir/A", "dir"⟩,
         ⟨"a.txt", "/indir/a.txt", "file"⟩, ⟨"B", "/indir/B", "dir"⟩]) ∧
    Real "A".data ∧
    Join ["/../indir", "A"] = "/indir/A" ∧
    safeJoin demoWorld.Getwd baseDir "/indir/A" = .ok "indir/indir/A" ∧
    Join ["indir", "A"] = "indir/A" ∧
    safeJoin demoWorld.Getwd baseDir (mkEntry "/../indir" ⟨"A", true⟩).Path ≠
      .ok (Join ["indir", "A"]) :=
  ⟨by decide, by decide, ⟨by decide, by decide, by decide, by decide⟩, by decide, by decide,
   by decide, by decide⟩

end VideoBrowser
